import Mathlib

/-!
# A shallow embedding of `mm.c` (segregated free lists, boundary tags)

The C program manipulates one flat byte region through word-sized loads and
stores.  The embedding keeps that view: memory is a function from addresses to
bytes, the macros of `mm.c` become functions of the same name, and every
function of `mm.c` that touches the heap takes the heap state and returns the
new one.  `size_t` arithmetic is reduced modulo `2^64` where the C code can
wrap, and 4-byte stores keep the low 32 bits of the stored value.  Pointer
arithmetic is plain arithmetic on addresses.
-/

namespace Malloc

/-! ## Memory -/

/-- Byte-addressed memory: the byte held at every address.  Loads and stores are total:
the model has no notion of a fault, so a run of the model describes the C program only as
long as every access stays inside the backend's mapping; an access outside it is undefined
behaviour in C. -/
abbrev Mem := Nat → Nat

/-- Number of values of a `size_t` / pointer (64 bits). -/
abbrev U64 : Nat := 18446744073709551616

/-- Number of values of an `unsigned int` (32 bits). -/
abbrev U32 : Nat := 4294967296

/-- Little-endian load of `k` bytes starting at address `p`. -/
def load (m : Mem) (p : Nat) : Nat → Nat
  | 0 => 0
  | k + 1 => m p % 256 + 256 * load m (p + 1) k

/-- Little-endian store of the low `k` bytes of `v` starting at address `p`. -/
def store (m : Mem) (p : Nat) : Nat → Nat → Mem
  | 0, _ => m
  | k + 1, v => store (fun a => if a = p then v % 256 else m a) (p + 1) k (v / 256)

/-- The C library `memcpy` on non-overlapping ranges: `n` bytes from `src` to `dst`. -/
def memcpy (m : Mem) (dst src n : Nat) : Mem :=
  fun a => if dst ≤ a ∧ a < dst + n then m (src + (a - dst)) else m a

/-- The C library `memset`: `n` bytes at `p` set to the byte `c`.  The model sets the
bytes whatever the range; it describes the C call only when the range lies inside the
mapping. -/
def memset (m : Mem) (p c n : Nat) : Mem :=
  fun a => if p ≤ a ∧ a < p + n then c % 256 else m a

/-! ## Constants and macros of `mm.c` -/

abbrev WSIZE : Nat := 4
abbrev DSIZE : Nat := 8
abbrev CHUNKSIZE : Nat := 672
abbrev H_SIZE : Nat := 4
abbrev F_SIZE : Nat := 4
abbrev FREE_PTR_SIZE : Nat := 8
abbrev OVERHEAD : Nat := H_SIZE + F_SIZE + FREE_PTR_SIZE + FREE_PTR_SIZE
abbrev ALLOC_OVERHEAD : Nat := H_SIZE + F_SIZE
abbrev ALIGNMENT : Nat := 8

/-- The macro `MAX(x, y)`. -/
def MAX (x y : Nat) : Nat := if x > y then x else y

/-- The macro `MIN(x, y)`. -/
def MIN (x y : Nat) : Nat := if x < y then x else y

/-- The macro `PACK(size, alloc)`: bitwise or of a size and an allocated bit. -/
def PACK (size alloc : Nat) : Nat := size ||| alloc

/-- The macro `GET4(p)`: the `unsigned int` at address `p`. -/
def GET4 (m : Mem) (p : Nat) : Nat := load m p 4

/-- The macro `PUT4(p, val)`: store `val` as an `unsigned int` at address `p`. -/
def PUT4 (m : Mem) (p val : Nat) : Mem := store m p 4 val

/-- The macro `GET(p)`: the `unsigned long` at address `p`. -/
def GET (m : Mem) (p : Nat) : Nat := load m p 8

/-- The macro `PUT(p, val)`: store `val` as an `unsigned long` at address `p`. -/
def PUT (m : Mem) (p val : Nat) : Mem := store m p 8 val

/-- The macro `PUTP(p, val)`: store the pointer `val` in the double word at `p`. -/
def PUTP (m : Mem) (p val : Nat) : Mem := store m p 8 val

/-- The macro `GET_SIZE(p)`: `GET4(p) & ~0x7` in `unsigned int`. -/
def GET_SIZE (m : Mem) (p : Nat) : Nat := GET4 m p &&& 4294967288

/-- The macro `GET_ALLOC(p)`: `GET4(p) & 0x1`. -/
def GET_ALLOC (m : Mem) (p : Nat) : Nat := GET4 m p &&& 1

/-- The macro `HDRP(bp)`: address of the header of the block at `bp`. -/
def HDRP (bp : Nat) : Nat := bp - WSIZE

/-- The macro `FTRP(bp)`: address of the footer of the block at `bp`. -/
def FTRP (m : Mem) (bp : Nat) : Nat := bp + GET_SIZE m (HDRP bp) - DSIZE

/-- The macro `NEXT_BLKP(bp)`: block pointer of the physically next block. -/
def NEXT_BLKP (m : Mem) (bp : Nat) : Nat := bp + GET_SIZE m (bp - WSIZE)

/-- The macro `PREV_BLKP(bp)`: block pointer of the physically previous block. -/
def PREV_BLKP (m : Mem) (bp : Nat) : Nat := bp - GET_SIZE m (bp - DSIZE)

/-- The macro `PREV_FREE(bp)`: address of the predecessor link of a free block. -/
def PREV_FREE (bp : Nat) : Nat := bp

/-- The macro `NEXT_FREE(bp)`: address of the successor link of a free block. -/
def NEXT_FREE (bp : Nat) : Nat := bp + FREE_PTR_SIZE

/-- The macro `GET_FREE(p)`: the pointer stored in the double word at `p`. -/
def GET_FREE (m : Mem) (p : Nat) : Nat := load m p 8

abbrev SEG1 : Nat := 0
abbrev SEG2 : Nat := 8
abbrev SEG3 : Nat := 16
abbrev SEG4 : Nat := 24
abbrev SEG5 : Nat := 32
abbrev SEG6 : Nat := 40
abbrev SEG7 : Nat := 48
abbrev SEG8 : Nat := 56
abbrev SEG9 : Nat := 64
abbrev SEG10 : Nat := 72
abbrev SEG11 : Nat := 80
abbrev SEG12 : Nat := 88
abbrev SEG13 : Nat := 96
abbrev SEG14 : Nat := 104

abbrev MAX1 : Nat := 24
abbrev MAX2 : Nat := 48
abbrev MAX3 : Nat := 72
abbrev MAX4 : Nat := 96
abbrev MAX5 : Nat := 120
abbrev MAX6 : Nat := 480
abbrev MAX7 : Nat := 960
abbrev MAX8 : Nat := 1920
abbrev MAX9 : Nat := 3840
abbrev MAX10 : Nat := 7680
abbrev MAX11 : Nat := 15360
abbrev MAX12 : Nat := 30720
abbrev MAX13 : Nat := 61440
abbrev NUM_SEGS : Nat := 14

/-! ## The heap state and the memory backend -/

/-- The allocator state: the byte region, the backend's break and limit, and the
two globals `heap_listp` and `seg_start` of `mm.c`. -/
structure Heap where
  /-- Contents of memory. -/
  mem : Mem
  /-- First address past the region handed out by the backend so far. -/
  mem_brk : Nat
  /-- Largest break the backend is willing to grant. -/
  mem_max_addr : Nat
  /-- The global `heap_listp`. -/
  heap_listp : Nat
  /-- The global `seg_start`. -/
  seg_start : Nat

/-- Modelled from the spec: the backend state before `mm_init`, an empty region
starting at `start` that the backend will grow up to `max_addr`; `m` is the
(arbitrary) initial content of memory.  The backend itself (`memlib`) is not part
of the sources. -/
def mem_init (m : Mem) (start max_addr : Nat) : Heap :=
  { mem := m, mem_brk := start, mem_max_addr := max_addr, heap_listp := 0, seg_start := 0 }

/-- Modelled from the spec: the backend operation `extend(bytes)` (`mem_sbrk`, whose
source is missing): grow the region by exactly `incr` bytes and return the address of
the first new byte, or refuse, leave the region as it is and return the failure
sentinel `(void *)-1`. -/
def mem_sbrk (s : Heap) (incr : Nat) : Heap × Nat :=
  if s.mem_brk + incr > s.mem_max_addr then (s, U64 - 1)
  else ({ s with mem_brk := s.mem_brk + incr }, s.mem_brk)

/-! ## Internal helper functions of `mm.c` -/

/-- The function `splice_block`: unlink the free block `bp` from its segregated list. -/
def splice_block (s : Heap) (bp : Nat) : Heap × Nat :=
  let prev_free := GET_FREE s.mem (PREV_FREE bp)
  let succ_free := GET_FREE s.mem (NEXT_FREE bp)
  let size := GET_SIZE s.mem (HDRP bp)
  if prev_free = 0 ∧ succ_free ≠ 0 then
    let m1 :=
      if size ≤ MAX1 then PUTP s.mem (s.seg_start + SEG1) succ_free
      else if size ≤ MAX2 then PUTP s.mem (s.seg_start + SEG2) succ_free
      else if size ≤ MAX3 then PUTP s.mem (s.seg_start + SEG3) succ_free
      else if size ≤ MAX4 then PUTP s.mem (s.seg_start + SEG4) succ_free
      else if size ≤ MAX5 then PUTP s.mem (s.seg_start + SEG5) succ_free
      else if size ≤ MAX6 then PUTP s.mem (s.seg_start + SEG6) succ_free
      else if size ≤ MAX7 then PUTP s.mem (s.seg_start + SEG7) succ_free
      else if size ≤ MAX8 then PUTP s.mem (s.seg_start + SEG8) succ_free
      else if size ≤ MAX9 then PUTP s.mem (s.seg_start + SEG9) succ_free
      else if size ≤ MAX10 then PUTP s.mem (s.seg_start + SEG10) succ_free
      else if size ≤ MAX11 then PUTP s.mem (s.seg_start + SEG11) succ_free
      else if size ≤ MAX12 then PUTP s.mem (s.seg_start + SEG12) succ_free
      else if size ≤ MAX13 then PUTP s.mem (s.seg_start + SEG13) succ_free
      else PUTP s.mem (s.seg_start + SEG14) succ_free
    ({ s with mem := PUTP m1 (PREV_FREE succ_free) 0 }, bp)
  else if prev_free ≠ 0 ∧ succ_free = 0 then
    ({ s with mem := PUTP s.mem (NEXT_FREE prev_free) 0 }, bp)
  else if prev_free = 0 ∧ succ_free = 0 then
    let m1 :=
      if size ≤ MAX1 then PUTP s.mem (s.seg_start + SEG1) 0
      else if size ≤ MAX2 then PUTP s.mem (s.seg_start + SEG2) 0
      else if size ≤ MAX3 then PUTP s.mem (s.seg_start + SEG3) 0
      else if size ≤ MAX4 then PUTP s.mem (s.seg_start + SEG4) 0
      else if size ≤ MAX5 then PUTP s.mem (s.seg_start + SEG5) 0
      else if size ≤ MAX6 then PUTP s.mem (s.seg_start + SEG6) 0
      else if size ≤ MAX7 then PUTP s.mem (s.seg_start + SEG7) 0
      else if size ≤ MAX8 then PUTP s.mem (s.seg_start + SEG8) 0
      else if size ≤ MAX9 then PUTP s.mem (s.seg_start + SEG9) 0
      else if size ≤ MAX10 then PUTP s.mem (s.seg_start + SEG10) 0
      else if size ≤ MAX11 then PUTP s.mem (s.seg_start + SEG11) 0
      else if size ≤ MAX12 then PUTP s.mem (s.seg_start + SEG12) 0
      else if size ≤ MAX13 then PUTP s.mem (s.seg_start + SEG13) 0
      else PUTP s.mem (s.seg_start + SEG14) 0
    ({ s with mem := m1 }, bp)
  else
    let m1 := PUTP s.mem (NEXT_FREE prev_free) succ_free
    ({ s with mem := PUTP m1 (PREV_FREE succ_free) prev_free }, bp)

/-- The function `coalesce`: boundary-tag coalescing of the free block `bp` with its
free physical neighbours; returns the state and the pointer to the merged block. -/
def coalesce (s : Heap) (bp : Nat) : Heap × Nat :=
  let prev_alloc := GET_ALLOC s.mem (FTRP s.mem (PREV_BLKP s.mem bp))
  let next_alloc := GET_ALLOC s.mem (HDRP (NEXT_BLKP s.mem bp))
  let size := GET_SIZE s.mem (HDRP bp)
  if prev_alloc ≠ 0 ∧ next_alloc ≠ 0 then
    (s, bp)
  else if prev_alloc ≠ 0 ∧ ¬ (next_alloc ≠ 0) then
    let s1 := (splice_block s (NEXT_BLKP s.mem bp)).1
    let size := size + GET_SIZE s1.mem (HDRP (NEXT_BLKP s1.mem bp))
    let m2 := PUT4 s1.mem (HDRP bp) (PACK size 0)
    let m3 := PUT4 m2 (FTRP m2 bp) (PACK size 0)
    ({ s1 with mem := m3 }, bp)
  else if ¬ (prev_alloc ≠ 0) ∧ next_alloc ≠ 0 then
    let r := splice_block s (PREV_BLKP s.mem bp)
    let s1 := r.1
    let ptr := r.2
    let size := size + GET_SIZE s1.mem (HDRP (PREV_BLKP s1.mem bp))
    let m2 := PUT4 s1.mem (FTRP s1.mem bp) (PACK size 0)
    let m3 := PUT4 m2 (HDRP (PREV_BLKP m2 bp)) (PACK size 0)
    ({ s1 with mem := m3 }, ptr)
  else
    let r := splice_block s (PREV_BLKP s.mem bp)
    let s1 := r.1
    let ptr := r.2
    let s2 := (splice_block s1 (NEXT_BLKP s1.mem bp)).1
    let size := size + (GET_SIZE s2.mem (HDRP (PREV_BLKP s2.mem bp)) +
      GET_SIZE s2.mem (FTRP s2.mem (NEXT_BLKP s2.mem bp)))
    let m3 := PUT4 s2.mem (HDRP (PREV_BLKP s2.mem bp)) (PACK size 0)
    let m4 := PUT4 m3 (FTRP m3 (NEXT_BLKP m3 bp)) (PACK size 0)
    ({ s2 with mem := m4 }, ptr)

/-- The function `seglist_insert`: put `bp` in front of the list whose head pointer is
stored at `root_loc` and currently is `flist_root`. -/
def seglist_insert (s : Heap) (bp flist_root root_loc : Nat) : Heap × Nat :=
  let m1 := PUTP s.mem root_loc bp
  let m2 := PUTP m1 (PREV_FREE bp) 0
  if flist_root = 0 then
    ({ s with mem := PUTP m2 (NEXT_FREE bp) 0 }, bp)
  else
    let m3 := PUTP m2 (NEXT_FREE bp) flist_root
    ({ s with mem := PUTP m3 (PREV_FREE flist_root) bp }, bp)

/-- The function `flist_insert`: choose the segregated list from the size in the
header of `bp`, then call `seglist_insert`. -/
def flist_insert (s : Heap) (bp : Nat) : Heap × Nat :=
  let size := GET_SIZE s.mem (HDRP bp)
  let root_loc :=
    if size ≤ MAX1 then s.seg_start + SEG1
    else if size ≤ MAX2 then s.seg_start + SEG2
    else if size ≤ MAX3 then s.seg_start + SEG3
    else if size ≤ MAX4 then s.seg_start + SEG4
    else if size ≤ MAX5 then s.seg_start + SEG5
    else if size ≤ MAX6 then s.seg_start + SEG6
    else if size ≤ MAX7 then s.seg_start + SEG7
    else if size ≤ MAX8 then s.seg_start + SEG8
    else if size ≤ MAX9 then s.seg_start + SEG9
    else if size ≤ MAX10 then s.seg_start + SEG10
    else if size ≤ MAX11 then s.seg_start + SEG11
    else if size ≤ MAX12 then s.seg_start + SEG12
    else if size ≤ MAX13 then s.seg_start + SEG13
    else s.seg_start + SEG14
  let flist_root := GET s.mem root_loc
  seglist_insert s bp flist_root root_loc

/-- The function `extend_heap`: ask the backend for `words` words (rounded up to an
even count), pave them as one free block, coalesce it and insert the result; returns
the block pointer, or `NULL` when the backend refuses. -/
def extend_heap (s : Heap) (words : Nat) : Heap × Nat :=
  let size := if words % 2 ≠ 0 then ((words + 1) * WSIZE) % U64 else (words * WSIZE) % U64
  let r := mem_sbrk s size
  let s1 := r.1
  let bp := r.2
  if bp ≥ 9223372036854775808 then
    (s1, 0)
  else
    let m1 := PUT4 s1.mem (HDRP bp) (PACK size 0)
    let m2 := PUT4 m1 (FTRP m1 bp) (PACK size 0)
    let m3 := PUT4 m2 (HDRP (NEXT_BLKP m2 bp)) (PACK 0 1)
    let c := coalesce { s1 with mem := m3 } bp
    flist_insert c.1 c.2

/-- The function `place`: allocate `asize` bytes at the start of the free block `bp`,
splitting off the remainder when it is at least `OVERHEAD` bytes. -/
def place (s : Heap) (bp asize : Nat) : Heap :=
  let csize := GET_SIZE s.mem (HDRP bp)
  let s1 := (splice_block s bp).1
  if (csize + U64 - asize) % U64 ≥ OVERHEAD then
    let m1 := PUT4 s1.mem (HDRP bp) (PACK asize 1)
    let m2 := PUT4 m1 (FTRP m1 bp) (PACK asize 1)
    let bp1 := NEXT_BLKP m2 bp
    let m3 := PUT4 m2 (HDRP bp1) (PACK ((csize + U64 - asize) % U64) 0)
    let m4 := PUT4 m3 (FTRP m3 bp1) (PACK ((csize + U64 - asize) % U64) 0)
    let c := coalesce { s1 with mem := m4 } bp1
    (flist_insert c.1 c.2).1
  else
    let m1 := PUT4 s1.mem (HDRP bp) (PACK csize 1)
    let m2 := PUT4 m1 (FTRP m1 bp) (PACK csize 1)
    { s1 with mem := m2 }

/-- The `while` loop of `find`, with the loop variables as arguments.  `fuel` bounds the
number of iterations; `none` means the bound was reached before the loop ended. -/
def find_loop (m : Mem) (asize : Nat) : Nat → Nat → Nat → Int → Nat → Option Nat
  | 0, _, _, _, _ => none
  | fuel + 1, this, best_bp, best_diff, counter =>
    if this ≠ 0 then
      if counter ≥ 9 then some best_bp
      else
        let size := GET_SIZE m (HDRP this)
        if asize ≤ size then
          let this_diff : Int := ((size - asize : Nat) : Int)
          if this_diff < best_diff ∨ best_diff = -1 then
            find_loop m asize fuel (GET_FREE m (NEXT_FREE this)) this this_diff (counter + 1)
          else
            find_loop m asize fuel (GET_FREE m (NEXT_FREE this)) best_bp best_diff (counter + 1)
        else
          find_loop m asize fuel (GET_FREE m (NEXT_FREE this)) best_bp best_diff counter
    else if best_diff = -1 then some 0
    else some best_bp

/-- The function `find`: bounded best fit in the list with index `i`.  The loop is run
for at most as many iterations as the region has bytes. -/
def find (s : Heap) (i asize : Nat) : Option Nat :=
  let this :=
    match i with
    | 1 => GET_FREE s.mem (s.seg_start + SEG1)
    | 2 => GET_FREE s.mem (s.seg_start + SEG2)
    | 3 => GET_FREE s.mem (s.seg_start + SEG3)
    | 4 => GET_FREE s.mem (s.seg_start + SEG4)
    | 5 => GET_FREE s.mem (s.seg_start + SEG5)
    | 6 => GET_FREE s.mem (s.seg_start + SEG6)
    | 7 => GET_FREE s.mem (s.seg_start + SEG7)
    | 8 => GET_FREE s.mem (s.seg_start + SEG8)
    | 9 => GET_FREE s.mem (s.seg_start + SEG9)
    | 10 => GET_FREE s.mem (s.seg_start + SEG10)
    | 11 => GET_FREE s.mem (s.seg_start + SEG11)
    | 12 => GET_FREE s.mem (s.seg_start + SEG12)
    | 13 => GET_FREE s.mem (s.seg_start + SEG13)
    | 14 => GET_FREE s.mem (s.seg_start + SEG14)
    | _ => 0
  find_loop s.mem asize (s.mem_brk - s.seg_start + 1) this this (-1) 0

/-- The loop `for (i = ...; i < NUM_SEGS + 1; i++)` of `find_fit`, which returns the
first non-`NULL` result of `find`; `n` is the number of iterations left. -/
def find_fit_loop (s : Heap) (asize : Nat) : Nat → Nat → Option Nat
  | 0, _ => some 0
  | n + 1, i =>
    match find s i asize with
    | none => none
    | some bp => if bp ≠ 0 then some bp else find_fit_loop s asize n (i + 1)

/-- The function `find_fit`: scan the lists upward from the class of `asize`. -/
def find_fit (s : Heap) (asize : Nat) : Option Nat :=
  if asize ≤ MAX1 then find_fit_loop s asize (NUM_SEGS + 1 - 1) 1
  else if asize ≤ MAX2 then find_fit_loop s asize (NUM_SEGS + 1 - 2) 2
  else if asize ≤ MAX3 then find_fit_loop s asize (NUM_SEGS + 1 - 3) 3
  else if asize ≤ MAX4 then find_fit_loop s asize (NUM_SEGS + 1 - 4) 4
  else if asize ≤ MAX5 then find_fit_loop s asize (NUM_SEGS + 1 - 5) 5
  else if asize ≤ MAX6 then find_fit_loop s asize (NUM_SEGS + 1 - 6) 6
  else if asize ≤ MAX7 then find_fit_loop s asize (NUM_SEGS + 1 - 7) 7
  else if asize ≤ MAX8 then find_fit_loop s asize (NUM_SEGS + 1 - 8) 8
  else if asize ≤ MAX9 then find_fit_loop s asize (NUM_SEGS + 1 - 9) 9
  else if asize ≤ MAX10 then find_fit_loop s asize (NUM_SEGS + 1 - 10) 10
  else if asize ≤ MAX11 then find_fit_loop s asize (NUM_SEGS + 1 - 11) 11
  else if asize ≤ MAX12 then find_fit_loop s asize (NUM_SEGS + 1 - 12) 12
  else if asize ≤ MAX13 then find_fit_loop s asize (NUM_SEGS + 1 - 13) 13
  else find_fit_loop s asize (NUM_SEGS + 1 - 14) 14

/-! ## The public operations of `mm.c` -/

/-- The function `mm_init`: returns the state and the C return value (`0` on success,
`-1` on error). -/
def mm_init (s : Heap) : Heap × Int :=
  let s0 := { s with heap_listp := 0, seg_start := 0 }
  let r1 := mem_sbrk s0 (NUM_SEGS * DSIZE)
  let s1 := { r1.1 with seg_start := r1.2 }
  if s1.seg_start = 0 then (s1, -1)
  else
    let r2 := mem_sbrk s1 (4 * WSIZE)
    let s2 := { r2.1 with heap_listp := r2.2 }
    if s2.heap_listp = 0 then (s2, -1)
    else
      let m1 := PUT4 s2.mem s2.heap_listp 0
      let m2 := PUT4 m1 (s2.heap_listp + 1 * WSIZE) (PACK DSIZE 1)
      let m3 := PUT4 m2 (s2.heap_listp + 2 * WSIZE) (PACK DSIZE 1)
      let m4 := PUT4 m3 (s2.heap_listp + 3 * WSIZE) (PACK 0 1)
      let hl := s2.heap_listp + 2 * WSIZE
      let m5 := PUT m4 (s2.seg_start + SEG1) 0
      let m6 := PUT m5 (s2.seg_start + SEG2) 0
      let m7 := PUT m6 (s2.seg_start + SEG3) 0
      let m8 := PUT m7 (s2.seg_start + SEG4) 0
      let m9 := PUT m8 (s2.seg_start + SEG5) 0
      let m10 := PUT m9 (s2.seg_start + SEG6) 0
      let m11 := PUT m10 (s2.seg_start + SEG7) 0
      let m12 := PUT m11 (s2.seg_start + SEG8) 0
      let m13 := PUT m12 (s2.seg_start + SEG9) 0
      let m14 := PUT m13 (s2.seg_start + SEG10) 0
      let m15 := PUT m14 (s2.seg_start + SEG11) 0
      let m16 := PUT m15 (s2.seg_start + SEG12) 0
      let m17 := PUT m16 (s2.seg_start + SEG13) 0
      let m18 := PUT m17 (s2.seg_start + SEG14) 0
      let e := extend_heap { s2 with mem := m18, heap_listp := hl } (CHUNKSIZE / WSIZE)
      if e.2 = 0 then (e.1, -1) else (e.1, 0)

/-- The adjusted block size computed at the start of `malloc` from the request `size`
(`size_t` arithmetic). -/
def malloc_asize (size : Nat) : Nat :=
  if size ≤ ALIGNMENT then OVERHEAD
  else (ALIGNMENT * (((size + ALLOC_OVERHEAD + (ALIGNMENT - 1)) % U64) / ALIGNMENT)) % U64

/-- The function `malloc`: returns the state and the returned pointer (`0` is `NULL`);
`none` when the search loop of `find` did not terminate within its bound. -/
def malloc (s : Heap) (size : Nat) : Option (Heap × Nat) :=
  if size ≤ 0 then some (s, 0)
  else
    let asize := malloc_asize size
    match find_fit s asize with
    | none => none
    | some bp =>
      if bp ≠ 0 then some (place s bp asize, bp)
      else
        let extendsize := MAX asize CHUNKSIZE
        let e := extend_heap s (extendsize / WSIZE)
        if e.2 = 0 then some (e.1, 0)
        else some (place e.1 e.2 asize, e.2)

/-- The function `free`. -/
def free (s : Heap) (ptr : Nat) : Heap :=
  if ptr = 0 then s
  else
    let size := GET_SIZE s.mem (HDRP ptr)
    let m1 := PUT4 s.mem (HDRP ptr) (PACK size 0)
    let m2 := PUT4 m1 (FTRP m1 ptr) (PACK size 0)
    let c := coalesce { s with mem := m2 } ptr
    (flist_insert c.1 c.2).1

/-- The number of bytes `realloc` copies from the old block `oldptr`, read in the
state in which the copy is made. -/
def realloc_copy_len (s : Heap) (oldptr size : Nat) : Nat :=
  let oldsize := GET_SIZE s.mem (HDRP oldptr)
  if size < oldsize then size else oldsize

/-- The function `realloc`. -/
def realloc (s : Heap) (oldptr size : Nat) : Option (Heap × Nat) :=
  if size = 0 then some (free s oldptr, 0)
  else if oldptr = 0 then malloc s size
  else
    match malloc s size with
    | none => none
    | some (s1, newptr) =>
      if newptr = 0 then some (s1, 0)
      else
        let oldsize := realloc_copy_len s1 oldptr size
        let s2 := { s1 with mem := memcpy s1.mem newptr oldptr oldsize }
        some (free s2 oldptr, newptr)

/-- The function `calloc`. -/
def calloc (s : Heap) (nmemb size : Nat) : Option (Heap × Nat) :=
  let total_size := (nmemb * size) % U64
  match malloc s total_size with
  | none => none
  | some (s1, newptr) => some ({ s1 with mem := memset s1.mem newptr 0 total_size }, newptr)

/-! ## Specification-side definitions -/

/-- The size class of a block size as the specification defines it: the smallest class
(1..14) whose upper bound is at least `size`. -/
def class_of (size : Nat) : Nat :=
  if size ≤ 24 then 1
  else if size ≤ 48 then 2
  else if size ≤ 72 then 3
  else if size ≤ 96 then 4
  else if size ≤ 120 then 5
  else if size ≤ 480 then 6
  else if size ≤ 960 then 7
  else if size ≤ 1920 then 8
  else if size ≤ 3840 then 9
  else if size ≤ 7680 then 10
  else if size ≤ 15360 then 11
  else if size ≤ 30720 then 12
  else if size ≤ 61440 then 13
  else 14

/-- An abstract block: its block pointer, its size and its allocated bit. -/
structure Blk where
  /-- Block pointer (address of the payload). -/
  bp : Nat
  /-- Total size in bytes, header and footer included. -/
  sz : Nat
  /-- Allocated bit, `0` or `1`. -/
  al : Nat

/-- The blocks `L` tile the addresses from block pointer `f` to block pointer `e`, in
address order; each has a size that is a multiple of 8 and at least 24, and its header
and its footer both hold its size and allocated bit. -/
def Chain (m : Mem) : Nat → List Blk → Nat → Prop
  | f, [], e => f = e
  | f, b :: bs, e => b.bp = f ∧ 24 ≤ b.sz ∧ b.sz % 8 = 0 ∧ b.al ≤ 1 ∧
      GET4 m (b.bp - 4) = b.sz + b.al ∧ GET4 m (b.bp + b.sz - 8) = b.sz + b.al ∧
      Chain m (f + b.sz) bs e

/-- The nodes `l` form a doubly linked segment: the first node's predecessor link is
`p`, each node's successor link is the next node, the last node's successor link is
`n`. -/
def Seg (m : Mem) : Nat → List Nat → Nat → Prop
  | _, [], _ => True
  | p, x :: xs, n => GET_FREE m (PREV_FREE x) = p ∧ GET_FREE m (NEXT_FREE x) = xs.headD n ∧
      Seg m x xs n

/-- The list rooted in the head slot at address `slot` is exactly `l`, head first. -/
def ListAt (m : Mem) (slot : Nat) (l : List Nat) : Prop :=
  GET_FREE m slot = l.headD 0 ∧ Seg m 0 l 0

/-- The fourteen lists `fl` are well linked in memory `m` below the head slots that
start at address `ss`; every node lies above the head slots, is a pointer that fits a double
word, and the 16-byte link areas of distinct nodes do not overlap. -/
structure Index (m : Mem) (ss : Nat) (fl : Nat → List Nat) : Prop where
  lists : ∀ c, 1 ≤ c → c ≤ 14 → ListAt m (ss + 8 * (c - 1)) (fl c)
  above : ∀ c x, x ∈ fl c → ss + 112 ≤ x ∧ x < U64
  spaced : ∀ c d x y, x ∈ fl c → y ∈ fl d → (x = y ∧ c = d) ∨ x + 16 ≤ y ∨ y + 16 ≤ x
  nodup : ∀ c, (fl c).Nodup

/-- The memory after `splice_block` of a block whose links are `prev` and `succ` and whose
head slot is `slot`, written so that the predecessor side and the successor side are
separate: the location that pointed to the block now holds `succ`, and the successor (if
any) now points back to `prev`. -/
def splice_mem (m : Mem) (slot prev succ : Nat) : Mem :=
  if succ = 0 then PUTP m (if prev = 0 then slot else prev + 8) succ
  else PUTP (PUTP m (if prev = 0 then slot else prev + 8) succ) succ prev

/-- The memory after `seglist_insert` of the block `x` in front of the list whose head
slot is `slot` and whose current head is `root`. -/
def insert_mem (m : Mem) (slot x root : Nat) : Mem :=
  if root = 0 then PUTP (PUTP (PUTP m slot x) x 0) (x + 8) root
  else PUTP (PUTP (PUTP (PUTP m slot x) x 0) (x + 8) root) root x

/-- The heap state `s` represents the block sequence `L` and the free lists `fl`
(`fl c` is list number `c`, for `c` from 1 to 14): the prologue, the blocks of `L` and the
epilogue header tile the region up to the break, every block carries its size and
allocated bit in header and footer, the fourteen lists are well linked and hold only free
blocks of `L`, each in the list of its class.  The break lies within the backend's limit,
and the limit is a 64-bit address (`max_u64`, the range of the C pointer type); nothing
else is assumed of the backend. -/
structure Rep (s : Heap) (L : List Blk) (fl : Nat → List Nat) : Prop where
  seg_pos : 0 < s.seg_start
  hl : s.heap_listp = s.seg_start + 120
  brk_le : s.mem_brk ≤ s.mem_max_addr
  max_u64 : s.mem_max_addr ≤ U64
  pro_h : GET4 s.mem (s.heap_listp - 4) = 9
  pro_f : GET4 s.mem s.heap_listp = 9
  chain : Chain s.mem (s.heap_listp + 8) L s.mem_brk
  epi : GET4 s.mem (s.mem_brk - 4) = 1
  lists : ∀ c, 1 ≤ c → c ≤ 14 → ListAt s.mem (s.seg_start + 8 * (c - 1)) (fl c)
  sound : ∀ c x, x ∈ fl c → ∃ sz, (⟨x, sz, 0⟩ : Blk) ∈ L ∧ class_of sz = c
  nodup : ∀ c, (fl c).Nodup

/-- The last block of `pre` when it is free: the free physical predecessor of the block
that follows `pre`. -/
def lastFree (pre : List Blk) : Option Blk :=
  match pre.getLast? with
  | some q => if q.al = 0 then some q else none
  | none => none

/-- The first block of `post` when it is free: the free physical successor of the block
that precedes `post`. -/
def headFree (post : List Blk) : Option Blk :=
  match post with
  | n :: _ => if n.al = 0 then some n else none
  | [] => none

/-- The blocks before the coalesced block: `pre` without its last block when that one is
free. -/
def cpre (pre : List Blk) : List Blk :=
  match lastFree pre with
  | some _ => pre.dropLast
  | none => pre

/-- The blocks after the coalesced block: `post` without its first block when that one
is free. -/
def cpost (post : List Blk) : List Blk :=
  match headFree post with
  | some _ => post.tail
  | none => post

/-- The block obtained by coalescing the free block `b` with its free neighbours. -/
def cblk (pre : List Blk) (b : Blk) (post : List Blk) : Blk :=
  { bp := (match lastFree pre with
      | some q => q.bp
      | none => b.bp),
    sz := b.sz + (match lastFree pre with
      | some q => q.sz
      | none => 0) + (match headFree post with
      | some n => n.sz
      | none => 0),
    al := 0 }

/-- The lists after unlinking the block `ob` (if any) from the list of its class. -/
def unlist (fl : Nat → List Nat) (ob : Option Blk) : Nat → List Nat :=
  match ob with
  | some q => Function.update fl (class_of q.sz) ((fl (class_of q.sz)).erase q.bp)
  | none => fl

/-- The lists after putting the block `b` in front of the list of its class. -/
def enlist (fl : Nat → List Nat) (b : Blk) : Nat → List Nat :=
  Function.update fl (class_of b.sz) (b.bp :: fl (class_of b.sz))

/-- The lists after coalescing a block between `pre` and `post`: the free neighbours are
unlinked, the predecessor first. -/
def cfl (fl : Nat → List Nat) (pre post : List Blk) : Nat → List Nat :=
  unlist (unlist fl (lastFree pre)) (headFree post)

/-- Allocated payloads are preserved from memory `m` to memory `m1`: every payload byte
of every allocated block of `L` other than the block at `ex` is unchanged. -/
def PayloadFrame (ex : Nat) (L : List Blk) (m m1 : Mem) : Prop :=
  ∀ b ∈ L, b.al = 1 → b.bp ≠ ex → ∀ a, b.bp ≤ a → a < b.bp + b.sz - 8 → m1 a = m a

/-- Every free block of `L` is in the list of its size class. -/
def Complete (L : List Blk) (fl : Nat → List Nat) : Prop :=
  ∀ b ∈ L, b.al = 0 → b.bp ∈ fl (class_of b.sz)

/-- No two physically adjacent blocks of `L` are both free. -/
def NoAdj (L : List Blk) : Prop :=
  List.Chain' (fun a b : Blk => ¬ (a.al = 0 ∧ b.al = 0)) L

/-- The adjusted size as the specification words it: `max(24, 8·⌈(n + 8)/8⌉)`, with the
ceiling of a rational quotient. -/
def spec_asize (n : Nat) : Nat := max 24 (8 * ⌈((n : ℚ) + 8) / 8⌉₊)

/-- The pointer returned by a call (`0` when the call did not terminate). -/
def ret (r : Option (Heap × Nat)) : Nat :=
  match r with
  | some x => x.2
  | none => 0

/-- The state after a call made in state `s` (`s` itself when the call did not
terminate). -/
def post (s : Heap) (r : Option (Heap × Nat)) : Heap :=
  match r with
  | some x => x.1
  | none => s

/-- A backend used for concrete runs: zero-filled memory, region starting at address
`65536`, at most 20 MiB. -/
def backend0 : Heap := mem_init (fun _ => 0) 65536 (65536 + 20 * 1048576)

/-- The state after `mm_init` on `backend0`. -/
def heap0 : Heap := (mm_init backend0).1

/-! ## Concrete runs -/

/-- A client write of the byte `v` at address `a`. -/
def poke (s : Heap) (a v : Nat) : Heap := { s with mem := store s.mem a 1 v }

/-- The state after `malloc(n)` called in state `s`. -/
def after_malloc (s : Heap) (n : Nat) : Heap := post s (malloc s n)

/-- The state after `realloc(p, n)` called in state `s`. -/
def after_realloc (s : Heap) (p n : Nat) : Heap := post s (realloc s p n)

/-- The state after `calloc(k, n)` called in state `s`. -/
def after_calloc (s : Heap) (k n : Nat) : Heap := post s (calloc s k n)

/-- Run A: on the fresh heap, `a = malloc(16)` (which is `65664`), `b = malloc(16)`
(which is `65688`), `free(a)`, then `malloc(SIZE_MAX - 7)`, which returns `65664`. -/
def runA : Heap :=
  after_malloc (free (after_malloc (after_malloc heap0 16) 16) 65664) (U64 - 8)

/-- Run B: `malloc(SIZE_MAX - 7)` on the fresh heap, which returns `65664`. -/
def runB : Heap := after_malloc heap0 (U64 - 8)

/-- Run B followed by four client writes into the block returned by its `malloc`: the
bytes of the number `65764` at offset 8 and the bytes of the number `1008` at offset 96. -/
def runB_written : Heap :=
  poke (poke (poke (poke runB (65664 + 8) 228) (65664 + 10) 1) (65664 + 96) 240) (65664 + 97) 3

/-- The upper bound of size class `c` in the table of the specification: 24, 48, 72, 96,
120, 480, 960, 1920, 3840, 7680, 15360, 30720, 61440 for the classes 1 to 13; class 14
has no upper bound (`none`). -/
def class_bound (c : Nat) : Option Nat :=
  match c with
  | 1 => some 24
  | 2 => some 48
  | 3 => some 72
  | 4 => some 96
  | 5 => some 120
  | 6 => some 480
  | 7 => some 960
  | 8 => some 1920
  | 9 => some 3840
  | 10 => some 7680
  | 11 => some 15360
  | 12 => some 30720
  | 13 => some 61440
  | _ => none

/-- The upper bound of class `c` is at least `size`. -/
def within_bound (size c : Nat) : Bool :=
  match class_bound c with
  | some b => decide (size ≤ b)
  | none => true

/-- The bounds `min` and `max` that the `switch` of `print_free_list` selects for the list
number `num`; `none` for a number outside 1..14, for which the C code leaves them
uninitialised. -/
def print_free_list_bounds (num : Nat) : Option (Nat × Nat) :=
  match num with
  | 1 => some (0, MAX1)
  | 2 => some (MAX1, MAX2)
  | 3 => some (MAX2, MAX3)
  | 4 => some (MAX3, MAX4)
  | 5 => some (MAX4, MAX5)
  | 6 => some (MAX5, MAX6)
  | 7 => some (MAX6, MAX7)
  | 8 => some (MAX7, MAX8)
  | 9 => some (MAX8, MAX9)
  | 10 => some (MAX9, MAX10)
  | 11 => some (MAX10, MAX11)
  | 12 => some (MAX11, MAX12)
  | 13 => some (MAX12, MAX13)
  | 14 => some (MAX13, U64 - 1)
  | _ => none

/-- The range test `min < size && size <= max` that `print_free_list` applies to a block
of size `size` found in list number `num`. -/
def print_free_list_in_range (num size : Nat) : Bool :=
  match print_free_list_bounds num with
  | some (mn, mx) => decide (mn < size ∧ size ≤ mx)
  | none => false

/-- Run C: on the fresh heap six calls `malloc(16)` return the blocks `65664`, `65688`,
`65712`, `65736`, `65760`, `65784` of 24 bytes each; then the first, third and fifth are
freed. -/
def runC : Heap :=
  free (free (free (after_malloc (after_malloc (after_malloc (after_malloc (after_malloc
    (after_malloc heap0 16) 16) 16) 16) 16) 16) 65664) 65712) 65760

/-- Run C followed by the first two stores of `free(65688)`: the header and the footer of
the block at `65688` are marked free; the block is in no list yet. -/
def runC_marked : Heap :=
  { runC with mem := (PUT4 (PUT4 runC.mem (HDRP 65688) (PACK 24 0))
      (FTRP (PUT4 runC.mem (HDRP 65688) (PACK 24 0)) 65688) (PACK 24 0)) }

/-- The blocks of run C after the marking, in address order. -/
def blocksC : List Blk :=
  [⟨65664, 24, 0⟩, ⟨65688, 24, 0⟩, ⟨65712, 24, 0⟩, ⟨65736, 24, 1⟩, ⟨65760, 24, 0⟩,
    ⟨65784, 24, 1⟩, ⟨65808, 528, 0⟩]

/-- The free lists of run C: list 1 holds the three freed blocks, last freed first, and
list 7 holds the remainder of the initial chunk. -/
def listsC (c : Nat) : List Nat :=
  if c = 1 then [65760, 65712, 65664] else if c = 7 then [65808] else []

/-- `Chain` is decidable: it is a finite conjunction of equalities and comparisons of
numbers read from memory. -/
def Chain.dec (m : Mem) : (L : List Blk) → (f e : Nat) → Decidable (Chain m f L e)
  | [], f, e => inferInstanceAs (Decidable (f = e))
  | b :: bs, f, e =>
    haveI := Chain.dec m bs (f + b.sz) e
    inferInstanceAs (Decidable (b.bp = f ∧ 24 ≤ b.sz ∧ b.sz % 8 = 0 ∧ b.al ≤ 1 ∧
      GET4 m (b.bp - 4) = b.sz + b.al ∧ GET4 m (b.bp + b.sz - 8) = b.sz + b.al ∧
      Chain m (f + b.sz) bs e))

instance (m : Mem) (L : List Blk) (f e : Nat) : Decidable (Chain m f L e) := Chain.dec m L f e

/-- `Seg` is decidable. -/
def Seg.dec (m : Mem) : (l : List Nat) → (p n : Nat) → Decidable (Seg m p l n)
  | [], _, _ => inferInstanceAs (Decidable True)
  | x :: xs, p, n =>
    haveI := Seg.dec m xs x n
    inferInstanceAs (Decidable (GET_FREE m (PREV_FREE x) = p ∧
      GET_FREE m (NEXT_FREE x) = xs.headD n ∧ Seg m x xs n))

instance (m : Mem) (l : List Nat) (p n : Nat) : Decidable (Seg m p l n) := Seg.dec m l p n

instance (m : Mem) (slot : Nat) (l : List Nat) : Decidable (ListAt m slot l) :=
  inferInstanceAs (Decidable (GET_FREE m slot = l.headD 0 ∧ Seg m 0 l 0))

/-- The two states have the same region bounds and the same globals: only memory may
differ. -/
def SameBounds (s s1 : Heap) : Prop :=
  s1.mem_brk = s.mem_brk ∧ s1.mem_max_addr = s.mem_max_addr ∧
    s1.heap_listp = s.heap_listp ∧ s1.seg_start = s.seg_start

/-- A backend that grants exactly the 800 bytes `mm_init` asks for: zero-filled memory,
region starting at `65536`. -/
def backend_small : Heap := mem_init (fun _ => 0) 65536 (65536 + 800)

/-- The state after `mm_init` on `backend_small` and `p = malloc(16)`, which is
`65664`. -/
def heap_small : Heap := after_malloc (mm_init backend_small).1 16

/-- Scenario 2 of the specification: `a = malloc(24)` (`65664`), `b = malloc(24)`
(`65696`), `free(a)`, `free(b)` on the fresh heap. -/
def scenario2 : Heap := free (free (after_malloc (after_malloc heap0 24) 24) 65664) 65696

/-- The blocks that replace the free block at `bp` of size `c` after `place` with
`asize`: an allocated block of `asize` bytes and a free remainder when the remainder is
at least 24 bytes, otherwise the whole block allocated. -/
def placedBlocks (bp c asize : Nat) : List Blk :=
  if asize + 24 ≤ c then [⟨bp, asize, 1⟩, ⟨bp + asize, c - asize, 0⟩] else [⟨bp, c, 1⟩]

/-- The free lists after `place`: the placed block is unlinked and the remainder, when
there is one, is put in front of the list of its class. -/
def placedLists (fl : Nat → List Nat) (bp c asize : Nat) : Nat → List Nat :=
  if asize + 24 ≤ c then enlist (unlist fl (some ⟨bp, c, 0⟩)) ⟨bp + asize, c - asize, 0⟩
  else unlist fl (some ⟨bp, c, 0⟩)

/-- The free lists of the fresh heap `heap0`: list 7 holds the initial chunk. -/
def lists0 (c : Nat) : List Nat := if c = 7 then [65664] else []

/-- The window of `find` as the specification words it: the first 9 nodes, in list
order, whose block size is at least `asize`. -/
def window (m : Mem) (asize : Nat) (l : List Nat) : List Nat :=
  (l.filter (fun x => decide (asize ≤ GET_SIZE m (HDRP x)))).take 9

/-- The best block among `b` and the nodes `ys` that follow it: the one of minimum size,
the earliest one when several attain the minimum. -/
def best_of (m : Mem) : Nat → List Nat → Nat
  | b, [] => b
  | b, y :: ys => best_of m (if GET_SIZE m (HDRP y) < GET_SIZE m (HDRP b) then y else b) ys

/-- The result of `find` as the specification words it: `NULL` when the window is empty,
otherwise the best block of the window. -/
def spec_find (m : Mem) (asize : Nat) (l : List Nat) : Nat :=
  match window m asize l with
  | [] => 0
  | x :: xs => best_of m x xs

/-- The loop of `find` run over the list of nodes instead of the links in memory. -/
def find_list (m : Mem) (asize : Nat) : List Nat → Nat → Int → Nat → Nat
  | [], best_bp, best_diff, _ => if best_diff = -1 then 0 else best_bp
  | x :: xs, best_bp, best_diff, counter =>
    if counter ≥ 9 then best_bp
    else if asize ≤ GET_SIZE m (HDRP x) then
      if ((GET_SIZE m (HDRP x) - asize : Nat) : Int) < best_diff ∨ best_diff = -1 then
        find_list m asize xs x ((GET_SIZE m (HDRP x) - asize : Nat) : Int) (counter + 1)
      else find_list m asize xs best_bp best_diff (counter + 1)
    else find_list m asize xs best_bp best_diff counter

/-- The result of `find_fit` as the specification words it: scan the classes upward from
class `i`, `n` of them, and return the first non-NULL result of `find`. -/
def first_hit (m : Mem) (asize : Nat) (fl : Nat → List Nat) : Nat → Nat → Nat
  | 0, _ => 0
  | n + 1, i =>
    if spec_find m asize (fl i) ≠ 0 then spec_find m asize (fl i)
    else first_hit m asize fl n (i + 1)

/-- The result of `find_fit` as the specification words it: the first hit from the class
of `asize` up to class 14. -/
def spec_find_fit (m : Mem) (asize : Nat) (fl : Nat → List Nat) : Nat :=
  first_hit m asize fl (15 - class_of asize) (class_of asize)

/-- A well-formed heap: the state represents the block sequence `L` and the free lists
`fl`, every free block is in the list of its class, and no two adjacent blocks are
free. -/
def Wf (s : Heap) (L : List Blk) (fl : Nat → List Nat) : Prop :=
  Rep s L fl ∧ Complete L fl ∧ NoAdj L

/-- The state after `p = malloc(500)` (`65664`, a block of 512 bytes) and `malloc(16)`
(`66176`) on the fresh heap. -/
def runD : Heap := after_malloc (after_malloc heap0 500) 16

/-- The bytes from `p` up to `p + n` lie inside the backend's mapping, which starts at
`seg_start` (the first byte `mm_init` obtained) and ends at `mem_max_addr`.  An access
outside the mapping is undefined behaviour in C; the memory model, in which loads and
stores are total, has no counterpart of it. -/
def in_mapping (s : Heap) (p n : Nat) : Prop := s.seg_start ≤ p ∧ p + n ≤ s.mem_max_addr

instance (s : Heap) (p n : Nat) : Decidable (in_mapping s p n) :=
  inferInstanceAs (Decidable (s.seg_start ≤ p ∧ p + n ≤ s.mem_max_addr))

/-- The call `memset(newptr, 0, total_size)` that `calloc` makes after its `malloc`: the
destination and the length (`none` when `malloc` did not terminate). -/
def calloc_memset (s : Heap) (nmemb size : Nat) : Option (Nat × Nat) :=
  let total_size := (nmemb * size) % U64
  match malloc s total_size with
  | none => none
  | some (_, newptr) => some (newptr, total_size)

/-- The state after `malloc(664)` on the fresh heap: the request takes the whole initial
chunk of 672 bytes, so no free block is left. -/
def heap_full : Heap := after_malloc heap0 664

/-- A backend with room for 8 GiB: zero-filled memory, region starting at address
`65536`. -/
def backend_big : Heap := mem_init (fun _ => 0) 65536 (65536 + 8 * 1073741824)

/-- Run E: on `backend_big`, `a = malloc(2^31 - 8)` (which is `65664`),
`b = malloc(2^31 - 8)` (which is `2147549312`), then `free(a)`: a free block of `2^31`
bytes, an allocated block of `2^31` bytes and a free block of 672 bytes. -/
def runE : Heap :=
  free (after_malloc (after_malloc (mm_init backend_big).1 2147483640) 2147483640) 65664

/-- Run E followed by the first two stores of `free(b)`: the header and the footer of the
block at `2147549312` are marked free; the block is in no list yet. -/
def runE_marked : Heap :=
  { runE with mem := (PUT4 (PUT4 runE.mem (HDRP 2147549312) (PACK 2147483648 0))
      (FTRP (PUT4 runE.mem (HDRP 2147549312) (PACK 2147483648 0)) 2147549312)
      (PACK 2147483648 0)) }

/-- The blocks of run E after the marking, in address order. -/
def blocksE : List Blk :=
  [⟨65664, 2147483648, 0⟩, ⟨2147549312, 2147483648, 0⟩, ⟨4295032960, 672, 0⟩]

/-- The free lists of run E: list 7 holds the remainder of 672 bytes and list 14 holds the
freed block `a`. -/
def listsE (c : Nat) : List Nat :=
  if c = 7 then [4295032960] else if c = 14 then [65664] else []

/-- The abstract state of a heap whose only free block, if any, is the last one: the
allocated blocks, most recent first, the address and size of the free last block, and the
break. -/
structure Tail where
  /-- The allocated blocks, highest address first. -/
  rev : List Blk
  /-- The free last block: its block pointer and size. -/
  last : Option (Nat × Nat)
  /-- The break. -/
  brk : Nat

/-- The block sequence of a tail state, in address order. -/
def Tail.blocks (t : Tail) : List Blk :=
  t.rev.reverse ++ (match t.last with
    | some x => [⟨x.1, x.2, 0⟩]
    | none => [])

/-- Placing `asize` bytes in the free last block `x` of `c` bytes. -/
def Tail.put (rev : List Blk) (x c asize brk : Nat) : Tail :=
  if asize + 24 ≤ c then { rev := ⟨x, asize, 1⟩ :: rev, last := some (x + asize, c - asize), brk := brk }
  else { rev := ⟨x, c, 1⟩ :: rev, last := none, brk := brk }

/-- One `malloc` with adjusted size `asize` in a tail state: the free last block is used
when it is large enough; otherwise the region grows by `ext` bytes, the new block is merged
with the free last block, and the request is placed in the merged block. -/
def Tail.step (asize ext : Nat) (t : Tail) : Tail :=
  match t.last with
  | some x =>
    if asize ≤ x.2 then Tail.put t.rev x.1 x.2 asize t.brk
    else Tail.put t.rev x.1 (ext + x.2) asize (t.brk + ext)
  | none => Tail.put t.rev t.brk ext asize (t.brk + ext)

/-- One `malloc(n)` in a tail state. -/
def Tail.alloc (n : Nat) (t : Tail) : Tail :=
  Tail.step (malloc_asize n) (MAX (malloc_asize n) CHUNKSIZE) t

/-- The tail state after `k` calls `malloc(n)`. -/
def Tail.run (n : Nat) (t : Tail) : Nat → Tail
  | 0 => t
  | k + 1 => Tail.alloc n (Tail.run n t k)

/-- The tail state of the fresh heap `heap0`. -/
def tail0 : Tail := { rev := [], last := some (65664, 672), brk := 66336 }

/-- Every other element of a list, starting with the first. -/
def every_other : List Nat → List Nat
  | [] => []
  | [x] => [x]
  | x :: _ :: xs => x :: every_other xs

/-- The block sequence after freeing every other block, starting with the first. -/
def holes : List Blk → List Blk
  | [] => []
  | [a] => [⟨a.bp, a.sz, 0⟩]
  | a :: b :: rest => ⟨a.bp, a.sz, 0⟩ :: b :: holes rest

/-- The free blocks of a block sequence, in address order. -/
def free_blocks (L : List Blk) : List Blk := L.filter (fun b => decide (b.al = 0))

/-- The state after `k` successive calls `malloc(n)` from state `s`. -/
def after_mallocs (n : Nat) (s : Heap) : Nat → Heap
  | 0 => s
  | k + 1 => after_malloc (after_mallocs n s k) n

/-- The pointer returned by call number `i` (counted from 0) of a run of successive calls
`malloc(n)` from state `s`. -/
def nth_malloc (n : Nat) (s : Heap) (i : Nat) : Nat := ret (malloc (after_mallocs n s i) n)

/-- The state after `free` of each pointer of the list, in order. -/
def free_each (s : Heap) : List Nat → Heap
  | [] => s
  | p :: ps => free_each (free s p) ps

/-- The pointers returned by the 1,000 calls `malloc(32)` of scenario 3, in call order. -/
def scenario3_ptrs : List Nat := (List.range 1000).map (nth_malloc 32 heap0)

/-- Scenario 3 of the specification after its first two phases: 1,000 calls `malloc(32)` on
the fresh heap, then `free` of every other returned pointer, starting with the first. -/
def scenario3 : Heap := free_each (after_mallocs 32 heap0 1000) (every_other scenario3_ptrs)

/-! ## Theorems -/

/-! ### Memory, chains and list segments -/

theorem store_apply_of_lt (k : Nat) : ∀ (m : Mem) (p v a : Nat), a < p → store m p k v a = m a := by
  induction k with
  | zero => intro m p v a _; rfl
  | succ k ih =>
    intro m p v a h
    simp only [store]
    rw [ih _ _ _ _ (by omega)]
    simp only [ite_eq_right_iff]
    intro h2
    omega

theorem store_apply_of_ge (k : Nat) : ∀ (m : Mem) (p v a : Nat), p + k ≤ a → store m p k v a = m a := by
  induction k with
  | zero => intro m p v a _; rfl
  | succ k ih =>
    intro m p v a h
    simp only [store]
    rw [ih _ _ _ _ (by omega)]
    simp only [ite_eq_right_iff]
    intro h2
    omega

theorem store_apply_out {m : Mem} {p k v a : Nat} (h : a < p ∨ p + k ≤ a) : store m p k v a = m a := by
  rcases h with h | h
  · exact store_apply_of_lt k m p v a h
  · exact store_apply_of_ge k m p v a h

theorem load_congr (k : Nat) : ∀ (m m' : Mem) (p : Nat), (∀ a, p ≤ a → a < p + k → m' a = m a) →
    load m' p k = load m p k := by
  induction k with
  | zero => intro m m' p _; rfl
  | succ k ih =>
    intro m m' p h
    simp only [load]
    rw [h p (le_refl _) (by omega), ih m m' (p + 1) (fun a h1 h2 => h a (by omega) (by omega))]

theorem load_lt (k : Nat) : ∀ (m : Mem) (p : Nat), load m p k < 256 ^ k := by
  induction k with
  | zero => intro m p; simp [load]
  | succ k ih =>
    intro m p
    simp only [load]
    have := ih m (p + 1)
    have h2 : m p % 256 < 256 := Nat.mod_lt _ (by norm_num)
    rw [pow_succ]
    omega

theorem load_store_same (k : Nat) : ∀ (m : Mem) (p v : Nat), load (store m p k v) p k = v % 256 ^ k := by
  induction k with
  | zero => intro m p v; simp [load, Nat.mod_one]
  | succ k ih =>
    intro m p v
    simp only [load, store]
    rw [ih, store_apply_of_lt k _ _ _ _ (by omega)]
    simp only [if_true]
    rw [Nat.mod_mod, pow_succ', Nat.mod_mul]

theorem load_store_disj {m : Mem} {p k v q j : Nat} (h : p + k ≤ q ∨ q + j ≤ p) :
    load (store m p k v) q j = load m q j := by
  apply load_congr
  intro a h1 h2
  apply store_apply_out
  omega



/-! ### Bit-level facts about header words -/

theorem land_mask (x : Nat) (hx : x < 4294967296) : x &&& 4294967288 = x - x % 8 := by
  apply Nat.eq_of_testBit_eq
  intro i
  have hM : (4294967288 : Nat) = 2 ^ 3 * (2 ^ 29 - 1) := by norm_num
  have hX : x - x % 8 = 2 ^ 3 * (x >>> 3) := by
    rw [Nat.shiftRight_eq_div_pow]
    have := Nat.div_add_mod x 8
    norm_num
    omega
  rw [Nat.testBit_and, hM, hX, Nat.testBit_mul_pow_two, Nat.testBit_mul_pow_two,
    Nat.testBit_two_pow_sub_one, Nat.testBit_shiftRight]
  by_cases h3 : 3 ≤ i
  · have e : 3 + (i - 3) = i := by omega
    rw [e]
    by_cases h32 : i < 32
    · have : i - 3 < 29 := by omega
      simp [h3, this]
    · have hlt : x < 2 ^ i := by
        calc x < 2 ^ 32 := by norm_num; exact hx
          _ ≤ 2 ^ i := Nat.pow_le_pow_right (by norm_num) (by omega)
      simp [Nat.testBit_lt_two_pow hlt]
  · simp [h3]

theorem PACK_eq (sz a : Nat) (hs : sz % 8 = 0) (ha : a ≤ 1) : PACK sz a = sz + a := by
  unfold PACK
  obtain ⟨q, rfl⟩ : ∃ q, sz = 2 ^ 3 * q := ⟨sz / 8, by omega⟩
  exact (Nat.mul_add_lt_is_or (i := 3) (b := a) (by omega) q).symm

theorem GET4_lt (m : Mem) (p : Nat) : GET4 m p < 4294967296 := by
  have := load_lt 4 m p
  simpa [GET4] using this

theorem GET_SIZE_eq (m : Mem) (p : Nat) : GET_SIZE m p = GET4 m p - GET4 m p % 8 := by
  unfold GET_SIZE
  exact land_mask _ (GET4_lt m p)

theorem GET_ALLOC_eq (m : Mem) (p : Nat) : GET_ALLOC m p = GET4 m p % 2 := by
  unfold GET_ALLOC
  exact Nat.and_one_is_mod _

theorem GET_SIZE_of {m : Mem} {p sz a : Nat} (h : GET4 m p = sz + a) (hs : sz % 8 = 0)
    (ha : a ≤ 1) : GET_SIZE m p = sz := by
  rw [GET_SIZE_eq, h]; omega

theorem GET_ALLOC_of {m : Mem} {p sz a : Nat} (h : GET4 m p = sz + a) (hs : sz % 8 = 0)
    (ha : a ≤ 1) : GET_ALLOC m p = a := by
  rw [GET_ALLOC_eq, h]; omega

/-! ### Reads over writes -/

theorem GET4_PUT4_same (m : Mem) (p v : Nat) : GET4 (PUT4 m p v) p = v % 4294967296 := by
  have := load_store_same 4 m p v
  simpa [GET4, PUT4] using this

theorem GET4_PUT4_disj {m : Mem} {p v q : Nat} (h : p + 4 ≤ q ∨ q + 4 ≤ p) :
    GET4 (PUT4 m p v) q = GET4 m q := by
  unfold GET4 PUT4; exact load_store_disj h

theorem GET4_PUTP_disj {m : Mem} {p v q : Nat} (h : p + 8 ≤ q ∨ q + 4 ≤ p) :
    GET4 (PUTP m p v) q = GET4 m q := by
  unfold GET4 PUTP; exact load_store_disj h

theorem GET_FREE_PUT4_disj {m : Mem} {p v q : Nat} (h : p + 4 ≤ q ∨ q + 8 ≤ p) :
    GET_FREE (PUT4 m p v) q = GET_FREE m q := by
  unfold GET_FREE PUT4; exact load_store_disj h

theorem GET_FREE_PUTP_disj {m : Mem} {p v q : Nat} (h : p + 8 ≤ q ∨ q + 8 ≤ p) :
    GET_FREE (PUTP m p v) q = GET_FREE m q := by
  unfold GET_FREE PUTP; exact load_store_disj h

theorem GET_FREE_PUTP_same (m : Mem) (p v : Nat) (hv : v < 18446744073709551616) :
    GET_FREE (PUTP m p v) p = v := by
  have := load_store_same 8 m p v
  simp only [GET_FREE, PUTP]
  rw [this]
  exact Nat.mod_eq_of_lt (by norm_num; exact hv)

theorem GET4_PUT4_PACK {m : Mem} {p sz a : Nat} (hs : sz % 8 = 0) (ha : a ≤ 1)
    (hlt : sz + a < 4294967296) : GET4 (PUT4 m p (PACK sz a)) p = sz + a := by
  rw [GET4_PUT4_same, PACK_eq sz a hs ha, Nat.mod_eq_of_lt hlt]

theorem GET4_congr {m m' : Mem} {p : Nat} (h : ∀ a, p ≤ a → a < p + 4 → m' a = m a) :
    GET4 m' p = GET4 m p := load_congr 4 m m' p h

theorem GET_FREE_congr {m m' : Mem} {p : Nat} (h : ∀ a, p ≤ a → a < p + 8 → m' a = m a) :
    GET_FREE m' p = GET_FREE m p := load_congr 8 m m' p h

/-! ### Block chains -/

theorem Chain_le {m : Mem} : ∀ {L : List Blk} {f e : Nat}, Chain m f L e → f ≤ e := by
  intro L
  induction L with
  | nil => intro f e h; simp only [Chain] at h; omega
  | cons b bs ih =>
    intro f e h
    simp only [Chain] at h
    have := ih h.2.2.2.2.2.2
    omega

theorem Chain_mem {m : Mem} : ∀ {L : List Blk} {f e : Nat}, Chain m f L e → ∀ b ∈ L,
    f ≤ b.bp ∧ b.bp + b.sz ≤ e ∧ 24 ≤ b.sz ∧ b.sz % 8 = 0 ∧ b.al ≤ 1 ∧
    GET4 m (b.bp - 4) = b.sz + b.al ∧ GET4 m (b.bp + b.sz - 8) = b.sz + b.al := by
  intro L
  induction L with
  | nil => intro f e _ b hb; simp at hb
  | cons c cs ih =>
    intro f e h b hb
    simp only [Chain] at h
    obtain ⟨h1, h2, h3, h4, h5, h6, h7⟩ := h
    rcases List.mem_cons.1 hb with rfl | hb
    · have := Chain_le h7
      exact ⟨by omega, by omega, h2, h3, h4, h5, h6⟩
    · have := ih h7 b hb
      exact ⟨by omega, this.2⟩

theorem Chain_append {m : Mem} : ∀ {L1 L2 : List Blk} {f e : Nat},
    Chain m f (L1 ++ L2) e ↔ ∃ mid, Chain m f L1 mid ∧ Chain m mid L2 e := by
  intro L1
  induction L1 with
  | nil =>
    intro L2 f e
    simp only [List.nil_append, Chain]
    constructor
    · intro h; exact ⟨f, rfl, h⟩
    · rintro ⟨mid, rfl, h⟩; exact h
  | cons b bs ih =>
    intro L2 f e
    simp only [List.cons_append, Chain]
    constructor
    · rintro ⟨h1, h2, h3, h4, h5, h6, h7⟩
      obtain ⟨mid, ha, hb⟩ := ih.1 h7
      exact ⟨mid, ⟨h1, h2, h3, h4, h5, h6, ha⟩, hb⟩
    · rintro ⟨mid, ⟨h1, h2, h3, h4, h5, h6, ha⟩, hb⟩
      exact ⟨h1, h2, h3, h4, h5, h6, ih.2 ⟨mid, ha, hb⟩⟩

theorem Chain_congr {m m' : Mem} : ∀ {L : List Blk} {f e : Nat},
    (∀ b ∈ L, GET4 m' (b.bp - 4) = GET4 m (b.bp - 4) ∧
      GET4 m' (b.bp + b.sz - 8) = GET4 m (b.bp + b.sz - 8)) →
    Chain m f L e → Chain m' f L e := by
  intro L
  induction L with
  | nil => intro f e _ h; exact h
  | cons b bs ih =>
    intro f e hc h
    simp only [Chain] at h ⊢
    obtain ⟨h1, h2, h3, h4, h5, h6, h7⟩ := h
    have hb := hc b (List.mem_cons_self _ _)
    refine ⟨h1, h2, h3, h4, by rw [hb.1]; exact h5, by rw [hb.2]; exact h6, ?_⟩
    exact ih (fun c hc' => hc c (List.mem_cons_of_mem _ hc')) h7

/-- A chain only depends on the bytes from its first header to its last footer. -/
theorem Chain_frame {m m' : Mem} {L : List Blk} {f e : Nat}
    (hfr : ∀ a, f - 4 ≤ a → a < e - 4 → m' a = m a) (hf : 4 ≤ f) (h : Chain m f L e) :
    Chain m' f L e := by
  apply Chain_congr _ h
  intro b hb
  have hm := Chain_mem h b hb
  constructor
  · apply GET4_congr
    intro a h1 h2
    apply hfr <;> omega
  · apply GET4_congr
    intro a h1 h2
    apply hfr <;> omega

/-- Two blocks of a chain are the same block or do not overlap. -/
theorem Chain_disjoint {m : Mem} : ∀ {L : List Blk} {f e : Nat}, Chain m f L e →
    ∀ b1 ∈ L, ∀ b2 ∈ L, b1 = b2 ∨ b1.bp + b1.sz ≤ b2.bp ∨ b2.bp + b2.sz ≤ b1.bp := by
  intro L
  induction L with
  | nil => intro f e _ b1 hb1; simp at hb1
  | cons c cs ih =>
    intro f e h b1 hb1 b2 hb2
    have hc := h
    simp only [Chain] at h
    obtain ⟨h1, h2, h3, h4, h5, h6, h7⟩ := h
    rcases List.mem_cons.1 hb1 with e1 | hb1'
    · rcases List.mem_cons.1 hb2 with e2 | hb2'
      · left; rw [e1, e2]
      · have := Chain_mem h7 b2 hb2'
        subst e1
        right; left; omega
    · rcases List.mem_cons.1 hb2 with e2 | hb2'
      · have := Chain_mem h7 b1 hb1'
        subst e2
        right; right; omega
      · exact ih h7 b1 hb1' b2 hb2'

theorem Chain_unique {m : Mem} {L : List Blk} {f e : Nat} (h : Chain m f L e)
    {b1 b2 : Blk} (h1 : b1 ∈ L) (h2 : b2 ∈ L) (hbp : b1.bp = b2.bp) : b1 = b2 := by
  rcases Chain_disjoint h b1 h1 b2 h2 with h3 | h3 | h3
  · exact h3
  · have := Chain_mem h b1 h1; omega
  · have := Chain_mem h b2 h2; omega

theorem PREV_FREE_eq (x : Nat) : PREV_FREE x = x := rfl
theorem NEXT_FREE_eq (x : Nat) : NEXT_FREE x = x + 8 := rfl
theorem HDRP_eq (x : Nat) : HDRP x = x - 4 := rfl

theorem PUTP_apply_out {m : Mem} {p v a : Nat} (h : a < p ∨ p + 8 ≤ a) : PUTP m p v a = m a :=
  store_apply_out h

theorem PUT4_apply_out {m : Mem} {p v a : Nat} (h : a < p ∨ p + 4 ≤ a) : PUT4 m p v a = m a :=
  store_apply_out h

/-! ### Doubly linked segments -/

theorem Seg_congr {m m' : Mem} : ∀ {l : List Nat} {p n : Nat},
    (∀ x ∈ l, GET_FREE m' x = GET_FREE m x ∧ GET_FREE m' (x + 8) = GET_FREE m (x + 8)) →
    Seg m p l n → Seg m' p l n := by
  intro l
  induction l with
  | nil => intro p n _ _; trivial
  | cons x xs ih =>
    intro p n hc h
    simp only [Seg, PREV_FREE_eq, NEXT_FREE_eq] at h ⊢
    have hx := hc x (List.mem_cons_self _ _)
    exact ⟨by rw [hx.1]; exact h.1, by rw [hx.2]; exact h.2.1,
      ih (fun y hy => hc y (List.mem_cons_of_mem _ hy)) h.2.2⟩

theorem Seg_frame {m m' : Mem} {l : List Nat} {p n : Nat}
    (hfr : ∀ x ∈ l, ∀ a, x ≤ a → a < x + 16 → m' a = m a) (h : Seg m p l n) : Seg m' p l n := by
  apply Seg_congr _ h
  intro x hx
  constructor
  · apply GET_FREE_congr
    intro a h1 h2
    exact hfr x hx a h1 (by omega)
  · apply GET_FREE_congr
    intro a h1 h2
    exact hfr x hx a (by omega) (by omega)

theorem headD_append (l1 l2 : List Nat) (n : Nat) : (l1 ++ l2).headD n = l1.headD (l2.headD n) := by
  cases l1 <;> rfl

theorem Seg_append {m : Mem} : ∀ {l1 l2 : List Nat} {p n : Nat},
    Seg m p (l1 ++ l2) n ↔ Seg m p l1 (l2.headD n) ∧ Seg m (l1.getLastD p) l2 n := by
  intro l1
  induction l1 with
  | nil => intro l2 p n; simp [Seg]
  | cons x xs ih =>
    intro l2 p n
    have e1 : (x :: xs) ++ l2 = x :: (xs ++ l2) := rfl
    rw [e1]
    simp only [Seg, List.getLastD_cons]
    rw [ih, headD_append]
    constructor
    · rintro ⟨h1, h2, h3, h4⟩; exact ⟨⟨h1, h2, h3⟩, h4⟩
    · rintro ⟨⟨h1, h2, h3⟩, h4⟩; exact ⟨h1, h2, h3, h4⟩

/-- Changing the successor link expected after the last node. -/
theorem Seg_nil_next {m : Mem} {p n n' : Nat} : Seg m p [] n → Seg m p [] n' := fun _ => trivial

/-- A 14-way cascade on the class bounds selects the entry of `class_of size`. -/
theorem cascade14 {α : Type} (size : Nat) (g : Nat → α) :
    (if size ≤ 24 then g 1
      else if size ≤ 48 then g 2
      else if size ≤ 72 then g 3
      else if size ≤ 96 then g 4
      else if size ≤ 120 then g 5
      else if size ≤ 480 then g 6
      else if size ≤ 960 then g 7
      else if size ≤ 1920 then g 8
      else if size ≤ 3840 then g 9
      else if size ≤ 7680 then g 10
      else if size ≤ 15360 then g 11
      else if size ≤ 30720 then g 12
      else if size ≤ 61440 then g 13
      else g 14) = g (class_of size) := by
  unfold class_of
  by_cases h1 : size ≤ 24
  · simp only [if_pos h1]
  · simp only [if_neg h1]
    by_cases h2 : size ≤ 48
    · simp only [if_pos h2]
    · simp only [if_neg h2]
      by_cases h3 : size ≤ 72
      · simp only [if_pos h3]
      · simp only [if_neg h3]
        by_cases h4 : size ≤ 96
        · simp only [if_pos h4]
        · simp only [if_neg h4]
          by_cases h5 : size ≤ 120
          · simp only [if_pos h5]
          · simp only [if_neg h5]
            by_cases h6 : size ≤ 480
            · simp only [if_pos h6]
            · simp only [if_neg h6]
              by_cases h7 : size ≤ 960
              · simp only [if_pos h7]
              · simp only [if_neg h7]
                by_cases h8 : size ≤ 1920
                · simp only [if_pos h8]
                · simp only [if_neg h8]
                  by_cases h9 : size ≤ 3840
                  · simp only [if_pos h9]
                  · simp only [if_neg h9]
                    by_cases h10 : size ≤ 7680
                    · simp only [if_pos h10]
                    · simp only [if_neg h10]
                      by_cases h11 : size ≤ 15360
                      · simp only [if_pos h11]
                      · simp only [if_neg h11]
                        by_cases h12 : size ≤ 30720
                        · simp only [if_pos h12]
                        · simp only [if_neg h12]
                          by_cases h13 : size ≤ 61440
                          · simp only [if_pos h13]
                          · simp only [if_neg h13]

theorem class_of_cases (size : Nat) :
    (size ≤ 24 ∧ class_of size = 1) ∨
    (24 < size ∧ size ≤ 48 ∧ class_of size = 2) ∨
    (48 < size ∧ size ≤ 72 ∧ class_of size = 3) ∨
    (72 < size ∧ size ≤ 96 ∧ class_of size = 4) ∨
    (96 < size ∧ size ≤ 120 ∧ class_of size = 5) ∨
    (120 < size ∧ size ≤ 480 ∧ class_of size = 6) ∨
    (480 < size ∧ size ≤ 960 ∧ class_of size = 7) ∨
    (960 < size ∧ size ≤ 1920 ∧ class_of size = 8) ∨
    (1920 < size ∧ size ≤ 3840 ∧ class_of size = 9) ∨
    (3840 < size ∧ size ≤ 7680 ∧ class_of size = 10) ∨
    (7680 < size ∧ size ≤ 15360 ∧ class_of size = 11) ∨
    (15360 < size ∧ size ≤ 30720 ∧ class_of size = 12) ∨
    (30720 < size ∧ size ≤ 61440 ∧ class_of size = 13) ∨
    (61440 < size ∧ class_of size = 14) := by
  by_cases h1 : size ≤ 24
  · left; exact ⟨h1, by simp only [class_of, if_pos h1]⟩
  · 
    by_cases h2 : size ≤ 48
    · right; left; exact ⟨by omega, h2, by simp only [class_of, if_neg h1, if_pos h2]⟩
    · 
      by_cases h3 : size ≤ 72
      · right; right; left; exact ⟨by omega, h3, by simp only [class_of, if_neg h1, if_neg h2, if_pos h3]⟩
      · 
        by_cases h4 : size ≤ 96
        · right; right; right; left; exact ⟨by omega, h4, by simp only [class_of, if_neg h1, if_neg h2, if_neg h3, if_pos h4]⟩
        · 
          by_cases h5 : size ≤ 120
          · right; right; right; right; left; exact ⟨by omega, h5, by simp only [class_of, if_neg h1, if_neg h2, if_neg h3, if_neg h4, if_pos h5]⟩
          · 
            by_cases h6 : size ≤ 480
            · right; right; right; right; right; left; exact ⟨by omega, h6, by simp only [class_of, if_neg h1, if_neg h2, if_neg h3, if_neg h4, if_neg h5, if_pos h6]⟩
            · 
              by_cases h7 : size ≤ 960
              · right; right; right; right; right; right; left; exact ⟨by omega, h7, by simp only [class_of, if_neg h1, if_neg h2, if_neg h3, if_neg h4, if_neg h5, if_neg h6, if_pos h7]⟩
              · 
                by_cases h8 : size ≤ 1920
                · right; right; right; right; right; right; right; left; exact ⟨by omega, h8, by simp only [class_of, if_neg h1, if_neg h2, if_neg h3, if_neg h4, if_neg h5, if_neg h6, if_neg h7, if_pos h8]⟩
                · 
                  by_cases h9 : size ≤ 3840
                  · right; right; right; right; right; right; right; right; left; exact ⟨by omega, h9, by simp only [class_of, if_neg h1, if_neg h2, if_neg h3, if_neg h4, if_neg h5, if_neg h6, if_neg h7, if_neg h8, if_pos h9]⟩
                  · 
                    by_cases h10 : size ≤ 7680
                    · right; right; right; right; right; right; right; right; right; left; exact ⟨by omega, h10, by simp only [class_of, if_neg h1, if_neg h2, if_neg h3, if_neg h4, if_neg h5, if_neg h6, if_neg h7, if_neg h8, if_neg h9, if_pos h10]⟩
                    · 
                      by_cases h11 : size ≤ 15360
                      · right; right; right; right; right; right; right; right; right; right; left; exact ⟨by omega, h11, by simp only [class_of, if_neg h1, if_neg h2, if_neg h3, if_neg h4, if_neg h5, if_neg h6, if_neg h7, if_neg h8, if_neg h9, if_neg h10, if_pos h11]⟩
                      · 
                        by_cases h12 : size ≤ 30720
                        · right; right; right; right; right; right; right; right; right; right; right; left; exact ⟨by omega, h12, by simp only [class_of, if_neg h1, if_neg h2, if_neg h3, if_neg h4, if_neg h5, if_neg h6, if_neg h7, if_neg h8, if_neg h9, if_neg h10, if_neg h11, if_pos h12]⟩
                        · 
                          by_cases h13 : size ≤ 61440
                          · right; right; right; right; right; right; right; right; right; right; right; right; left; exact ⟨by omega, h13, by simp only [class_of, if_neg h1, if_neg h2, if_neg h3, if_neg h4, if_neg h5, if_neg h6, if_neg h7, if_neg h8, if_neg h9, if_neg h10, if_neg h11, if_neg h12, if_pos h13]⟩
                          · right; right; right; right; right; right; right; right; right; right; right; right; right; exact ⟨by omega, by simp only [class_of, if_neg h1, if_neg h2, if_neg h3, if_neg h4, if_neg h5, if_neg h6, if_neg h7, if_neg h8, if_neg h9, if_neg h10, if_neg h11, if_neg h12, if_neg h13]⟩

theorem class_of_range (size : Nat) : 1 ≤ class_of size ∧ class_of size ≤ 14 := by
  rcases class_of_cases size with h | h | h | h | h | h | h | h | h | h | h | h | h | h <;> omega

/-- The head-slot cascade of `splice_block` selects the slot of `class_of size`. -/
theorem splice_cascade (m : Mem) (ss size v : Nat) :
    (if size ≤ MAX1 then PUTP m (ss + SEG1) v
      else if size ≤ MAX2 then PUTP m (ss + SEG2) v
      else if size ≤ MAX3 then PUTP m (ss + SEG3) v
      else if size ≤ MAX4 then PUTP m (ss + SEG4) v
      else if size ≤ MAX5 then PUTP m (ss + SEG5) v
      else if size ≤ MAX6 then PUTP m (ss + SEG6) v
      else if size ≤ MAX7 then PUTP m (ss + SEG7) v
      else if size ≤ MAX8 then PUTP m (ss + SEG8) v
      else if size ≤ MAX9 then PUTP m (ss + SEG9) v
      else if size ≤ MAX10 then PUTP m (ss + SEG10) v
      else if size ≤ MAX11 then PUTP m (ss + SEG11) v
      else if size ≤ MAX12 then PUTP m (ss + SEG12) v
      else if size ≤ MAX13 then PUTP m (ss + SEG13) v
      else PUTP m (ss + SEG14) v) = PUTP m (ss + 8 * (class_of size - 1)) v :=
  cascade14 size (fun c => PUTP m (ss + 8 * (c - 1)) v)

theorem splice_block_eq (s : Heap) (bp : Nat) :
    splice_block s bp =
      (if GET_FREE s.mem bp = 0 ∧ GET_FREE s.mem (bp + 8) ≠ 0 then
        { s with mem := PUTP (PUTP s.mem (s.seg_start + 8 * (class_of (GET_SIZE s.mem (bp - 4)) - 1))
            (GET_FREE s.mem (bp + 8))) (GET_FREE s.mem (bp + 8)) 0 }
      else if GET_FREE s.mem bp ≠ 0 ∧ GET_FREE s.mem (bp + 8) = 0 then
        { s with mem := PUTP s.mem (GET_FREE s.mem bp + 8) 0 }
      else if GET_FREE s.mem bp = 0 ∧ GET_FREE s.mem (bp + 8) = 0 then
        { s with mem := PUTP s.mem (s.seg_start + 8 * (class_of (GET_SIZE s.mem (bp - 4)) - 1)) 0 }
      else
        { s with mem := (PUTP (PUTP s.mem (GET_FREE s.mem bp + 8) (GET_FREE s.mem (bp + 8)))
            (GET_FREE s.mem (bp + 8)) (GET_FREE s.mem bp)) }, bp) := by
  unfold splice_block
  simp only [splice_cascade, PREV_FREE_eq, NEXT_FREE_eq, HDRP_eq]
  split_ifs <;> rfl

theorem splice_block_mem (s : Heap) (bp : Nat) :
    splice_block s bp =
      ({ s with mem := (splice_mem s.mem
          (s.seg_start + 8 * (class_of (GET_SIZE s.mem (bp - 4)) - 1))
          (GET_FREE s.mem bp) (GET_FREE s.mem (bp + 8))) }, bp) := by
  rw [splice_block_eq]
  unfold splice_mem
  by_cases hp : GET_FREE s.mem bp = 0 <;> by_cases hn : GET_FREE s.mem (bp + 8) = 0 <;>
    simp [hp, hn]

theorem headD_ne_nil {l : List Nat} (h : l ≠ []) (a b : Nat) : l.headD a = l.headD b := by
  cases l with
  | nil => exact absurd rfl h
  | cons x xs => rfl

theorem ListAt_frame {m m' : Mem} {slot : Nat} {l : List Nat} (h : ListAt m slot l)
    (hs : ∀ a, slot ≤ a → a < slot + 8 → m' a = m a)
    (hn : ∀ x ∈ l, ∀ a, x ≤ a → a < x + 16 → m' a = m a) : ListAt m' slot l := by
  refine ⟨?_, Seg_frame hn h.2⟩
  rw [GET_FREE_congr hs]
  exact h.1

/-- Changing one list of a well-linked index, given the new list and a frame condition. -/
theorem Index_update {m m' : Mem} {ss : Nat} {fl : Nat → List Nat} {c : Nat} {l' : List Nat}
    (hI : Index m ss fl) (hc1 : 1 ≤ c) (hc14 : c ≤ 14)
    (hl' : ListAt m' (ss + 8 * (c - 1)) l')
    (hab : ∀ z ∈ l', ss + 112 ≤ z ∧ z < U64)
    (hsp1 : ∀ z ∈ l', ∀ w ∈ l', z = w ∨ z + 16 ≤ w ∨ w + 16 ≤ z)
    (hsp2 : ∀ z ∈ l', ∀ d y, d ≠ c → y ∈ fl d → z + 16 ≤ y ∨ y + 16 ≤ z)
    (hnd : l'.Nodup)
    (hfr : ∀ a, (a < ss + 8 * (c - 1) ∨ ss + 8 * (c - 1) + 8 ≤ a) →
      (∀ y ∈ fl c, a < y ∨ y + 16 ≤ a) → (∀ y ∈ l', a < y ∨ y + 16 ≤ a) → m' a = m a) :
    Index m' ss (Function.update fl c l') := by
  constructor
  · intro d hd1 hd14
    by_cases hdc : d = c
    · subst hdc
      rw [Function.update_same]; exact hl'
    · rw [Function.update_noteq hdc]
      apply ListAt_frame (hI.lists d hd1 hd14)
      · intro a h1 h2
        apply hfr
        · omega
        · intro y hy; have := hI.above c y hy; omega
        · intro y hy; have := hab y hy; omega
      · intro w hw a h1 h2
        have hwa := hI.above d w hw
        apply hfr
        · omega
        · intro y hy
          rcases hI.spaced d c w y hw hy with h | h | h
          · exact absurd h.2 hdc
          · omega
          · omega
        · intro y hy
          have := hsp2 y hy d w hdc hw
          omega
  · intro d z hz
    by_cases hdc : d = c
    · subst hdc
      rw [Function.update_same] at hz; exact hab z hz
    · rw [Function.update_noteq hdc] at hz; exact hI.above d z hz
  · intro d1 d2 z w hz hw
    by_cases h1 : d1 = c <;> by_cases h2 : d2 = c
    · subst h1; subst h2
      rw [Function.update_same] at hz hw
      rcases hsp1 z hz w hw with h | h | h
      · exact Or.inl ⟨h, rfl⟩
      · exact Or.inr (Or.inl h)
      · exact Or.inr (Or.inr h)
    · subst h1
      rw [Function.update_same] at hz
      rw [Function.update_noteq h2] at hw
      have := hsp2 z hz d2 w h2 hw
      right; exact this
    · subst h2
      rw [Function.update_same] at hw
      rw [Function.update_noteq h1] at hz
      have := hsp2 w hw d1 z h1 hz
      right; omega
    · rw [Function.update_noteq h1] at hz
      rw [Function.update_noteq h2] at hw
      exact hI.spaced d1 d2 z w hz hw
  · intro d
    by_cases hdc : d = c
    · subst hdc
      rw [Function.update_same]; exact hnd
    · rw [Function.update_noteq hdc]; exact hI.nodup d

theorem splice_mem_frame {m : Mem} {slot prev succ a P : Nat}
    (hP : (if prev = 0 then slot else prev + 8) = P)
    (h1 : a < P ∨ P + 8 ≤ a)
    (h2 : succ = 0 ∨ a < succ ∨ succ + 8 ≤ a) : splice_mem m slot prev succ a = m a := by
  unfold splice_mem
  rw [hP]
  by_cases hs : succ = 0
  · rw [if_pos hs, PUTP_apply_out h1]
  · rw [if_neg hs, PUTP_apply_out (by omega), PUTP_apply_out h1]

theorem getLastD_snoc (l : List Nat) (z d : Nat) : (l ++ [z]).getLastD d = z := by
  simp [List.getLastD_eq_getLast?]

theorem eq_nil_or_snoc (l : List Nat) : l = [] ∨ ∃ l1 z, l = l1 ++ [z] := by
  rcases List.eq_nil_or_concat l with h | ⟨l1, z, h⟩
  · exact Or.inl h
  · exact Or.inr ⟨l1, z, by rw [h, List.concat_eq_append]⟩

theorem splice_mem_read_other {m : Mem} {slot prev succ q P : Nat}
    (hP : (if prev = 0 then slot else prev + 8) = P)
    (h1 : q + 8 ≤ P ∨ P + 8 ≤ q)
    (h2 : succ = 0 ∨ q + 8 ≤ succ ∨ succ + 8 ≤ q) :
    GET_FREE (splice_mem m slot prev succ) q = GET_FREE m q := by
  apply GET_FREE_congr
  intro a ha1 ha2
  apply splice_mem_frame hP <;> omega

theorem splice_mem_read_P {m : Mem} {slot prev succ P : Nat}
    (hP : (if prev = 0 then slot else prev + 8) = P) (hs : succ < U64)
    (h2 : succ = 0 ∨ P + 8 ≤ succ ∨ succ + 8 ≤ P) :
    GET_FREE (splice_mem m slot prev succ) P = succ := by
  unfold splice_mem
  rw [hP]
  by_cases h : succ = 0
  · rw [if_pos h, GET_FREE_PUTP_same _ _ _ hs]
  · rw [if_neg h, GET_FREE_PUTP_disj (by omega), GET_FREE_PUTP_same _ _ _ hs]

theorem splice_mem_read_succ {m : Mem} {slot prev succ : Nat} (hp : prev < U64)
    (h : succ ≠ 0) : GET_FREE (splice_mem m slot prev succ) succ = prev := by
  unfold splice_mem
  rw [if_neg h, GET_FREE_PUTP_same _ _ _ hp]

/-- The list-level effect of `splice_mem`: the node `x` between `l1` and `l2` is removed. -/
theorem splice_mem_list {m : Mem} {slot x : Nat} {l1 l2 : List Nat}
    (hhead : GET_FREE m slot = (l1 ++ x :: l2).headD 0)
    (hseg : Seg m 0 (l1 ++ x :: l2) 0)
    (hnd : (l1 ++ x :: l2).Nodup)
    (hab : ∀ u ∈ l1 ++ x :: l2, slot + 8 ≤ u ∧ u < U64)
    (hsp : ∀ u ∈ l1 ++ x :: l2, ∀ w ∈ l1 ++ x :: l2, u ≠ w → u + 16 ≤ w ∨ w + 16 ≤ u) :
    ListAt (splice_mem m slot (l1.getLastD 0) (l2.headD 0)) slot (l1 ++ l2) ∧
    (∀ a, (a < slot ∨ slot + 8 ≤ a) → (∀ y ∈ l1 ++ x :: l2, y ≠ x → a < y ∨ y + 16 ≤ a) →
      splice_mem m slot (l1.getLastD 0) (l2.headD 0) a = m a) := by
  have hnd' := List.nodup_append.1 hnd
  have hx2 : x ∉ l2 := (List.nodup_cons.1 hnd'.2.1).1
  have hx1 : x ∉ l1 := fun h => hnd'.2.2 h (List.mem_cons_self _ _)
  have hnd2 : l2.Nodup := (List.nodup_cons.1 hnd'.2.1).2
  have hdis : ∀ u ∈ l1, ∀ w ∈ l2, u ≠ w := fun u hu w hw h =>
    hnd'.2.2 hu (List.mem_cons_of_mem _ (h ▸ hw))
  have hm1 : ∀ u ∈ l1, u ∈ l1 ++ x :: l2 := fun u hu => List.mem_append_left _ hu
  have hm2 : ∀ u ∈ l2, u ∈ l1 ++ x :: l2 := fun u hu =>
    List.mem_append_right _ (List.mem_cons_of_mem _ hu)
  rw [Seg_append] at hseg
  obtain ⟨hS1, hS2⟩ := hseg
  simp only [Seg, List.headD_cons, PREV_FREE_eq, NEXT_FREE_eq] at hS1 hS2
  obtain ⟨hpx, hnx, hS2⟩ := hS2
  -- name the two link values and the location of the forward pointer to `x`
  obtain ⟨prev, hprevdef⟩ : ∃ prev, l1.getLastD 0 = prev := ⟨_, rfl⟩
  obtain ⟨succ, hsuccdef⟩ : ∃ succ, l2.headD 0 = succ := ⟨_, rfl⟩
  obtain ⟨P, hPdef⟩ : ∃ P, (if prev = 0 then slot else prev + 8) = P := ⟨_, rfl⟩
  rw [hprevdef, hsuccdef]
  have hsucc : (succ = 0 ∧ l2 = []) ∨ (∃ l2', l2 = succ :: l2') := by
    cases l2 with
    | nil => left; exact ⟨hsuccdef.symm, rfl⟩
    | cons y ys => right; simp only [List.headD_cons] at hsuccdef; exact ⟨ys, by rw [hsuccdef]⟩
  have hprev : (prev = 0 ∧ l1 = [] ∧ P = slot) ∨ (∃ l1', l1 = l1' ++ [prev] ∧ P = prev + 8) := by
    rcases eq_nil_or_snoc l1 with h | ⟨l1', z, h⟩
    · left
      subst h
      have : prev = 0 := hprevdef.symm
      exact ⟨this, rfl, by rw [← hPdef, if_pos this]⟩
    · right
      rw [h, getLastD_snoc] at hprevdef
      subst hprevdef
      have hz : z ∈ l1 := by rw [h]; simp
      have := hab z (hm1 z hz)
      exact ⟨l1', h, by rw [← hPdef, if_neg (by omega)]⟩
  have hsucc_mem : succ ≠ 0 → succ ∈ l2 := by
    intro h
    rcases hsucc with h1 | ⟨l2', h1⟩
    · exact absurd h1.1 h
    · rw [h1]; simp
  have hprev_mem : prev ≠ 0 → prev ∈ l1 := by
    intro h
    rcases hprev with h1 | ⟨l1', h1, _⟩
    · exact absurd h1.1 h
    · rw [h1]; simp
  have hsucc_lt : succ < U64 := by
    by_cases h : succ = 0
    · rw [h]; norm_num
    · exact (hab _ (hm2 _ (hsucc_mem h))).2
  have hprev_lt : prev < U64 := by
    by_cases h : prev = 0
    · rw [h]; norm_num
    · exact (hab _ (hm1 _ (hprev_mem h))).2
  -- the successor does not overlap the forward pointer location
  have hPs : succ = 0 ∨ P + 8 ≤ succ ∨ succ + 16 ≤ P := by
    by_cases h : succ = 0
    · exact Or.inl h
    · right
      have hy := hab _ (hm2 _ (hsucc_mem h))
      rcases hprev with ⟨_, _, e⟩ | ⟨l1', e1, e⟩
      · left; omega
      · have hz1 : prev ∈ l1 := by rw [e1]; simp
        have := hsp prev (hm1 _ hz1) succ (hm2 _ (hsucc_mem h)) (hdis _ hz1 _ (hsucc_mem h))
        omega
  have hfr : ∀ a, (a < slot ∨ slot + 8 ≤ a) →
      (∀ y ∈ l1 ++ x :: l2, y ≠ x → a < y ∨ y + 16 ≤ a) →
      splice_mem m slot prev succ a = m a := by
    intro a ha1 ha2
    apply splice_mem_frame hPdef
    · rcases hprev with ⟨_, _, e⟩ | ⟨l1', e1, e⟩
      · omega
      · have hz1 : prev ∈ l1 := by rw [e1]; simp
        have := ha2 _ (hm1 _ hz1) (fun e => hx1 (e ▸ hz1))
        omega
    · by_cases h : succ = 0
      · exact Or.inl h
      · have := ha2 _ (hm2 _ (hsucc_mem h)) (fun e => hx2 (e ▸ hsucc_mem h))
        omega
  have hread : ∀ u ∈ l1 ++ x :: l2, u ≠ x → u ≠ prev → u ≠ succ →
      GET_FREE (splice_mem m slot prev succ) u = GET_FREE m u ∧
      GET_FREE (splice_mem m slot prev succ) (u + 8) = GET_FREE m (u + 8) := by
    intro u hu hux hup hun
    have hua := hab u hu
    have h1 : u + 16 ≤ P ∨ P + 8 ≤ u := by
      rcases hprev with ⟨_, _, e⟩ | ⟨l1', e1, e⟩
      · omega
      · have hz1 : prev ∈ l1 := by rw [e1]; simp
        have := hsp u hu prev (hm1 _ hz1) hup
        omega
    have h2 : succ = 0 ∨ u + 16 ≤ succ ∨ succ + 16 ≤ u := by
      by_cases h : succ = 0
      · exact Or.inl h
      · right; exact hsp u hu succ (hm2 _ (hsucc_mem h)) hun
    constructor
    · apply splice_mem_read_other hPdef <;> omega
    · apply splice_mem_read_other hPdef <;> omega
  refine ⟨⟨?_, ?_⟩, hfr⟩
  · -- head slot
    rw [headD_append, hsuccdef]
    rcases hprev with ⟨_, e1, e⟩ | ⟨l1', e1, e⟩
    · have := splice_mem_read_P (m := m) hPdef hsucc_lt (by omega)
      rw [e] at this
      rw [this, e1]; rfl
    · have hz1 : prev ∈ l1 := by rw [e1]; simp
      have hza := hab _ (hm1 _ hz1)
      have hs2 : succ = 0 ∨ slot + 8 ≤ succ ∨ succ + 8 ≤ slot := by
        by_cases h : succ = 0
        · exact Or.inl h
        · have := hab _ (hm2 _ (hsucc_mem h)); omega
      rw [splice_mem_read_other hPdef (by omega) hs2, hhead, headD_append]
      exact headD_ne_nil (by rw [e1]; simp) _ _
  · rw [Seg_append, hsuccdef, hprevdef]
    constructor
    · -- predecessor side
      rcases hprev with ⟨_, e1, e⟩ | ⟨l1', e1, e⟩
      · rw [e1]; trivial
      · have hS1' := hS1
        rw [e1, Seg_append] at hS1'
        simp only [Seg, List.headD_cons, PREV_FREE_eq, NEXT_FREE_eq] at hS1'
        have hnd1 : (l1' ++ [prev]).Nodup := e1 ▸ hnd'.1
        have hz1 : prev ∈ l1 := by rw [e1]; simp
        have hza := hab _ (hm1 _ hz1)
        rw [e1, Seg_append]
        simp only [Seg, List.headD_cons, PREV_FREE_eq, NEXT_FREE_eq]
        refine ⟨?_, ?_, ?_, trivial⟩
        · apply Seg_congr _ hS1'.1
          intro u hu
          have hu1 : u ∈ l1 := by rw [e1]; exact List.mem_append_left _ hu
          have huz : u ≠ prev := by
            intro h
            exact (List.nodup_append.1 hnd1).2.2 hu (by rw [h]; simp)
          have hu0 : u ≠ 0 := by have := hab u (hm1 u hu1); omega
          apply hread u (hm1 u hu1) (fun h => hx1 (h ▸ hu1)) huz
          intro h
          exact hdis u hu1 u (h ▸ hsucc_mem (h ▸ hu0)) rfl
        · have hs2 : succ = 0 ∨ prev + 8 ≤ succ ∨ succ + 8 ≤ prev := by
            by_cases h : succ = 0
            · exact Or.inl h
            · have := hsp prev (hm1 _ hz1) succ (hm2 _ (hsucc_mem h))
                (hdis _ hz1 _ (hsucc_mem h))
              omega
          rw [splice_mem_read_other hPdef (by omega) hs2]
          exact hS1'.2.1
        · have := splice_mem_read_P (m := m) hPdef hsucc_lt (by omega)
          rw [e] at this
          exact this
    · -- successor side
      rcases hsucc with ⟨_, e2⟩ | ⟨l2', e2⟩
      · rw [e2]; trivial
      · rw [e2] at hS2
        rw [e2]
        simp only [Seg, List.headD_cons, PREV_FREE_eq, NEXT_FREE_eq] at hS2 ⊢
        have hy2 : succ ∈ l2 := by rw [e2]; simp
        have hya := hab _ (hm2 _ hy2)
        have hy0 : succ ≠ 0 := by omega
        have hnd2' : (succ :: l2').Nodup := e2 ▸ hnd2
        refine ⟨splice_mem_read_succ hprev_lt hy0, ?_, ?_⟩
        · rw [splice_mem_read_other hPdef (by omega) (by omega)]
          exact hS2.2.1
        · apply Seg_congr _ hS2.2.2
          intro u hu
          have hu2 : u ∈ l2 := by rw [e2]; exact List.mem_cons_of_mem _ hu
          have hu0 : u ≠ 0 := by have := hab u (hm2 u hu2); omega
          apply hread u (hm2 u hu2) (fun h => hx2 (h ▸ hu2))
          · intro h
            exact hdis u (h ▸ hprev_mem (h ▸ hu0)) u hu2 rfl
          · intro h
            exact (List.nodup_cons.1 hnd2').1 (h ▸ hu)

theorem splice_block_index {s : Heap} {fl : Nat → List Nat} {c x : Nat}
    (hI : Index s.mem s.seg_start fl) (hc1 : 1 ≤ c) (hc14 : c ≤ 14) (hx : x ∈ fl c)
    (hcl : class_of (GET_SIZE s.mem (x - 4)) = c) :
    ∃ m', splice_block s x = ({ s with mem := m' }, x) ∧
      Index m' s.seg_start (Function.update fl c ((fl c).erase x)) ∧
      (∀ a, (a < s.seg_start + 8 * (c - 1) ∨ s.seg_start + 8 * (c - 1) + 8 ≤ a) →
        (∀ y ∈ fl c, y ≠ x → a < y ∨ y + 16 ≤ a) → m' a = s.mem a) := by
  obtain ⟨l1, l2, hl⟩ := List.append_of_mem hx
  have hnd := hI.nodup c
  have hsp : ∀ u ∈ fl c, ∀ w ∈ fl c, u ≠ w → u + 16 ≤ w ∨ w + 16 ≤ u := by
    intro u hu w hw hne
    rcases hI.spaced c c u w hu hw with h | h | h
    · exact absurd h.1 hne
    · exact Or.inl h
    · exact Or.inr h
  have hab : ∀ u ∈ fl c, s.seg_start + 8 * (c - 1) + 8 ≤ u ∧ u < U64 := by
    intro u hu
    have := hI.above c u hu
    constructor
    · omega
    · exact this.2
  obtain ⟨hhead, hseg⟩ := hI.lists c hc1 hc14
  rw [hl] at hnd hsp hab hhead hseg
  have hnd' := List.nodup_append.1 hnd
  have hx1 : x ∉ l1 := fun h => hnd'.2.2 h (List.mem_cons_self _ _)
  have herase : (fl c).erase x = l1 ++ l2 := by
    rw [hl, List.erase_append_right _ hx1, List.erase_cons_head]
  obtain ⟨hlist, hfr⟩ := splice_mem_list hhead hseg hnd hab hsp
  have hsub : ∀ z ∈ l1 ++ l2, z ∈ fl c := by
    intro z hz
    rw [hl]
    rcases List.mem_append.1 hz with h | h
    · exact List.mem_append_left _ h
    · exact List.mem_append_right _ (List.mem_cons_of_mem _ h)
  have hpx : GET_FREE s.mem x = l1.getLastD 0 := by
    rw [Seg_append] at hseg
    exact hseg.2.1
  have hnx : GET_FREE s.mem (x + 8) = l2.headD 0 := by
    rw [Seg_append] at hseg
    exact hseg.2.2.1
  refine ⟨splice_mem s.mem (s.seg_start + 8 * (c - 1)) (l1.getLastD 0) (l2.headD 0), ?_, ?_, ?_⟩
  · rw [splice_block_mem, hcl, hpx, hnx]
  · rw [herase]
    apply Index_update hI hc1 hc14 hlist
    · intro z hz
      exact hI.above c z (hsub z hz)
    · intro z hz w hw
      by_cases e : z = w
      · exact Or.inl e
      · right
        rcases hI.spaced c c z w (hsub z hz) (hsub w hw) with h | h | h
        · exact absurd h.1 e
        · exact Or.inl h
        · exact Or.inr h
    · intro z hz d y hd hy
      rcases hI.spaced c d z y (hsub z hz) hy with h | h | h
      · exact absurd h.2.symm hd
      · exact Or.inl h
      · exact Or.inr h
    · have hnd2 : l2.Nodup := (List.nodup_cons.1 hnd'.2.1).2
      exact List.nodup_append.2 ⟨hnd'.1, hnd2, fun u hu hw =>
        hnd'.2.2 hu (List.mem_cons_of_mem _ hw)⟩
    · intro a ha1 ha2 _
      exact hfr a ha1 (fun y hy _ => by rw [← hl] at hy; exact ha2 y hy)
  · intro a ha1 ha2
    exact hfr a ha1 (fun y hy hyx => by rw [← hl] at hy; exact ha2 y hy hyx)

/-! ### Insertion -/

/-- The root cascade of `flist_insert` selects the slot of `class_of size`. -/
theorem insert_cascade (ss size : Nat) :
    (if size ≤ MAX1 then ss + SEG1
    else if size ≤ MAX2 then ss + SEG2
    else if size ≤ MAX3 then ss + SEG3
    else if size ≤ MAX4 then ss + SEG4
    else if size ≤ MAX5 then ss + SEG5
    else if size ≤ MAX6 then ss + SEG6
    else if size ≤ MAX7 then ss + SEG7
    else if size ≤ MAX8 then ss + SEG8
    else if size ≤ MAX9 then ss + SEG9
    else if size ≤ MAX10 then ss + SEG10
    else if size ≤ MAX11 then ss + SEG11
    else if size ≤ MAX12 then ss + SEG12
    else if size ≤ MAX13 then ss + SEG13
    else ss + SEG14) = ss + 8 * (class_of size - 1) :=
  cascade14 size (fun c => ss + 8 * (c - 1))

theorem seglist_insert_mem (s : Heap) (bp root slot : Nat) :
    seglist_insert s bp root slot = ({ s with mem := (insert_mem s.mem slot bp root) }, bp) := by
  unfold seglist_insert insert_mem
  simp only [PREV_FREE_eq, NEXT_FREE_eq]
  by_cases h : root = 0
  · simp only [h, if_true]
  · simp only [h, if_false]

theorem flist_insert_mem (s : Heap) (bp : Nat) :
    flist_insert s bp =
      ({ s with mem := (insert_mem s.mem (s.seg_start + 8 * (class_of (GET_SIZE s.mem (bp - 4)) - 1))
          bp (GET_FREE s.mem (s.seg_start + 8 * (class_of (GET_SIZE s.mem (bp - 4)) - 1)))) },
        bp) := by
  unfold flist_insert
  simp only [insert_cascade, seglist_insert_mem, HDRP_eq]
  rfl

theorem insert_mem_frame {m : Mem} {slot x root a : Nat}
    (h1 : a < slot ∨ slot + 8 ≤ a) (h2 : a < x ∨ x + 16 ≤ a)
    (h3 : root = 0 ∨ a < root ∨ root + 8 ≤ a) : insert_mem m slot x root a = m a := by
  unfold insert_mem
  by_cases h : root = 0
  · rw [if_pos h, PUTP_apply_out (by omega), PUTP_apply_out (by omega), PUTP_apply_out h1]
  · rw [if_neg h, PUTP_apply_out (by omega), PUTP_apply_out (by omega),
      PUTP_apply_out (by omega), PUTP_apply_out h1]

theorem insert_mem_read_other {m : Mem} {slot x root q : Nat}
    (h1 : q + 8 ≤ slot ∨ slot + 8 ≤ q) (h2 : q + 8 ≤ x ∨ x + 16 ≤ q)
    (h3 : root = 0 ∨ q + 8 ≤ root ∨ root + 8 ≤ q) :
    GET_FREE (insert_mem m slot x root) q = GET_FREE m q := by
  apply GET_FREE_congr
  intro a ha1 ha2
  apply insert_mem_frame <;> omega

theorem insert_mem_read_slot {m : Mem} {slot x root : Nat} (hx : slot + 8 ≤ x ∧ x < U64)
    (hr : root = 0 ∨ slot + 8 ≤ root) : GET_FREE (insert_mem m slot x root) slot = x := by
  unfold insert_mem
  by_cases h : root = 0
  · rw [if_pos h, GET_FREE_PUTP_disj (by omega), GET_FREE_PUTP_disj (by omega),
      GET_FREE_PUTP_same _ _ _ hx.2]
  · rw [if_neg h, GET_FREE_PUTP_disj (by omega), GET_FREE_PUTP_disj (by omega),
      GET_FREE_PUTP_disj (by omega), GET_FREE_PUTP_same _ _ _ hx.2]

theorem insert_mem_read_prev {m : Mem} {slot x root : Nat}
    (hr : root = 0 ∨ x + 16 ≤ root ∨ root + 16 ≤ x) :
    GET_FREE (insert_mem m slot x root) x = 0 := by
  unfold insert_mem
  by_cases h : root = 0
  · rw [if_pos h, GET_FREE_PUTP_disj (by omega), GET_FREE_PUTP_same _ _ _ (by norm_num)]
  · rw [if_neg h, GET_FREE_PUTP_disj (by omega), GET_FREE_PUTP_disj (by omega),
      GET_FREE_PUTP_same _ _ _ (by norm_num)]

theorem insert_mem_read_next {m : Mem} {slot x root : Nat} (hlt : root < U64)
    (hr : root = 0 ∨ x + 16 ≤ root ∨ root + 16 ≤ x) :
    GET_FREE (insert_mem m slot x root) (x + 8) = root := by
  unfold insert_mem
  by_cases h : root = 0
  · rw [if_pos h, GET_FREE_PUTP_same _ _ _ hlt]
  · rw [if_neg h, GET_FREE_PUTP_disj (by omega), GET_FREE_PUTP_same _ _ _ hlt]

theorem insert_mem_read_root {m : Mem} {slot x root : Nat} (hx : x < U64) (h : root ≠ 0) :
    GET_FREE (insert_mem m slot x root) root = x := by
  unfold insert_mem
  rw [if_neg h, GET_FREE_PUTP_same _ _ _ hx]

/-- The list-level effect of `insert_mem`: `x` becomes the new head. -/
theorem insert_mem_list {m : Mem} {slot x : Nat} {l : List Nat}
    (h : ListAt m slot l)
    (hx : slot + 8 ≤ x ∧ x < U64)
    (hab : ∀ u ∈ l, slot + 8 ≤ u ∧ u < U64)
    (hspx : ∀ u ∈ l, x + 16 ≤ u ∨ u + 16 ≤ x)
    (hsp : ∀ u ∈ l, ∀ w ∈ l, u ≠ w → u + 16 ≤ w ∨ w + 16 ≤ u)
    (hnd : l.Nodup) :
    ListAt (insert_mem m slot x (l.headD 0)) slot (x :: l) ∧
    (∀ a, (a < slot ∨ slot + 8 ≤ a) → (a < x ∨ x + 16 ≤ a) → (∀ y ∈ l, a < y ∨ y + 16 ≤ a) →
      insert_mem m slot x (l.headD 0) a = m a) := by
  cases l with
  | nil =>
    simp only [List.headD_nil]
    refine ⟨⟨?_, ?_⟩, ?_⟩
    · exact insert_mem_read_slot hx (Or.inl rfl)
    · simp only [Seg, List.headD_nil, PREV_FREE_eq, NEXT_FREE_eq]
      exact ⟨insert_mem_read_prev (Or.inl rfl), insert_mem_read_next (by norm_num) (Or.inl rfl),
        trivial⟩
    · intro a h1 h2 _
      exact insert_mem_frame h1 h2 (Or.inl rfl)
  | cons r l' =>
    simp only [List.headD_cons]
    have hr := hab r (List.mem_cons_self _ _)
    have hrx := hspx r (List.mem_cons_self _ _)
    have hr0 : r ≠ 0 := by omega
    obtain ⟨_, hseg⟩ := h
    simp only [Seg, PREV_FREE_eq, NEXT_FREE_eq] at hseg
    refine ⟨⟨?_, ?_⟩, ?_⟩
    · exact insert_mem_read_slot hx (Or.inr hr.1)
    · simp only [Seg, List.headD_cons, PREV_FREE_eq, NEXT_FREE_eq]
      refine ⟨insert_mem_read_prev (Or.inr hrx), insert_mem_read_next hr.2 (Or.inr hrx),
        insert_mem_read_root hx.2 hr0, ?_, ?_⟩
      · rw [insert_mem_read_other (by omega) (by omega) (by omega)]
        exact hseg.2.1
      · apply Seg_congr _ hseg.2.2
        intro u hu
        have hu' : u ∈ r :: l' := List.mem_cons_of_mem _ hu
        have hua := hab u hu'
        have hux := hspx u hu'
        have hur : u ≠ r := fun e => (List.nodup_cons.1 hnd).1 (e ▸ hu)
        have := hsp u hu' r (List.mem_cons_self _ _) hur
        constructor
        · apply insert_mem_read_other <;> omega
        · apply insert_mem_read_other <;> omega
    · intro a h1 h2 h3
      have := h3 r (List.mem_cons_self _ _)
      exact insert_mem_frame h1 h2 (by omega)

theorem flist_insert_index {s : Heap} {fl : Nat → List Nat} {c x : Nat}
    (hI : Index s.mem s.seg_start fl) (hc1 : 1 ≤ c) (hc14 : c ≤ 14)
    (hcl : class_of (GET_SIZE s.mem (x - 4)) = c)
    (hx : s.seg_start + 112 ≤ x ∧ x < U64)
    (hspx : ∀ d y, y ∈ fl d → x + 16 ≤ y ∨ y + 16 ≤ x) :
    ∃ m', flist_insert s x = ({ s with mem := m' }, x) ∧
      Index m' s.seg_start (Function.update fl c (x :: fl c)) ∧
      (∀ a, (a < s.seg_start + 8 * (c - 1) ∨ s.seg_start + 8 * (c - 1) + 8 ≤ a) →
        (a < x ∨ x + 16 ≤ a) → (∀ y ∈ fl c, a < y ∨ y + 16 ≤ a) → m' a = s.mem a) := by
  have hab : ∀ u ∈ fl c, s.seg_start + 8 * (c - 1) + 8 ≤ u ∧ u < U64 := by
    intro u hu
    have := hI.above c u hu
    constructor
    · omega
    · exact this.2
  have hsp : ∀ u ∈ fl c, ∀ w ∈ fl c, u ≠ w → u + 16 ≤ w ∨ w + 16 ≤ u := by
    intro u hu w hw hne
    rcases hI.spaced c c u w hu hw with h | h | h
    · exact absurd h.1 hne
    · exact Or.inl h
    · exact Or.inr h
  have hxn : x ∉ fl c := by
    intro h
    have := hspx c x h
    omega
  obtain ⟨hlist, hfr⟩ := insert_mem_list (hI.lists c hc1 hc14) (x := x) ⟨by omega, hx.2⟩ hab
    (fun u hu => hspx c u hu) hsp (hI.nodup c)
  have hhead : GET_FREE s.mem (s.seg_start + 8 * (c - 1)) = (fl c).headD 0 :=
    (hI.lists c hc1 hc14).1
  refine ⟨insert_mem s.mem (s.seg_start + 8 * (c - 1)) x ((fl c).headD 0), ?_, ?_, hfr⟩
  · rw [flist_insert_mem, hcl, hhead]
  · apply Index_update hI hc1 hc14 hlist
    · intro z hz
      rcases List.mem_cons.1 hz with e | hz
      · rw [e]; exact hx
      · exact hI.above c z hz
    · intro z hz w hw
      by_cases e : z = w
      · exact Or.inl e
      · right
        rcases List.mem_cons.1 hz with ez | hz <;> rcases List.mem_cons.1 hw with ew | hw
        · exact absurd (ez.trans ew.symm) e
        · rw [ez]; exact hspx c w hw
        · rw [ew]; have := hspx c z hz; omega
        · exact hsp z hz w hw e
    · intro z hz d y hd hy
      rcases List.mem_cons.1 hz with ez | hz
      · rw [ez]; exact hspx d y hy
      · rcases hI.spaced c d z y hz hy with h | h | h
        · exact absurd h.2.symm hd
        · exact Or.inl h
        · exact Or.inr h
    · exact List.nodup_cons.2 ⟨hxn, hI.nodup c⟩
    · intro a ha1 ha2 ha3
      exact hfr a ha1 (ha3 x (List.mem_cons_self _ _)) ha2

theorem Rep.first_le {s : Heap} {L : List Blk} {fl : Nat → List Nat} (h : Rep s L fl) :
    s.heap_listp + 8 ≤ s.mem_brk := Chain_le h.chain

theorem Rep.blk {s : Heap} {L : List Blk} {fl : Nat → List Nat} (h : Rep s L fl) {b : Blk}
    (hb : b ∈ L) :
    s.seg_start + 128 ≤ b.bp ∧ b.bp + b.sz ≤ s.mem_brk ∧ 24 ≤ b.sz ∧ b.sz % 8 = 0 ∧ b.al ≤ 1 ∧
    GET4 s.mem (b.bp - 4) = b.sz + b.al ∧ GET4 s.mem (b.bp + b.sz - 8) = b.sz + b.al ∧
    b.bp + b.sz ≤ 18446744073709551616 ∧ b.sz < 4294967296 - 7 := by
  have := Chain_mem h.chain b hb
  have h1 := h.hl
  have h2 := h.brk_le
  have h3 := h.max_u64
  have h4 := GET4_lt s.mem (b.bp - 4)
  rw [this.2.2.2.2.2.1] at h4
  simp only [U64] at h3
  refine ⟨by omega, this.2.1, this.2.2.1, this.2.2.2.1, this.2.2.2.2.1, this.2.2.2.2.2.1,
    this.2.2.2.2.2.2, by omega, by omega⟩

theorem Rep.index {s : Heap} {L : List Blk} {fl : Nat → List Nat} (h : Rep s L fl) :
    Index s.mem s.seg_start fl := by
  constructor
  · exact h.lists
  · intro c x hx
    obtain ⟨sz, hb, _⟩ := h.sound c x hx
    have := h.blk hb
    simp only at this
    simp only [U64]
    omega
  · intro c d x y hx hy
    obtain ⟨sx, hbx, hcx⟩ := h.sound c x hx
    obtain ⟨sy, hby, hcy⟩ := h.sound d y hy
    have h1 := h.blk hbx
    have h2 := h.blk hby
    simp only at h1 h2
    rcases Chain_disjoint h.chain _ hbx _ hby with e | e | e
    · left
      have e1 : x = y := congrArg Blk.bp e
      have e2 : sx = sy := congrArg Blk.sz e
      exact ⟨e1, by rw [← hcx, ← hcy, e2]⟩
    · simp only at e; right; left; omega
    · simp only at e; right; right; omega
  · exact h.nodup

/-- Changing only head slots and link areas of blocks keeps the block chain: the state
still represents `L`, with the new lists. -/
theorem Rep_relist {s : Heap} {L : List Blk} {fl fl' : Nat → List Nat} {m' : Mem}
    (h : Rep s L fl) (hI : Index m' s.seg_start fl')
    (hsound : ∀ c x, x ∈ fl' c → ∃ sz, (⟨x, sz, 0⟩ : Blk) ∈ L ∧ class_of sz = c)
    (hfr : ∀ a, (a < s.seg_start ∨ s.seg_start + 112 ≤ a) →
      (∀ b ∈ L, a < b.bp ∨ b.bp + 16 ≤ a) → m' a = s.mem a) :
    Rep { s with mem := m' } L fl' := by
  have hhl := h.hl
  have hfl := h.first_le
  have hdis := Chain_disjoint h.chain
  constructor
  · exact h.seg_pos
  · exact h.hl
  · exact h.brk_le
  · exact h.max_u64
  · show GET4 m' (s.heap_listp - 4) = 9
    rw [← h.pro_h]
    apply GET4_congr
    intro a h1 h2
    apply hfr
    · omega
    · intro b hb; have := h.blk hb; omega
  · show GET4 m' s.heap_listp = 9
    rw [← h.pro_f]
    apply GET4_congr
    intro a h1 h2
    apply hfr
    · omega
    · intro b hb; have := h.blk hb; omega
  · show Chain m' (s.heap_listp + 8) L s.mem_brk
    apply Chain_congr _ h.chain
    intro b' hb'
    have hb1 := h.blk hb'
    constructor
    · apply GET4_congr
      intro a h1 h2
      apply hfr
      · omega
      · intro b hb
        have hb2 := h.blk hb
        rcases hdis b hb b' hb' with e | e | e
        · subst e; omega
        · omega
        · omega
    · apply GET4_congr
      intro a h1 h2
      apply hfr
      · omega
      · intro b hb
        have hb2 := h.blk hb
        rcases hdis b hb b' hb' with e | e | e
        · subst e; omega
        · omega
        · omega
  · show GET4 m' (s.mem_brk - 4) = 1
    rw [← h.epi]
    apply GET4_congr
    intro a h1 h2
    apply hfr
    · omega
    · intro b hb; have := h.blk hb; omega
  · exact hI.lists
  · exact hsound
  · exact hI.nodup

theorem Rep_splice {s : Heap} {L : List Blk} {fl : Nat → List Nat} {c x : Nat}
    (h : Rep s L fl) (hx : x ∈ fl c) :
    ∃ m', splice_block s x = ({ s with mem := m' }, x) ∧
      Rep { s with mem := m' } L (Function.update fl c ((fl c).erase x)) ∧
      (∀ a, (a < s.seg_start ∨ s.seg_start + 112 ≤ a) →
        (∀ b ∈ L, b.al = 0 → a < b.bp ∨ b.bp + 16 ≤ a) → m' a = s.mem a) := by
  obtain ⟨sz, hb, hcl⟩ := h.sound c x hx
  have hbk := h.blk hb
  simp only at hbk
  have hc := class_of_range sz
  rw [hcl] at hc
  have hsz : GET_SIZE s.mem (x - 4) = sz := GET_SIZE_of hbk.2.2.2.2.2.1 hbk.2.2.2.1 (by omega)
  obtain ⟨m', he, hI, hfr⟩ := splice_block_index h.index hc.1 hc.2 hx (by rw [hsz]; exact hcl)
  have hfr2 : ∀ a, (a < s.seg_start ∨ s.seg_start + 112 ≤ a) →
      (∀ b ∈ L, b.al = 0 → a < b.bp ∨ b.bp + 16 ≤ a) → m' a = s.mem a := by
    intro a ha1 ha2
    apply hfr
    · omega
    · intro y hy _
      obtain ⟨sy, hby, _⟩ := h.sound c y hy
      exact ha2 _ hby rfl
  refine ⟨m', he, Rep_relist h hI ?_ ?_, hfr2⟩
  · intro d z hz
    by_cases hd : d = c
    · subst hd
      rw [Function.update_same] at hz
      exact h.sound d z (List.mem_of_mem_erase hz)
    · rw [Function.update_noteq hd] at hz
      exact h.sound d z hz
  · intro a ha1 ha2
    exact hfr2 a ha1 (fun b hb _ => ha2 b hb)

theorem Rep_insert {s : Heap} {L : List Blk} {fl : Nat → List Nat} {x sz : Nat}
    (h : Rep s L fl) (hb : (⟨x, sz, 0⟩ : Blk) ∈ L) (hnot : ∀ d, x ∉ fl d) :
    ∃ m', flist_insert s x = ({ s with mem := m' }, x) ∧
      Rep { s with mem := m' } L
        (Function.update fl (class_of sz) (x :: fl (class_of sz))) ∧
      (∀ a, (a < s.seg_start ∨ s.seg_start + 112 ≤ a) →
        (∀ b ∈ L, b.al = 0 → a < b.bp ∨ b.bp + 16 ≤ a) → m' a = s.mem a) := by
  have hbk := h.blk hb
  simp only at hbk
  have hc := class_of_range sz
  have hsz : GET_SIZE s.mem (x - 4) = sz := GET_SIZE_of hbk.2.2.2.2.2.1 hbk.2.2.2.1 (by omega)
  have hspx : ∀ d y, y ∈ fl d → x + 16 ≤ y ∨ y + 16 ≤ x := by
    intro d y hy
    obtain ⟨sy, hby, _⟩ := h.sound d y hy
    have h2 := h.blk hby
    simp only at h2
    rcases Chain_disjoint h.chain _ hb _ hby with e | e | e
    · have e1 : x = y := congrArg Blk.bp e
      exact absurd hy (e1 ▸ hnot d)
    · simp only at e; omega
    · simp only at e; omega
  obtain ⟨m', he, hI, hfr⟩ := flist_insert_index h.index hc.1 hc.2 (by rw [hsz])
    (x := x) ⟨by omega, by simp only [U64]; omega⟩ hspx
  have hfr2 : ∀ a, (a < s.seg_start ∨ s.seg_start + 112 ≤ a) →
      (∀ b ∈ L, b.al = 0 → a < b.bp ∨ b.bp + 16 ≤ a) → m' a = s.mem a := by
    intro a ha1 ha2
    apply hfr
    · omega
    · exact ha2 _ hb rfl
    · intro y hy
      obtain ⟨sy, hby, _⟩ := h.sound _ y hy
      exact ha2 _ hby rfl
  refine ⟨m', he, Rep_relist h hI ?_ (fun a ha1 ha2 => hfr2 a ha1 (fun b hb _ => ha2 b hb)),
    hfr2⟩
  · intro d z hz
    by_cases hd : d = class_of sz
    · subst hd
      rw [Function.update_same] at hz
      rcases List.mem_cons.1 hz with e | hz
      · rw [e]; exact ⟨sz, hb, rfl⟩
      · exact h.sound _ z hz
    · rw [Function.update_noteq hd] at hz
      exact h.sound d z hz

/-- A block of the chain is in a list only if it is free and the list is that of its
size class. -/
theorem Rep.listed {s : Heap} {L : List Blk} {fl : Nat → List Nat} (h : Rep s L fl) {b : Blk}
    (hb : b ∈ L) {d : Nat} (hd : b.bp ∈ fl d) : b.al = 0 ∧ d = class_of b.sz := by
  obtain ⟨sz, hb2, hc⟩ := h.sound d b.bp hd
  have := Chain_unique h.chain hb hb2 rfl
  rw [this]
  exact ⟨rfl, hc.symm⟩

/-- A payload byte of an allocated block lies outside the head slots and outside the
link area of every free block. -/
theorem Rep.payload_free {s : Heap} {L : List Blk} {fl : Nat → List Nat} (h : Rep s L fl)
    {b : Blk} (hb : b ∈ L) (hal : b.al = 1) {a : Nat} (h1 : b.bp ≤ a)
    (h2 : a < b.bp + b.sz - 8) :
    (a < s.seg_start ∨ s.seg_start + 112 ≤ a) ∧
      ∀ c ∈ L, c.al = 0 → a < c.bp ∨ c.bp + 16 ≤ a := by
  have hb1 := h.blk hb
  refine ⟨by omega, ?_⟩
  intro c hc hcal
  have hc1 := h.blk hc
  rcases Chain_disjoint h.chain _ hb _ hc with e | e | e
  · rw [e] at hal; omega
  · omega
  · omega

theorem Chain_split3 {m : Mem} {pre mid post : List Blk} {f e : Nat}
    (h : Chain m f (pre ++ mid ++ post) e) :
    ∃ a0 b0, Chain m f pre a0 ∧ Chain m a0 mid b0 ∧ Chain m b0 post e := by
  obtain ⟨b0, h1, h2⟩ := Chain_append.1 h
  obtain ⟨a0, h3, h4⟩ := Chain_append.1 h1
  exact ⟨a0, b0, h3, h4, h2⟩

theorem Chain_join3 {m : Mem} {pre mid post : List Blk} {f e a0 b0 : Nat}
    (h1 : Chain m f pre a0) (h2 : Chain m a0 mid b0) (h3 : Chain m b0 post e) :
    Chain m f (pre ++ mid ++ post) e :=
  Chain_append.2 ⟨b0, Chain_append.2 ⟨a0, h1, h2⟩, h3⟩

/-- Rewriting the bytes of a run of blocks that are in no list: the state represents the
block sequence with the run replaced by any run that the new memory chains over the same
addresses. -/
theorem Rep_replace {s : Heap} {fl : Nat → List Nat} {m' : Mem} {pre mid mid' post : List Blk}
    {a0 b0 : Nat} (h : Rep s (pre ++ mid ++ post) fl)
    (hpre : Chain s.mem (s.heap_listp + 8) pre a0) (hmid : Chain s.mem a0 mid b0)
    (hpost : Chain s.mem b0 post s.mem_brk)
    (hnl : ∀ b ∈ mid, ∀ c, b.bp ∉ fl c)
    (hfr : ∀ a, (a < a0 - 4 ∨ b0 - 4 ≤ a) → m' a = s.mem a)
    (hm' : Chain m' a0 mid' b0) :
    Rep { s with mem := m' } (pre ++ mid' ++ post) fl := by
  have hhl := h.hl
  have h1 := Chain_le hpre
  have h2 := Chain_le hmid
  have h3 := Chain_le hpost
  have hnode : ∀ c x, x ∈ fl c → ∃ sz, ((⟨x, sz, 0⟩ : Blk) ∈ pre ∨ (⟨x, sz, 0⟩ : Blk) ∈ post) ∧
      class_of sz = c := by
    intro c x hx
    obtain ⟨sz, hb, hc⟩ := h.sound c x hx
    refine ⟨sz, ?_, hc⟩
    rcases List.mem_append.1 hb with hb | hb
    · rcases List.mem_append.1 hb with hb | hb
      · exact Or.inl hb
      · exact absurd hx (hnl _ hb c)
    · exact Or.inr hb
  constructor
  · exact h.seg_pos
  · exact h.hl
  · exact h.brk_le
  · exact h.max_u64
  · show GET4 m' (s.heap_listp - 4) = 9
    rw [← h.pro_h]
    apply GET4_congr
    intro a _ _
    apply hfr; omega
  · show GET4 m' s.heap_listp = 9
    rw [← h.pro_f]
    apply GET4_congr
    intro a _ _
    apply hfr; omega
  · show Chain m' (s.heap_listp + 8) (pre ++ mid' ++ post) s.mem_brk
    apply Chain_join3 _ hm'
    · apply Chain_frame _ (by omega) hpost
      intro a _ _
      apply hfr; omega
    · apply Chain_frame _ (by omega) hpre
      intro a _ _
      apply hfr; omega
  · show GET4 m' (s.mem_brk - 4) = 1
    rw [← h.epi]
    apply GET4_congr
    intro a _ _
    apply hfr; omega
  · intro c hc1 hc14
    apply ListAt_frame (h.lists c hc1 hc14)
    · intro a _ _
      apply hfr; omega
    · intro x hx a _ _
      obtain ⟨sz, hb, _⟩ := hnode c x hx
      apply hfr
      rcases hb with hb | hb
      · have := Chain_mem hpre _ hb
        simp only at this
        omega
      · have := Chain_mem hpost _ hb
        simp only at this
        omega
  · intro c x hx
    obtain ⟨sz, hb, hc⟩ := hnode c x hx
    refine ⟨sz, ?_, hc⟩
    rcases hb with hb | hb
    · exact List.mem_append_left _ (List.mem_append_left _ hb)
    · exact List.mem_append_right _ hb
  · exact h.nodup

theorem FTRP_eq (m : Mem) (bp : Nat) : FTRP m bp = bp + GET_SIZE m (bp - 4) - 8 := rfl
theorem NEXT_BLKP_eq (m : Mem) (bp : Nat) : NEXT_BLKP m bp = bp + GET_SIZE m (bp - 4) := rfl
theorem PREV_BLKP_eq (m : Mem) (bp : Nat) : PREV_BLKP m bp = bp - GET_SIZE m (bp - 8) := rfl

/-- What the boundary-tag macros read around a block of a chain. -/
theorem Chain_reads {m : Mem} {pre post : List Blk} {b : Blk} {f e : Nat}
    (h : Chain m f (pre ++ b :: post) e) (hf : 8 ≤ f) :
    GET_SIZE m (b.bp - 4) = b.sz ∧ GET_ALLOC m (b.bp - 4) = b.al ∧
    GET_SIZE m (b.bp + b.sz - 8) = b.sz ∧
    (pre = [] → b.bp = f) ∧
    (∀ pre1 q, pre = pre1 ++ [q] → q.bp + q.sz = b.bp ∧ GET_SIZE m (b.bp - 8) = q.sz ∧
      GET_SIZE m (q.bp - 4) = q.sz ∧ GET_ALLOC m (b.bp - 8) = q.al ∧ 24 ≤ q.sz ∧ q.al ≤ 1 ∧
      f ≤ q.bp) ∧
    (post = [] → b.bp + b.sz = e) ∧
    (∀ n post1, post = n :: post1 → n.bp = b.bp + b.sz ∧ GET_SIZE m (n.bp - 4) = n.sz ∧
      GET_ALLOC m (n.bp - 4) = n.al ∧ GET_SIZE m (n.bp + n.sz - 8) = n.sz ∧ 24 ≤ n.sz ∧
      n.al ≤ 1 ∧ n.bp + n.sz ≤ e) := by
  obtain ⟨mid, h1, h2⟩ := Chain_append.1 h
  have hb := h2
  simp only [Chain] at hb
  obtain ⟨hb1, hb2, hb3, hb4, hb5, hb6, hb7⟩ := hb
  refine ⟨GET_SIZE_of hb5 hb3 hb4, GET_ALLOC_of hb5 hb3 hb4, GET_SIZE_of hb6 hb3 hb4, ?_, ?_, ?_, ?_⟩
  · intro hp
    rw [hp] at h1
    simp only [Chain] at h1
    omega
  · intro pre1 q hp
    rw [hp] at h1
    obtain ⟨m2, h3, h4⟩ := Chain_append.1 h1
    simp only [Chain] at h4
    obtain ⟨q1, q2, q3, q4, q5, q6, q7⟩ := h4
    have := Chain_le h3
    have e1 : b.bp - 8 = q.bp + q.sz - 8 := by omega
    rw [e1]
    exact ⟨by omega, GET_SIZE_of q6 q3 q4, GET_SIZE_of q5 q3 q4, GET_ALLOC_of q6 q3 q4, q2, q4,
      by omega⟩
  · intro hp
    rw [hp] at hb7
    simp only [Chain] at hb7
    omega
  · intro n post1 hp
    rw [hp] at hb7
    simp only [Chain] at hb7
    obtain ⟨n1, n2, n3, n4, n5, n6, n7⟩ := hb7
    have := Chain_le n7
    exact ⟨by omega, GET_SIZE_of n5 n3 n4, GET_ALLOC_of n5 n3 n4, GET_SIZE_of n6 n3 n4, n2, n4,
      by omega⟩

theorem coalesce_c1 {s : Heap} {bp : Nat}
    (hp : GET_ALLOC s.mem (FTRP s.mem (PREV_BLKP s.mem bp)) ≠ 0)
    (hn : GET_ALLOC s.mem (HDRP (NEXT_BLKP s.mem bp)) ≠ 0) : coalesce s bp = (s, bp) := by
  unfold coalesce
  simp only [hp, hn, ne_eq, not_false_eq_true, and_self, if_true]

theorem coalesce_c2 {s : Heap} {bp : Nat}
    (hp : GET_ALLOC s.mem (FTRP s.mem (PREV_BLKP s.mem bp)) ≠ 0)
    (hn : GET_ALLOC s.mem (HDRP (NEXT_BLKP s.mem bp)) = 0) :
    coalesce s bp =
      ({ (splice_block s (NEXT_BLKP s.mem bp)).1 with
          mem := (PUT4 (PUT4 (splice_block s (NEXT_BLKP s.mem bp)).1.mem (HDRP bp)
            (PACK (GET_SIZE s.mem (HDRP bp) + GET_SIZE (splice_block s (NEXT_BLKP s.mem bp)).1.mem
              (HDRP (NEXT_BLKP (splice_block s (NEXT_BLKP s.mem bp)).1.mem bp))) 0))
            (FTRP (PUT4 (splice_block s (NEXT_BLKP s.mem bp)).1.mem (HDRP bp)
              (PACK (GET_SIZE s.mem (HDRP bp) +
                GET_SIZE (splice_block s (NEXT_BLKP s.mem bp)).1.mem
                (HDRP (NEXT_BLKP (splice_block s (NEXT_BLKP s.mem bp)).1.mem bp))) 0)) bp)
            (PACK (GET_SIZE s.mem (HDRP bp) + GET_SIZE (splice_block s (NEXT_BLKP s.mem bp)).1.mem
              (HDRP (NEXT_BLKP (splice_block s (NEXT_BLKP s.mem bp)).1.mem bp))) 0)) }, bp) := by
  unfold coalesce
  simp only [hp, hn, ne_eq, not_false_eq_true, not_true_eq_false, and_false, and_true, if_false,
    if_true, and_self]

theorem coalesce_c3 {s : Heap} {bp : Nat}
    (hp : GET_ALLOC s.mem (FTRP s.mem (PREV_BLKP s.mem bp)) = 0)
    (hn : GET_ALLOC s.mem (HDRP (NEXT_BLKP s.mem bp)) ≠ 0) :
    coalesce s bp =
      ({ (splice_block s (PREV_BLKP s.mem bp)).1 with
          mem := (PUT4 (PUT4 (splice_block s (PREV_BLKP s.mem bp)).1.mem
              (FTRP (splice_block s (PREV_BLKP s.mem bp)).1.mem bp)
              (PACK (GET_SIZE s.mem (HDRP bp) + GET_SIZE (splice_block s (PREV_BLKP s.mem bp)).1.mem
                (HDRP (PREV_BLKP (splice_block s (PREV_BLKP s.mem bp)).1.mem bp))) 0))
            (HDRP (PREV_BLKP (PUT4 (splice_block s (PREV_BLKP s.mem bp)).1.mem
              (FTRP (splice_block s (PREV_BLKP s.mem bp)).1.mem bp)
              (PACK (GET_SIZE s.mem (HDRP bp) + GET_SIZE (splice_block s (PREV_BLKP s.mem bp)).1.mem
                (HDRP (PREV_BLKP (splice_block s (PREV_BLKP s.mem bp)).1.mem bp))) 0)) bp))
            (PACK (GET_SIZE s.mem (HDRP bp) + GET_SIZE (splice_block s (PREV_BLKP s.mem bp)).1.mem
                (HDRP (PREV_BLKP (splice_block s (PREV_BLKP s.mem bp)).1.mem bp))) 0)) },
        (splice_block s (PREV_BLKP s.mem bp)).2) := by
  unfold coalesce
  simp only [hp, hn, ne_eq, not_false_eq_true, not_true_eq_false, and_false, and_true, if_false,
    if_true, and_self, false_and]

theorem Chain_mod8 {m : Mem} : ∀ {L : List Blk} {f e : Nat}, Chain m f L e →
    (e - f) % 8 = 0 ∧ (L ≠ [] → f + 24 ≤ e) := by
  intro L
  induction L with
  | nil => intro f e h; simp only [Chain] at h; subst h; simp
  | cons b bs ih =>
    intro f e h
    simp only [Chain] at h
    obtain ⟨h1, h2, h3, h4, h5, h6, h7⟩ := h
    have := ih h7
    have hle := Chain_le h7
    constructor
    · omega
    · intro _; omega

/-- Writing one header at the start and one footer at the end of a run of blocks that
are in no list turns the run into a single block. -/
theorem Rep_merge {s : Heap} {fl : Nat → List Nat} {m' : Mem} {pre mid post : List Blk}
    {A B al : Nat} (h : Rep s (pre ++ mid ++ post) fl)
    (hpre : Chain s.mem (s.heap_listp + 8) pre A) (hmid : Chain s.mem A mid B)
    (hpost : Chain s.mem B post s.mem_brk)
    (hnl : ∀ b ∈ mid, ∀ c, b.bp ∉ fl c) (hne : mid ≠ []) (hal : al ≤ 1)
    (hlt : B - A + al < 4294967296)
    (hm' : m' = PUT4 (PUT4 s.mem (A - 4) (PACK (B - A) al)) (B - 8) (PACK (B - A) al) ∨
      m' = PUT4 (PUT4 s.mem (B - 8) (PACK (B - A) al)) (A - 4) (PACK (B - A) al)) :
    Rep { s with mem := m' } (pre ++ [⟨A, B - A, al⟩] ++ post) fl ∧
    (∀ a, (a < A - 4 ∨ (A ≤ a ∧ a < B - 8) ∨ B - 4 ≤ a) → m' a = s.mem a) := by
  have hhl := h.hl
  have h1 := Chain_le hpre
  have h3 := Chain_le hpost
  have hm8 := Chain_mod8 hmid
  have hAB := hm8.2 hne
  have hbrk := h.brk_le
  have hfr : ∀ a, (a < A - 4 ∨ (A ≤ a ∧ a < B - 8) ∨ B - 4 ≤ a) → m' a = s.mem a := by
    intro a ha
    rcases hm' with e | e
    · rw [e, PUT4_apply_out (by omega), PUT4_apply_out (by omega)]
    · rw [e, PUT4_apply_out (by omega), PUT4_apply_out (by omega)]
  have hhd : GET4 m' (A - 4) = B - A + al := by
    rcases hm' with e | e
    · rw [e, GET4_PUT4_disj (by omega), GET4_PUT4_PACK hm8.1 hal hlt]
    · rw [e, GET4_PUT4_PACK hm8.1 hal hlt]
  have hft : GET4 m' (B - 8) = B - A + al := by
    rcases hm' with e | e
    · rw [e, GET4_PUT4_PACK hm8.1 hal hlt]
    · rw [e, GET4_PUT4_disj (by omega), GET4_PUT4_PACK hm8.1 hal hlt]
  refine ⟨Rep_replace h hpre hmid hpost hnl (fun a ha => hfr a (by omega)) ?_, hfr⟩
  simp only [Chain]
  have e1 : A + (B - A) - 8 = B - 8 := by omega
  rw [e1]
  exact ⟨trivial, by omega, hm8.1, hal, hhd, hft, by omega⟩

theorem eq_nil_or_snoc_blk (l : List Blk) : l = [] ∨ ∃ l1 z, l = l1 ++ [z] := by
  rcases List.eq_nil_or_concat l with h | ⟨l1, z, h⟩
  · exact Or.inl h
  · exact Or.inr ⟨l1, z, by rw [h, List.concat_eq_append]⟩

theorem lastFree_nil : lastFree [] = none := rfl

theorem lastFree_snoc (l : List Blk) (q : Blk) :
    lastFree (l ++ [q]) = if q.al = 0 then some q else none := by
  unfold lastFree
  rw [List.getLast?_append]
  simp

theorem headFree_cons (n : Blk) (l : List Blk) :
    headFree (n :: l) = if n.al = 0 then some n else none := rfl

/-- What the macros of `coalesce` read around a block, in any state that represents
the block sequence. -/
theorem Rep_reads {s : Heap} {fl : Nat → List Nat} {pre post : List Blk} {b : Blk}
    (h : Rep s (pre ++ b :: post) fl) :
    GET_SIZE s.mem (HDRP b.bp) = b.sz ∧ NEXT_BLKP s.mem b.bp = b.bp + b.sz ∧
    FTRP s.mem b.bp = b.bp + b.sz - 8 ∧
    (pre = [] → GET_ALLOC s.mem (FTRP s.mem (PREV_BLKP s.mem b.bp)) = 1) ∧
    (∀ pre1 q, pre = pre1 ++ [q] → PREV_BLKP s.mem b.bp = q.bp ∧ q.bp + q.sz = b.bp ∧
      GET_SIZE s.mem (HDRP q.bp) = q.sz ∧
      GET_ALLOC s.mem (FTRP s.mem (PREV_BLKP s.mem b.bp)) = q.al ∧ 24 ≤ q.sz ∧ q.al ≤ 1) ∧
    (post = [] → GET_ALLOC s.mem (HDRP (NEXT_BLKP s.mem b.bp)) = 1) ∧
    (∀ n post1, post = n :: post1 → n.bp = b.bp + b.sz ∧ GET_SIZE s.mem (HDRP n.bp) = n.sz ∧
      GET_ALLOC s.mem (HDRP (NEXT_BLKP s.mem b.bp)) = n.al ∧
      FTRP s.mem n.bp = n.bp + n.sz - 8 ∧ GET_SIZE s.mem (n.bp + n.sz - 8) = n.sz ∧
      24 ≤ n.sz ∧ n.al ≤ 1) := by
  have hhl := h.hl
  have hc := Chain_reads h.chain (by omega)
  obtain ⟨c1, c2, c3, c4, c5, c6, c7⟩ := hc
  have hb := h.blk (b := b) (by simp)
  simp only [HDRP_eq, NEXT_BLKP_eq, FTRP_eq, PREV_BLKP_eq]
  refine ⟨c1, by rw [c1], by rw [c1], ?_, ?_, ?_, ?_⟩
  · intro hp
    have e := c4 hp
    have e1 : b.bp - 8 = s.heap_listp := by omega
    have hs1 : GET_SIZE s.mem s.heap_listp = 8 :=
      @GET_SIZE_of _ _ 8 1 h.pro_f (by norm_num) (by norm_num)
    have hs2 : GET_SIZE s.mem (s.heap_listp - 4) = 8 :=
      @GET_SIZE_of _ _ 8 1 h.pro_h (by norm_num) (by norm_num)
    rw [e1, hs1]
    have e2 : b.bp - 8 = s.heap_listp := by omega
    rw [e2, hs2]
    have e3 : s.heap_listp + 8 - 8 = s.heap_listp := by omega
    rw [e3]
    exact @GET_ALLOC_of _ _ 8 1 h.pro_f (by norm_num) (by norm_num)
  · intro pre1 q hp
    obtain ⟨d1, d2, d3, d4, d5, d6, d7⟩ := c5 pre1 q hp
    rw [d2]
    have e1 : b.bp - q.sz = q.bp := by omega
    rw [e1, d3]
    have e2 : q.bp + q.sz - 8 = b.bp - 8 := by omega
    rw [e2]
    exact ⟨rfl, d1, rfl, d4, d5, d6⟩
  · intro hp
    have e := c6 hp
    rw [c1, e]
    have : s.heap_listp + 8 ≤ s.mem_brk := h.first_le
    exact @GET_ALLOC_of _ _ 0 1 (by rw [h.epi]) (by norm_num) (by norm_num)
  · intro n post1 hp
    obtain ⟨d1, d2, d3, d4, d5, d6, d7⟩ := c7 n post1 hp
    rw [c1, ← d1, d2]
    exact ⟨rfl, rfl, d3, rfl, d4, d5, d6⟩

theorem Heap_eta (s : Heap) : ({ s with mem := s.mem } : Heap) = s := rfl

/-- The free neighbour situation before a block: either no free predecessor and the
macro reads "allocated", or a free predecessor `q`. -/
theorem Rep_prev_cases {s : Heap} {fl : Nat → List Nat} {pre post : List Blk} {b : Blk}
    (h : Rep s (pre ++ b :: post) fl) :
    (lastFree pre = none ∧ GET_ALLOC s.mem (FTRP s.mem (PREV_BLKP s.mem b.bp)) ≠ 0) ∨
    (∃ pre1 q, pre = pre1 ++ [q] ∧ q.al = 0 ∧ lastFree pre = some q ∧
      GET_ALLOC s.mem (FTRP s.mem (PREV_BLKP s.mem b.bp)) = 0) := by
  obtain ⟨_, _, _, r4, r5, _, _⟩ := Rep_reads h
  rcases eq_nil_or_snoc_blk pre with hp | ⟨pre1, q, hp⟩
  · left
    rw [r4 hp, hp]
    exact ⟨rfl, by norm_num⟩
  · obtain ⟨_, _, _, e4, _, e6⟩ := r5 pre1 q hp
    by_cases hq : q.al = 0
    · right
      refine ⟨pre1, q, hp, hq, ?_, by rw [e4, hq]⟩
      rw [hp, lastFree_snoc, if_pos hq]
    · left
      refine ⟨?_, by rw [e4]; exact hq⟩
      rw [hp, lastFree_snoc, if_neg hq]

theorem Rep_next_cases {s : Heap} {fl : Nat → List Nat} {pre post : List Blk} {b : Blk}
    (h : Rep s (pre ++ b :: post) fl) :
    (headFree post = none ∧ GET_ALLOC s.mem (HDRP (NEXT_BLKP s.mem b.bp)) ≠ 0) ∨
    (∃ n post1, post = n :: post1 ∧ n.al = 0 ∧ headFree post = some n ∧
      GET_ALLOC s.mem (HDRP (NEXT_BLKP s.mem b.bp)) = 0) := by
  obtain ⟨_, _, _, _, _, r6, r7⟩ := Rep_reads h
  cases hp : post with
  | nil =>
    left
    rw [r6 hp]
    exact ⟨rfl, by norm_num⟩
  | cons n post1 =>
    obtain ⟨_, _, e3, _, _, _, e7⟩ := r7 n post1 hp
    by_cases hq : n.al = 0
    · right
      refine ⟨n, post1, rfl, hq, ?_, by rw [e3, hq]⟩
      rw [headFree_cons, if_pos hq]
    · left
      refine ⟨?_, by rw [e3]; exact hq⟩
      rw [headFree_cons, if_neg hq]

theorem cpre_none {pre : List Blk} (h : lastFree pre = none) : cpre pre = pre := by
  unfold cpre; rw [h]

theorem cpre_some {pre1 : List Blk} {q : Blk} (h : lastFree (pre1 ++ [q]) = some q) :
    cpre (pre1 ++ [q]) = pre1 := by
  unfold cpre; rw [h]; simp

theorem cpost_none {post : List Blk} (h : headFree post = none) : cpost post = post := by
  unfold cpost; rw [h]

theorem cpost_some {post1 : List Blk} {n : Blk} (h : headFree (n :: post1) = some n) :
    cpost (n :: post1) = post1 := by
  unfold cpost; rw [h]; rfl

theorem mem_unlist {fl : Nat → List Nat} {ob : Option Blk} {c x : Nat}
    (h : x ∈ unlist fl ob c) : x ∈ fl c := by
  cases ob with
  | none => exact h
  | some q =>
    simp only [unlist] at h
    by_cases hc : c = class_of q.sz
    · subst hc
      rw [Function.update_same] at h
      exact List.mem_of_mem_erase h
    · rw [Function.update_noteq hc] at h
      exact h

theorem mem_unlist_of_ne {fl : Nat → List Nat} {q : Blk} {c x : Nat}
    (h : x ∈ fl c) (hne : x ≠ q.bp) : x ∈ unlist fl (some q) c := by
  simp only [unlist]
  by_cases hc : c = class_of q.sz
  · subst hc
    rw [Function.update_same]
    exact (List.mem_erase_of_ne hne).2 h
  · rw [Function.update_noteq hc]
    exact h

/-- After unlinking a block of the chain from the list of its class it is in no list. -/
theorem Rep.not_mem_unlist {s : Heap} {L : List Blk} {fl : Nat → List Nat} (h : Rep s L fl)
    {q : Blk} (hq : q ∈ L) (c : Nat) : q.bp ∉ unlist fl (some q) c := by
  intro hm
  have hm2 := mem_unlist hm
  have := (h.listed hq hm2).2
  subst this
  simp only [unlist, Function.update_same] at hm
  exact (List.Nodup.not_mem_erase (h.nodup _)) hm

/-! ### Claims -/


theorem ceil_div8 (a : Nat) : ⌈((a : ℚ)) / 8⌉₊ = (a + 7) / 8 := by
  apply le_antisymm
  · rw [Nat.ceil_le]
    rw [div_le_iff₀ (by norm_num)]
    have : a ≤ (a + 7) / 8 * 8 := by omega
    exact_mod_cast this
  · by_contra hlt
    have hlt2 : ⌈((a : ℚ)) / 8⌉₊ + 1 ≤ (a + 7) / 8 := by omega
    have h1 : ((a : ℚ)) / 8 ≤ ⌈((a : ℚ)) / 8⌉₊ := Nat.le_ceil _
    rw [div_le_iff₀ (by norm_num)] at h1
    have h2 : a ≤ ⌈((a : ℚ)) / 8⌉₊ * 8 := by exact_mod_cast h1
    omega

/-- C2: for every request `n > 0` with `n + 15` not overflowing `size_t`, the adjusted
size computed by `malloc` equals `max(24, 8·⌈(n + 8)/8⌉)`, is a multiple of 8, is at
least 24 and is at least `n + 8`. -/
theorem malloc_asize_spec (n : Nat) (hn : 0 < n) (hov : n + 15 < U64) :
    malloc_asize n = spec_asize n ∧ malloc_asize n % 8 = 0 ∧ 24 ≤ malloc_asize n ∧
      n + 8 ≤ malloc_asize n := by
  have hc : ⌈((n : ℚ) + 8) / 8⌉₊ = (n + 8 + 7) / 8 := by
    have := ceil_div8 (n + 8)
    push_cast at this
    exact this
  unfold spec_asize malloc_asize
  rw [hc]
  simp only [ALIGNMENT, OVERHEAD, ALLOC_OVERHEAD, H_SIZE, F_SIZE, FREE_PTR_SIZE, U64] at *
  split
  · refine ⟨?_, by omega, by omega, by omega⟩
    omega
  · have e1 : (n + (4 + 4) + (8 - 1)) % 18446744073709551616 = n + 15 := by
      rw [Nat.mod_eq_of_lt]
      omega
    rw [e1]
    have e2 : 8 * ((n + 15) / 8) % 18446744073709551616 = 8 * ((n + 15) / 8) := by
      rw [Nat.mod_eq_of_lt]; omega
    rw [e2]
    refine ⟨?_, by omega, by omega, by omega⟩
    omega

theorem malloc_asize_spec_witness :
    0 < 100 ∧ 100 + 15 < U64 ∧ (malloc_asize 100 = spec_asize 100 ∧ malloc_asize 100 % 8 = 0 ∧
      24 ≤ malloc_asize 100 ∧ 100 + 8 ≤ malloc_asize 100) :=
  ⟨by decide, by decide, malloc_asize_spec 100 (by decide) (by decide)⟩

/-- C1 (failing input): on a freshly initialised heap the request `malloc(SIZE_MAX)`
returns a non-NULL pointer whose block header and footer both read `PACK(8, 1)`: the
block has size 8, which is smaller than 24 and leaves no payload byte. -/
theorem malloc_size_max_returns_8_byte_block :
    (mm_init backend0).2 = 0 ∧
    (malloc heap0 (U64 - 1)).isSome = true ∧
    ret (malloc heap0 (U64 - 1)) = 65664 ∧
    GET4 (post heap0 (malloc heap0 (U64 - 1))).mem (HDRP 65664) = PACK 8 1 ∧
    GET4 (post heap0 (malloc heap0 (U64 - 1))).mem
      (FTRP (post heap0 (malloc heap0 (U64 - 1))).mem 65664) = PACK 8 1 ∧
    GET_SIZE (post heap0 (malloc heap0 (U64 - 1))).mem (HDRP 65664) = 8 ∧
    GET_ALLOC (post heap0 (malloc heap0 (U64 - 1))).mem (HDRP 65664) = 1 := by
  decide!

/-- C3 (failing input): the backend region starts at the 8-byte aligned address `65536`.
`malloc(SIZE_MAX - 7)` returns the pointer `65664` to a block that stays in a free list;
the client writes four bytes inside the requested bytes of that allocation; the next
`malloc(1000)` returns `65764`, which is not a multiple of 8. -/
theorem malloc_returns_pointer_not_aligned :
    (mm_init backend0).2 = 0 ∧ backend0.mem_brk % 8 = 0 ∧
    (malloc heap0 (U64 - 8)).isSome = true ∧ ret (malloc heap0 (U64 - 8)) = 65664 ∧
    96 + 1 < U64 - 8 ∧
    (malloc runB_written 1000).isSome = true ∧ ret (malloc runB_written 1000) = 65764 ∧
    ret (malloc runB_written 1000) % 8 = 4 := by
  decide!

/-- C4 (failing input): after `malloc(SIZE_MAX - 7)` on the fresh heap the prologue block
has the header word `PACK(8, 1)` and the footer word `PACK(0, 1)`: header and footer
differ. -/
theorem malloc_overflow_breaks_prologue_footer :
    (mm_init backend0).2 = 0 ∧
    (malloc heap0 (U64 - 8)).isSome = true ∧ ret (malloc heap0 (U64 - 8)) = 65664 ∧
    runB.heap_listp = 65656 ∧
    GET4 runB.mem (HDRP runB.heap_listp) = PACK 8 1 ∧
    GET4 runB.mem (FTRP runB.mem runB.heap_listp) = PACK 0 1 := by
  decide!

/-- C5 (failing input): after `a = malloc(16)`, `b = malloc(16)`, `free(a)` and
`malloc(SIZE_MAX - 7)` the block at `65664` is free with size 48 and the physically next
block, at `65712`, is free with size 624: two adjacent free blocks. -/
theorem malloc_overflow_leaves_adjacent_free_blocks :
    (mm_init backend0).2 = 0 ∧
    ret (malloc heap0 16) = 65664 ∧ ret (malloc (after_malloc heap0 16) 16) = 65688 ∧
    (malloc (free (after_malloc (after_malloc heap0 16) 16) 65664) (U64 - 8)).isSome = true ∧
    runA.heap_listp + 8 = 65664 ∧
    GET4 runA.mem (HDRP 65664) = PACK 48 0 ∧
    NEXT_BLKP runA.mem 65664 = 65712 ∧
    GET4 runA.mem (HDRP 65712) = PACK 624 0 ∧
    GET4 runA.mem (FTRP runA.mem 65712) = PACK 624 0 := by
  decide!

/-- C6 (failing input): `malloc(SIZE_MAX - 7)` on the fresh heap returns `65664` to its
caller, and after the call that same block is the head of free list 8: its allocated bit
is clear and it records 1344 bytes, which is 672 bytes more than the region holds after
it.  A block handed out by `malloc` is reachable from a list head, and the list member is
not a block of the heap. -/
theorem malloc_overflow_lists_returned_block :
    (mm_init backend0).2 = 0 ∧
    (malloc heap0 (U64 - 8)).isSome = true ∧ ret (malloc heap0 (U64 - 8)) = 65664 ∧
    GET_FREE runB.mem (runB.seg_start + SEG8) = 65664 ∧
    GET_ALLOC runB.mem (HDRP 65664) = 0 ∧ GET_SIZE runB.mem (HDRP 65664) = 1344 ∧
    runB.mem_brk = 66336 ∧ runB.mem_brk < 65664 + 1344 := by
  decide!

/-- C7 (failing input): after run A the call `malloc(16)` returns `65664` a second time
and turns the live block `b = 65688` into a listed free block; `free(b)` then inserts
`b` into the list it already heads.  Afterwards the head of list 7 is `b`, the
successor link of `b` is `b` itself (a cycle) and the predecessor link of this head is
not nil. -/
theorem free_after_overflow_makes_cyclic_list :
    (malloc runA 16).isSome = true ∧ ret (malloc runA 16) = 65664 ∧
    GET_FREE (free (after_malloc runA 16) 65688).mem
      ((free (after_malloc runA 16) 65688).seg_start + SEG7) = 65688 ∧
    GET_FREE (free (after_malloc runA 16) 65688).mem (NEXT_FREE 65688) = 65688 ∧
    GET_FREE (free (after_malloc runA 16) 65688).mem (PREV_FREE 65688) = 65688 := by
  decide!

/-- C8 (failing input): after `malloc(SIZE_MAX - 7)` on the fresh heap the first block
after the prologue records the size 1344 although the region ends 672 bytes after that
block starts: the walk along `NEXT_BLKP` leaves the region instead of ending at the
epilogue header, which is still the last word of the region. -/
theorem malloc_overflow_breaks_tiling :
    (mm_init backend0).2 = 0 ∧
    (malloc heap0 (U64 - 8)).isSome = true ∧
    runB.heap_listp + 8 = 65664 ∧ runB.mem_brk = 66336 ∧
    GET_SIZE runB.mem (HDRP 65664) = 1344 ∧
    NEXT_BLKP runB.mem 65664 = 67008 ∧ runB.mem_brk < NEXT_BLKP runB.mem 65664 ∧
    GET4 runB.mem (runB.mem_brk - 4) = PACK 0 1 := by
  decide!

/-- C9 (failing input): `p = malloc(200)` on the fresh heap is `65664` and its payload
is all zero; `q = realloc(p, SIZE_MAX)` is `65872`, and afterwards the payload bytes 8
and 10 of `q` are 128 and 1 although the bytes 8 and 10 of `p` were 0 before the call. -/
theorem realloc_overflow_loses_content :
    ret (malloc heap0 200) = 65664 ∧
    (realloc (after_malloc heap0 200) 65664 (U64 - 1)).isSome = true ∧
    ret (realloc (after_malloc heap0 200) 65664 (U64 - 1)) = 65872 ∧
    (after_malloc heap0 200).mem (65664 + 8) = 0 ∧
    (after_malloc heap0 200).mem (65664 + 10) = 0 ∧
    (after_realloc (after_malloc heap0 200) 65664 (U64 - 1)).mem (65872 + 8) = 128 ∧
    (after_realloc (after_malloc heap0 200) 65664 (U64 - 1)).mem (65872 + 10) = 1 := by
  decide!

/-- C10 (failing input): `p = malloc(16)` on the fresh heap has a block of size 24, so a
payload of 16 bytes; in `realloc(p, 100)` the inner `malloc(100)` returns `65688` and the
number of bytes copied is 24, not `min(100, 24 - 8) = 16`: byte 16 of the new payload
receives the first byte of the old block's footer. -/
theorem realloc_copies_block_size_bytes :
    ret (malloc heap0 16) = 65664 ∧
    GET_SIZE (after_malloc heap0 16).mem (HDRP 65664) = 24 ∧
    ret (malloc (after_malloc heap0 16) 100) = 65688 ∧
    realloc_copy_len (after_malloc (after_malloc heap0 16) 100) 65664 100 = 24 ∧
    MIN 100 (24 - ALLOC_OVERHEAD) = 16 ∧
    ret (realloc (after_malloc heap0 16) 65664 100) = 65688 ∧
    (after_malloc (after_malloc heap0 16) 100).mem (65688 + 16) = 0 ∧
    (after_realloc (after_malloc heap0 16) 65664 100).mem (65688 + 16) = 25 := by
  decide!

theorem class_of_least (size d : Nat) (h1 : 1 ≤ d) (hd : d < class_of size) :
    within_bound size d = false := by
  have hr := class_of_range size
  rcases class_of_cases size with h | h | h | h | h | h | h | h | h | h | h | h | h | h <;>
  · obtain ⟨_, _⟩ := h
    have hd14 : d ≤ 13 := by omega
    interval_cases d <;> simp [within_bound, class_bound] <;> omega

theorem class_of_within (size : Nat) : within_bound size (class_of size) = true := by
  rcases class_of_cases size with h | h | h | h | h | h | h | h | h | h | h | h | h | h <;>
  · simp [within_bound, class_bound, h]

theorem class_of_mono {a b : Nat} (h : a ≤ b) : class_of a ≤ class_of b := by
  by_contra hlt
  have hlt2 : class_of b < class_of a := by omega
  have h1 := class_of_least a (class_of b) (class_of_range b).1 hlt2
  have h2 := class_of_within b
  have h14 := (class_of_range a).2
  unfold within_bound at h1 h2
  cases hb : class_bound (class_of b) with
  | none => rw [hb] at h1; simp at h1
  | some v =>
    rw [hb] at h1 h2
    simp at h1 h2
    omega

theorem print_free_list_in_range_iff (c size : Nat) (h1 : 1 ≤ c) (h14 : c ≤ 14)
    (hpos : 0 < size) (hlt : size < U64) :
    print_free_list_in_range c size = true ↔ class_of size = c := by
  have hlt2 : size < 18446744073709551616 := hlt
  rcases class_of_cases size with h | h | h | h | h | h | h | h | h | h | h | h | h | h <;>
  · interval_cases c <;> simp [print_free_list_in_range, print_free_list_bounds, h, MAX1, MAX2, MAX3, MAX4, MAX5, MAX6,
      MAX7, MAX8, MAX9, MAX10, MAX11, MAX12, MAX13, U64] <;> omega

theorem find_fit_cascade (s : Heap) (asize : Nat) :
    find_fit s asize = find_fit_loop s asize (NUM_SEGS + 1 - class_of asize) (class_of asize) := by
  unfold find_fit
  exact cascade14 asize (fun c => find_fit_loop s asize (NUM_SEGS + 1 - c) c)

/-- C17: the 14-way cascades of `flist_insert`, of the two head-update cases of
`splice_block` and of `find_fit` all select the class `class_of` of the size they test
(the head slot of class `c` is `seg_start + 8 * (c - 1)`); `class_of size` is the smallest
class whose upper bound in the table 24, 48, 72, 96, 120, 480, 960, 1920, 3840, 7680,
15360, 30720, 61440, infinity is at least `size`; `class_of` is monotone; and the range
test `min < size <= max` of `print_free_list` accepts a block (of positive size) in
list `c` exactly when `class_of size = c`. -/
theorem size_class_routing (s : Heap) (bp asize size : Nat) :
    flist_insert s bp = seglist_insert s bp
        (GET s.mem (s.seg_start + 8 * (class_of (GET_SIZE s.mem (HDRP bp)) - 1)))
        (s.seg_start + 8 * (class_of (GET_SIZE s.mem (HDRP bp)) - 1)) ∧
    (GET_FREE s.mem (PREV_FREE bp) = 0 → GET_FREE s.mem (NEXT_FREE bp) ≠ 0 →
      splice_block s bp =
        ({ s with mem := (PUTP (PUTP s.mem
            (s.seg_start + 8 * (class_of (GET_SIZE s.mem (HDRP bp)) - 1))
            (GET_FREE s.mem (NEXT_FREE bp))) (PREV_FREE (GET_FREE s.mem (NEXT_FREE bp))) 0) },
          bp)) ∧
    (GET_FREE s.mem (PREV_FREE bp) = 0 → GET_FREE s.mem (NEXT_FREE bp) = 0 →
      splice_block s bp =
        ({ s with mem := (PUTP s.mem
            (s.seg_start + 8 * (class_of (GET_SIZE s.mem (HDRP bp)) - 1)) 0) }, bp)) ∧
    find_fit s asize =
      find_fit_loop s asize (NUM_SEGS + 1 - class_of asize) (class_of asize) ∧
    (1 ≤ class_of size ∧ class_of size ≤ 14 ∧ within_bound size (class_of size) = true ∧
      ∀ d, 1 ≤ d → d < class_of size → within_bound size d = false) ∧
    (∀ a b, a ≤ b → class_of a ≤ class_of b) ∧
    (∀ c, 1 ≤ c → c ≤ 14 → 0 < size → size < U64 →
      (print_free_list_in_range c size = true ↔ class_of size = c)) := by
  refine ⟨?_, ?_, ?_, find_fit_cascade s asize, ?_, fun a b h => class_of_mono h,
    fun c h1 h14 hp hl => print_free_list_in_range_iff c size h1 h14 hp hl⟩
  · unfold flist_insert
    simp only [insert_cascade, HDRP_eq]
  · intro hp hn
    rw [splice_block_eq]
    simp only [PREV_FREE_eq, NEXT_FREE_eq, HDRP_eq] at hp hn ⊢
    rw [if_pos ⟨hp, hn⟩]
  · intro hp hn
    rw [splice_block_eq]
    simp only [PREV_FREE_eq, NEXT_FREE_eq, HDRP_eq] at hp hn ⊢
    rw [if_neg (fun h => h.2 hn), if_neg (fun h => h.1 hp), if_pos ⟨hp, hn⟩]
  · exact ⟨(class_of_range size).1, (class_of_range size).2, class_of_within size,
      fun d h1 hd => class_of_least size d h1 hd⟩

theorem size_class_routing_witness :
    class_of 100 = 5 ∧ print_free_list_in_range 5 100 = true ∧
    print_free_list_in_range 4 100 = false ∧
    find_fit heap0 100 = find_fit_loop heap0 100 (NUM_SEGS + 1 - 5) 5 :=
  ⟨by decide,
    ((size_class_routing heap0 65664 100 100).2.2.2.2.2.2 5 (by decide) (by decide) (by decide)
      (by decide)).2 (by decide),
    by decide, (size_class_routing heap0 65664 100 100).2.2.2.1⟩

theorem GET_SIZE_PUT4_disj {m : Mem} {p v q : Nat} (h : p + 4 ≤ q ∨ q + 4 ≤ p) :
    GET_SIZE (PUT4 m p v) q = GET_SIZE m q := by
  unfold GET_SIZE; rw [GET4_PUT4_disj h]

theorem GET_ALLOC_PUT4_disj {m : Mem} {p v q : Nat} (h : p + 4 ≤ q ∨ q + 4 ≤ p) :
    GET_ALLOC (PUT4 m p v) q = GET_ALLOC m q := by
  unfold GET_ALLOC; rw [GET4_PUT4_disj h]

theorem GET_SIZE_PUT4_PACK {m : Mem} {p sz a : Nat} (hs : sz % 8 = 0) (ha : a ≤ 1)
    (hlt : sz + a < 4294967296) : GET_SIZE (PUT4 m p (PACK sz a)) p = sz :=
  GET_SIZE_of (GET4_PUT4_PACK hs ha hlt) hs ha

/-- A payload byte of an allocated block lies outside every run of free blocks. -/
theorem payload_outside_run {m : Mem} {pre mid post : List Blk} {f A B e : Nat}
    (hpre : Chain m f pre A) (hpost : Chain m B post e)
    (hfree : ∀ b ∈ mid, b.al = 0) {c : Blk} (hc : c ∈ pre ++ mid ++ post) (hal : c.al = 1)
    {a : Nat} (h1 : c.bp ≤ a) (h2 : a < c.bp + c.sz - 8) : a + 8 < A ∨ B ≤ a := by
  rcases List.mem_append.1 hc with hc | hc
  · rcases List.mem_append.1 hc with hc | hc
    · have := Chain_mem hpre c hc
      left; omega
    · have := hfree c hc
      omega
  · have := Chain_mem hpost c hc
    right; omega

theorem outside_of_run {x y z : Nat} (h : x + 8 < y ∨ z ≤ x) :
    x < y - 4 ∨ (y ≤ x ∧ x < z - 8) ∨ z - 4 ≤ x := by omega

theorem coalesce_c4 {s : Heap} {bp : Nat}
    (hp : GET_ALLOC s.mem (FTRP s.mem (PREV_BLKP s.mem bp)) = 0)
    (hn : GET_ALLOC s.mem (HDRP (NEXT_BLKP s.mem bp)) = 0) :
    coalesce s bp =
      (let r := splice_block s (PREV_BLKP s.mem bp)
       let s1 := r.1
       let ptr := r.2
       let s2 := (splice_block s1 (NEXT_BLKP s1.mem bp)).1
       let size := GET_SIZE s.mem (HDRP bp) + (GET_SIZE s2.mem (HDRP (PREV_BLKP s2.mem bp)) +
         GET_SIZE s2.mem (FTRP s2.mem (NEXT_BLKP s2.mem bp)))
       let m3 := PUT4 s2.mem (HDRP (PREV_BLKP s2.mem bp)) (PACK size 0)
       let m4 := PUT4 m3 (FTRP m3 (NEXT_BLKP m3 bp)) (PACK size 0)
       ({ s2 with mem := m4 }, ptr)) := by
  unfold coalesce
  simp only [hp, hn, ne_eq, not_false_eq_true, not_true_eq_false, and_false, and_true, if_false,
    if_true, and_self, false_and]

/-- The case "only the next block is free" of `coalesce`, with every intermediate value
named. -/
theorem coalesce_next_flat {s : Heap} {bp nb size f : Nat} {m1 m2 : Mem}
    (hp : GET_ALLOC s.mem (FTRP s.mem (PREV_BLKP s.mem bp)) ≠ 0)
    (hn : GET_ALLOC s.mem (HDRP (NEXT_BLKP s.mem bp)) = 0)
    (hnb : NEXT_BLKP s.mem bp = nb)
    (hs1 : splice_block s nb = ({ s with mem := m1 }, nb))
    (hsize : GET_SIZE s.mem (HDRP bp) + GET_SIZE m1 (HDRP (NEXT_BLKP m1 bp)) = size)
    (hm2 : PUT4 m1 (HDRP bp) (PACK size 0) = m2)
    (hf : FTRP m2 bp = f) :
    coalesce s bp = ({ s with mem := PUT4 m2 f (PACK size 0) }, bp) := by
  subst hnb hsize hm2 hf
  rw [coalesce_c2 hp hn, hs1]

/-- The case "only the previous block is free" of `coalesce`, with every intermediate
value named. -/
theorem coalesce_prev_flat {s : Heap} {bp pb size f h0 : Nat} {m1 m2 : Mem}
    (hp : GET_ALLOC s.mem (FTRP s.mem (PREV_BLKP s.mem bp)) = 0)
    (hn : GET_ALLOC s.mem (HDRP (NEXT_BLKP s.mem bp)) ≠ 0)
    (hpb : PREV_BLKP s.mem bp = pb)
    (hs1 : splice_block s pb = ({ s with mem := m1 }, pb))
    (hsize : GET_SIZE s.mem (HDRP bp) + GET_SIZE m1 (HDRP (PREV_BLKP m1 bp)) = size)
    (hf : FTRP m1 bp = f)
    (hm2 : PUT4 m1 f (PACK size 0) = m2)
    (hh : HDRP (PREV_BLKP m2 bp) = h0) :
    coalesce s bp = ({ s with mem := PUT4 m2 h0 (PACK size 0) }, pb) := by
  subst hpb hsize hf hm2 hh
  rw [coalesce_c3 hp hn, hs1]

/-- The case "both neighbours are free" of `coalesce`, with every intermediate value
named. -/
theorem coalesce_both_flat {s : Heap} {bp pb nb size f h0 : Nat} {m1 m2 m3 : Mem}
    (hp : GET_ALLOC s.mem (FTRP s.mem (PREV_BLKP s.mem bp)) = 0)
    (hn : GET_ALLOC s.mem (HDRP (NEXT_BLKP s.mem bp)) = 0)
    (hpb : PREV_BLKP s.mem bp = pb)
    (hs1 : splice_block s pb = ({ s with mem := m1 }, pb))
    (hnb : NEXT_BLKP m1 bp = nb)
    (hs2 : splice_block { s with mem := m1 } nb = ({ s with mem := m2 }, nb))
    (hsize : GET_SIZE s.mem (HDRP bp) + (GET_SIZE m2 (HDRP (PREV_BLKP m2 bp)) +
      GET_SIZE m2 (FTRP m2 (NEXT_BLKP m2 bp))) = size)
    (hh : HDRP (PREV_BLKP m2 bp) = h0)
    (hm3 : PUT4 m2 h0 (PACK size 0) = m3)
    (hf : FTRP m3 (NEXT_BLKP m3 bp) = f) :
    coalesce s bp = ({ s with mem := PUT4 m3 f (PACK size 0) }, pb) := by
  subst hpb hnb hsize hh hm3 hf
  rw [coalesce_c4 hp hn]
  simp only [hs1, hs2]

theorem coalesce_next_spec {s : Heap} {fl : Nat → List Nat} {pre post1 : List Blk}
    {bp sz : Nat} {n : Blk}
    (h : Rep s (pre ++ ⟨bp, sz, 0⟩ :: n :: post1) fl) (hnl : ∀ c, bp ∉ fl c)
    (hnal : n.al = 0) (hn : n.bp ∈ fl (class_of n.sz))
    (hpa : GET_ALLOC s.mem (FTRP s.mem (PREV_BLKP s.mem bp)) ≠ 0)
    (hsum : sz + n.sz < 4294967296) :
    ∃ m', coalesce s bp = ({ s with mem := m' }, bp) ∧
      Rep { s with mem := m' } (pre ++ ⟨bp, sz + n.sz, 0⟩ :: post1) (unlist fl (some n)) ∧
      (∀ c, bp ∉ unlist fl (some n) c) ∧
      PayloadFrame 0 (pre ++ ⟨bp, sz, 0⟩ :: n :: post1) s.mem m' := by
  obtain ⟨r1, r2, r3, _, _, _, r7⟩ := Rep_reads h
  obtain ⟨e1, e2, e3, e4, e5, e6, e7⟩ := r7 n post1 rfl
  simp only at r1 r2 r3 e1 e2 e3
  have hna : GET_ALLOC s.mem (HDRP (NEXT_BLKP s.mem bp)) = 0 := by rw [e3, hnal]
  have hnL : n ∈ pre ++ ⟨bp, sz, 0⟩ :: n :: post1 := by simp
  obtain ⟨m1, he, h1, hf1⟩ := Rep_splice h hn
  obtain ⟨q1, q2, q3, _, _, _, q7⟩ := Rep_reads h1
  obtain ⟨d1, d2, d3, d4, d5, d6, d7⟩ := q7 n post1 rfl
  simp only at q1 q2 q3 d1 d2 d3
  have hL : pre ++ ⟨bp, sz, 0⟩ :: n :: post1 = pre ++ [⟨bp, sz, 0⟩, n] ++ post1 := by simp
  have h1' := h1
  rw [hL] at h1'
  obtain ⟨A, B, c1, c2, c3⟩ := Chain_split3 h1'.chain
  have hc2 := c2
  simp only [Chain] at hc2
  have hA : A = bp := hc2.1.symm
  have hB : B = bp + sz + n.sz := by
    have k2 := hc2.2.2.2.2.2.2.2.2.2.2.2.2
    clear * - hA k2
    omega
  have hbk := @Rep.blk _ _ _ h ⟨bp, sz, 0⟩ (by simp)
  have hnk := h.blk hnL
  simp only at hbk
  have hT : sz + n.sz + 0 < 4294967296 := by
    clear * - hsum
    omega
  have hT8 : (sz + n.sz) % 8 = 0 := by
    have k3 := hbk.2.2.2.1; have k4 := hnk.2.2.2.1
    clear * - k3 k4
    omega
  have hmerge := @Rep_merge _ _ (PUT4 (PUT4 m1 (A - 4) (PACK (B - A) 0)) (B - 8)
      (PACK (B - A) 0)) _ _ _ _ _ 0 h1' c1 c2 c3 (by
      intro b hb c
      simp only [List.mem_cons, List.mem_singleton, List.not_mem_nil, or_false] at hb
      rcases hb with hb | hb
      · subst hb
        intro hm
        exact hnl c (@mem_unlist _ (some n) _ _ hm)
      · subst hb
        exact h.not_mem_unlist hnL c) (by simp) (by norm_num) (by
      clear * - hA hB hT
      omega) (Or.inl rfl)
  have hBA : B - A = sz + n.sz := by
    clear * - hA hB
    omega
  have hB8 : B - 8 = bp + (sz + n.sz) - 8 := by
    clear * - hB
    omega
  have hfrm := hmerge.2
  have hrep := hmerge.1
  rw [hBA, hB8, hA] at hrep
  refine ⟨PUT4 (PUT4 m1 (bp - 4) (PACK (sz + n.sz) 0)) (bp + (sz + n.sz) - 8)
    (PACK (sz + n.sz) 0), ?_, ?_, ?_, ?_⟩
  · refine coalesce_next_flat hpa hna (r2.trans e1.symm) he ?_ rfl ?_
    · simp only [HDRP_eq] at r1 d2 ⊢
      rw [r1, q2, ← d1, d2]
    · simp only [FTRP_eq, HDRP_eq]
      rw [GET_SIZE_PUT4_PACK hT8 (by norm_num) hT]
  · simpa using hrep
  · intro c hm
    exact hnl c (mem_unlist hm)
  · intro c hc hal _ a ha1 ha2
    have hp := h.payload_free hc hal ha1 ha2
    have hout := payload_outside_run c1 c3 (by
      intro b hb
      simp only [List.mem_cons, List.mem_singleton, List.not_mem_nil, or_false] at hb
      rcases hb with hb | hb
      · rw [hb]
      · rw [hb]; exact hnal) (hL ▸ hc) hal ha1 ha2
    have e9 := hfrm a (outside_of_run hout)
    rw [hBA, hB8, hA] at e9
    rw [e9]
    exact hf1 a hp.1 hp.2

theorem coalesce_prev_spec {s : Heap} {fl : Nat → List Nat} {pre1 post : List Blk}
    {bp sz : Nat} {q : Blk}
    (h : Rep s ((pre1 ++ [q]) ++ ⟨bp, sz, 0⟩ :: post) fl) (hnl : ∀ c, bp ∉ fl c)
    (hqal : q.al = 0) (hq : q.bp ∈ fl (class_of q.sz))
    (hna : GET_ALLOC s.mem (HDRP (NEXT_BLKP s.mem bp)) ≠ 0)
    (hsum : sz + q.sz < 4294967296) :
    ∃ m', coalesce s bp = ({ s with mem := m' }, q.bp) ∧
      Rep { s with mem := m' } (pre1 ++ ⟨q.bp, sz + q.sz, 0⟩ :: post) (unlist fl (some q)) ∧
      (∀ c, q.bp ∉ unlist fl (some q) c) ∧
      PayloadFrame 0 ((pre1 ++ [q]) ++ ⟨bp, sz, 0⟩ :: post) s.mem m' := by
  obtain ⟨r1, r2, r3, _, r5, _, _⟩ := Rep_reads h
  obtain ⟨e1, e2, e3, e4, e5, e6⟩ := r5 pre1 q rfl
  simp only at r1 r2 r3 e1 e2 e3 e4
  have hpa : GET_ALLOC s.mem (FTRP s.mem (PREV_BLKP s.mem bp)) = 0 := by rw [e4, hqal]
  have hqL : q ∈ (pre1 ++ [q]) ++ ⟨bp, sz, 0⟩ :: post := by simp
  obtain ⟨m1, he, h1, hf1⟩ := Rep_splice h hq
  obtain ⟨q1, q2, q3, _, q5, _, _⟩ := Rep_reads h1
  obtain ⟨d1, d2, d3, d4, d5, d6⟩ := q5 pre1 q rfl
  simp only at q1 q2 q3 d1 d2 d3
  have hL : (pre1 ++ [q]) ++ ⟨bp, sz, 0⟩ :: post = pre1 ++ [q, ⟨bp, sz, 0⟩] ++ post := by simp
  have h1' := h1
  rw [hL] at h1'
  obtain ⟨A, B, c1, c2, c3⟩ := Chain_split3 h1'.chain
  have hc2 := c2
  simp only [Chain] at hc2
  have hA : A = q.bp := hc2.1.symm
  have hB : B = bp + sz := by
    have k2 := hc2.2.2.2.2.2.2.2.2.2.2.2.2
    have k3 := e2
    clear * - hA k2 k3
    omega
  have hbk := @Rep.blk _ _ _ h ⟨bp, sz, 0⟩ (by simp)
  have hqk := h.blk hqL
  simp only at hbk
  have hT : sz + q.sz + 0 < 4294967296 := by
    clear * - hsum
    omega
  have hT8 : (sz + q.sz) % 8 = 0 := by
    have k3 := hbk.2.2.2.1; have k4 := hqk.2.2.2.1
    clear * - k3 k4
    omega
  have hmerge := @Rep_merge _ _ (PUT4 (PUT4 m1 (B - 8) (PACK (B - A) 0)) (A - 4)
      (PACK (B - A) 0)) _ _ _ _ _ 0 h1' c1 c2 c3 (by
      intro b hb c
      simp only [List.mem_cons, List.mem_singleton, List.not_mem_nil, or_false] at hb
      rcases hb with hb | hb
      · subst hb
        exact h.not_mem_unlist hqL c
      · subst hb
        intro hm
        exact hnl c (@mem_unlist _ (some q) _ _ hm)) (by simp) (by norm_num) (by
      have k3 := e2
      clear * - hA hB k3 hT
      omega) (Or.inr rfl)
  have hBA : B - A = sz + q.sz := by
    have k3 := e2
    clear * - hA hB k3
    omega
  have hB8 : B - 8 = bp + sz - 8 := by
    clear * - hB
    omega
  have hfrm := hmerge.2
  have hrep := hmerge.1
  rw [hBA, hB8, hA] at hrep
  have hdisj : bp + sz - 8 + 4 ≤ bp - 8 ∨ bp - 8 + 4 ≤ bp + sz - 8 := by
    have k4 := hbk.2.2.1
    clear * - k4
    omega
  have hg : GET_SIZE m1 (bp - 8) = q.sz := by
    have hcr := Chain_reads h1.chain (by have := h.hl; simp only; omega)
    exact ((hcr.2.2.2.2.1) pre1 q rfl).2.1
  have hbq : bp - q.sz = q.bp := by
    have k3 := e2
    clear * - k3
    omega
  refine ⟨PUT4 (PUT4 m1 (bp + sz - 8) (PACK (sz + q.sz) 0)) (q.bp - 4) (PACK (sz + q.sz) 0),
    ?_, ?_, ?_, ?_⟩
  · refine coalesce_prev_flat hpa hna e1 he ?_ q3 rfl ?_
    · simp only [HDRP_eq] at r1 d3 ⊢
      rw [r1, d1, d3]
    · simp only [HDRP_eq, PREV_BLKP_eq]
      rw [GET_SIZE_PUT4_disj hdisj, hg, hbq]
  · simpa using hrep
  · exact fun c => h.not_mem_unlist hqL c
  · intro c hc hal _ a ha1 ha2
    have hp := h.payload_free hc hal ha1 ha2
    have hout := payload_outside_run c1 c3 (by
      intro b hb
      simp only [List.mem_cons, List.mem_singleton, List.not_mem_nil, or_false] at hb
      rcases hb with hb | hb
      · rw [hb]; exact hqal
      · rw [hb]) (hL ▸ hc) hal ha1 ha2
    have e9 := hfrm a (outside_of_run hout)
    rw [hBA, hB8, hA] at e9
    rw [e9]
    exact hf1 a hp.1 hp.2

theorem coalesce_both_spec {s : Heap} {fl : Nat → List Nat} {pre1 post1 : List Blk}
    {bp sz : Nat} {q n : Blk}
    (h : Rep s ((pre1 ++ [q]) ++ ⟨bp, sz, 0⟩ :: n :: post1) fl) (hnl : ∀ c, bp ∉ fl c)
    (hqal : q.al = 0) (hq : q.bp ∈ fl (class_of q.sz))
    (hnal : n.al = 0) (hn : n.bp ∈ fl (class_of n.sz))
    (hsum : sz + q.sz + n.sz < 4294967296) :
    ∃ m', coalesce s bp = ({ s with mem := m' }, q.bp) ∧
      Rep { s with mem := m' } (pre1 ++ ⟨q.bp, sz + q.sz + n.sz, 0⟩ :: post1)
        (unlist (unlist fl (some q)) (some n)) ∧
      (∀ c, q.bp ∉ unlist (unlist fl (some q)) (some n) c) ∧
      PayloadFrame 0 ((pre1 ++ [q]) ++ ⟨bp, sz, 0⟩ :: n :: post1) s.mem m' := by
  obtain ⟨r1, r2, r3, _, r5, _, r7⟩ := Rep_reads h
  obtain ⟨e1, e2, e3, e4, e5, e6⟩ := r5 pre1 q rfl
  obtain ⟨f1, f2, f3, f4, f5, f6, f7⟩ := r7 n post1 rfl
  simp only at r1 r2 r3 e1 e2 e3 e4 f1 f2 f3
  have hpa : GET_ALLOC s.mem (FTRP s.mem (PREV_BLKP s.mem bp)) = 0 := by rw [e4, hqal]
  have hna : GET_ALLOC s.mem (HDRP (NEXT_BLKP s.mem bp)) = 0 := by rw [f3, hnal]
  have hqL : q ∈ (pre1 ++ [q]) ++ ⟨bp, sz, 0⟩ :: n :: post1 := by simp
  have hnL : n ∈ (pre1 ++ [q]) ++ ⟨bp, sz, 0⟩ :: n :: post1 := by simp
  have hbk := @Rep.blk _ _ _ h ⟨bp, sz, 0⟩ (by simp)
  have hqk := h.blk hqL
  have hnk := h.blk hnL
  simp only at hbk
  have hne : n.bp ≠ q.bp := by
    have k1 := e2; have k2 := f1; have k3 := hqk.2.2.1
    clear * - k1 k2 k3
    omega
  obtain ⟨m1, he, h1, hf1⟩ := Rep_splice h hq
  have hn1 : n.bp ∈ unlist fl (some q) (class_of n.sz) := mem_unlist_of_ne hn hne
  obtain ⟨m2, he2, h2, hf2⟩ := Rep_splice h1 hn1
  obtain ⟨_, q2, _, _, _, _, _⟩ := Rep_reads h1
  simp only at q2
  obtain ⟨t1, t2, t3, _, t5, _, t7⟩ := Rep_reads h2
  obtain ⟨u1, u2, u3, u4, u5, u6⟩ := t5 pre1 q rfl
  obtain ⟨v1, v2, v3, v4, v5, v6, v7⟩ := t7 n post1 rfl
  simp only at t1 t2 t3 u1 u2 u3 v1 v2 v3 v4 v5
  have hL : (pre1 ++ [q]) ++ ⟨bp, sz, 0⟩ :: n :: post1 =
      pre1 ++ [q, ⟨bp, sz, 0⟩, n] ++ post1 := by simp
  have h2' := h2
  rw [hL] at h2'
  obtain ⟨A, B, c1, c2, c3⟩ := Chain_split3 h2'.chain
  have hc2 := c2
  simp only [Chain] at hc2
  have hA : A = q.bp := hc2.1.symm
  have hB : B = bp + sz + n.sz := by
    have k2 := hc2.2.2.2.2.2.2.2.2.2.2.2.2.2.2.2.2.2.2
    have k3 := e2
    clear * - hA k2 k3
    omega
  have hT : sz + q.sz + n.sz + 0 < 4294967296 := by
    clear * - hsum
    omega
  have hT8 : (sz + q.sz + n.sz) % 8 = 0 := by
    have k3 := hbk.2.2.2.1; have k4 := hqk.2.2.2.1; have k5 := hnk.2.2.2.1
    clear * - k3 k4 k5
    omega
  have hmerge := @Rep_merge _ _ (PUT4 (PUT4 m2 (A - 4) (PACK (B - A) 0)) (B - 8)
      (PACK (B - A) 0)) _ _ _ _ _ 0 h2' c1 c2 c3 (by
      intro b hb c
      simp only [List.mem_cons, List.mem_singleton, List.not_mem_nil, or_false] at hb
      rcases hb with hb | hb | hb
      · subst hb
        intro hm
        exact h.not_mem_unlist hqL c (@mem_unlist _ (some n) _ _ hm)
      · subst hb
        intro hm
        exact hnl c (@mem_unlist _ (some q) _ _ (@mem_unlist _ (some n) _ _ hm))
      · subst hb
        exact h1.not_mem_unlist hnL c) (by simp) (by norm_num) (by
      have k3 := e2
      clear * - hA hB k3 hT
      omega) (Or.inl rfl)
  have hBA : B - A = sz + q.sz + n.sz := by
    have k3 := e2
    clear * - hA hB k3
    omega
  have hB8 : B - 8 = n.bp + n.sz - 8 := by
    have k3 := f1
    clear * - hB k3
    omega
  have hfrm := hmerge.2
  have hrep := hmerge.1
  rw [hBA, hB8, hA] at hrep
  have hd1 : q.bp - 4 + 4 ≤ bp - 4 ∨ bp - 4 + 4 ≤ q.bp - 4 := by
    have k3 := e2; have k4 := hqk.2.2.1
    clear * - k3 k4
    omega
  have hd2 : q.bp - 4 + 4 ≤ bp + sz - 4 ∨ bp + sz - 4 + 4 ≤ q.bp - 4 := by
    have k3 := e2; have k4 := hqk.2.2.1
    clear * - k3 k4
    omega
  refine ⟨PUT4 (PUT4 m2 (q.bp - 4) (PACK (sz + q.sz + n.sz) 0)) (n.bp + n.sz - 8)
    (PACK (sz + q.sz + n.sz) 0), ?_, ?_, ?_, ?_⟩
  · refine coalesce_both_flat hpa hna e1 he (q2.trans f1.symm) he2 ?_ ?_ rfl ?_
    · simp only [HDRP_eq] at r1 u3 ⊢
      rw [r1, u1, u3, t2, ← v1, v4, v5]
      clear * -
      omega
    · rw [u1, HDRP_eq]
    · simp only [FTRP_eq, NEXT_BLKP_eq, HDRP_eq] at v2 t1 ⊢
      rw [GET_SIZE_PUT4_disj hd1, t1, GET_SIZE_PUT4_disj hd2, ← v1, v2]
  · simpa using hrep
  · intro c hm
    exact h.not_mem_unlist hqL c (@mem_unlist _ (some n) _ _ hm)
  · intro c hc hal _ a ha1 ha2
    have hp := h.payload_free hc hal ha1 ha2
    have hout := payload_outside_run c1 c3 (by
      intro b hb
      simp only [List.mem_cons, List.mem_singleton, List.not_mem_nil, or_false] at hb
      rcases hb with hb | hb | hb
      · rw [hb]; exact hqal
      · rw [hb]
      · rw [hb]; exact hnal) (hL ▸ hc) hal ha1 ha2
    have e9 := hfrm a (outside_of_run hout)
    rw [hBA, hB8, hA] at e9
    rw [e9]
    exact (hf2 a hp.1 hp.2).trans (hf1 a hp.1 hp.2)

/-- The effect of `coalesce` on a state that represents the block sequence
`pre ++ b :: post`, where `b` is free and in no list and the free neighbours of `b` are
listed: the result represents the sequence in which `b` and its free neighbours are one
block, the neighbours are unlinked, and payloads of allocated blocks are untouched. -/
theorem coalesce_spec {s : Heap} {fl : Nat → List Nat} {pre post : List Blk} {b : Blk}
    (h : Rep s (pre ++ b :: post) fl) (hal : b.al = 0) (hnl : ∀ c, b.bp ∉ fl c)
    (hq : ∀ q, lastFree pre = some q → q.bp ∈ fl (class_of q.sz))
    (hn : ∀ n, headFree post = some n → n.bp ∈ fl (class_of n.sz))
    (hsum : (cblk pre b post).sz < 4294967296) :
    ∃ m', coalesce s b.bp = ({ s with mem := m' }, (cblk pre b post).bp) ∧
      Rep { s with mem := m' } (cpre pre ++ cblk pre b post :: cpost post) (cfl fl pre post) ∧
      (∀ c, (cblk pre b post).bp ∉ cfl fl pre post c) ∧
      PayloadFrame 0 (pre ++ b :: post) s.mem m' ∧
      (lastFree pre = none → headFree post = none → m' = s.mem) := by
  obtain ⟨bp, sz, al⟩ := b
  simp only at hal hnl
  subst hal
  rcases Rep_prev_cases h with ⟨hp0, hpa⟩ | ⟨pre1, q, hpre, hqal, hp1, hpa⟩
  · rcases Rep_next_cases h with ⟨hn0, hna⟩ | ⟨n, post1, hpost, hnal, hn1, hna⟩
    · refine ⟨s.mem, ?_, ?_, ?_, ?_, fun _ _ => rfl⟩
      · simp only [cblk, hp0, hn0]
        rw [coalesce_c1 hpa hna]
      · simp only [cblk, cfl, unlist, hp0, hn0, cpre_none hp0, cpost_none hn0, Nat.add_zero]
        exact h
      · simp only [cblk, cfl, unlist, hp0, hn0]
        exact hnl
      · intro c _ _ _ a _ _
        rfl
    · subst hpost
      simp only [cblk, hp0, hn1, Nat.add_zero] at hsum
      obtain ⟨m', k1, k2, k3, k4⟩ := coalesce_next_spec h hnl hnal (hn n hn1) hpa hsum
      refine ⟨m', ?_, ?_, ?_, k4, fun _ h0 => ?_⟩
      · simp only [cblk, hp0, hn1]
        exact k1
      · simp only [cblk, cfl, unlist, hp0, hn1, cpre_none hp0, cpost_some hn1, Nat.add_zero]
        exact k2
      · simp only [cblk, cfl, unlist, hp0, hn1]
        exact k3
      · rw [hn1] at h0
        exact absurd h0 (by simp)
  · subst hpre
    rcases Rep_next_cases h with ⟨hn0, hna⟩ | ⟨n, post1, hpost, hnal, hn1, hna⟩
    · simp only [cblk, hp1, hn0, Nat.add_zero] at hsum
      obtain ⟨m', k1, k2, k3, k4⟩ := coalesce_prev_spec h hnl hqal (hq q hp1) hna hsum
      refine ⟨m', ?_, ?_, ?_, k4, fun h0 _ => ?_⟩
      · simp only [cblk, hp1, hn0]
        exact k1
      · simp only [cblk, cfl, unlist, hp1, hn0, cpre_some hp1, cpost_none hn0, Nat.add_zero]
        exact k2
      · simp only [cblk, cfl, unlist, hp1, hn0]
        exact k3
      · rw [hp1] at h0
        exact absurd h0 (by simp)
    · subst hpost
      simp only [cblk, hp1, hn1] at hsum
      obtain ⟨m', k1, k2, k3, k4⟩ :=
        coalesce_both_spec h hnl hqal (hq q hp1) hnal (hn n hn1) hsum
      refine ⟨m', ?_, ?_, ?_, k4, fun h0 _ => ?_⟩
      · simp only [cblk, hp1, hn1]
        exact k1
      · simp only [cblk, cfl, unlist, hp1, hn1, cpre_some hp1, cpost_some hn1]
        exact k2
      · simp only [cblk, cfl, unlist, hp1, hn1]
        exact k3
      · rw [hp1] at h0
        exact absurd h0 (by simp)

theorem runC_marked_facts :
    (0 < runC_marked.seg_start ∧ runC_marked.heap_listp = runC_marked.seg_start + 120 ∧
      runC_marked.mem_brk ≤ runC_marked.mem_max_addr ∧
      runC_marked.mem_max_addr ≤ U64 ∧
      GET4 runC_marked.mem (runC_marked.heap_listp - 4) = 9 ∧
      GET4 runC_marked.mem runC_marked.heap_listp = 9 ∧
      GET4 runC_marked.mem (runC_marked.mem_brk - 4) = 1) ∧
    Chain runC_marked.mem (runC_marked.heap_listp + 8) blocksC runC_marked.mem_brk ∧
    (∀ c < 15, 1 ≤ c → ListAt runC_marked.mem (runC_marked.seg_start + 8 * (c - 1)) (listsC c)) := by
  decide!

theorem runC_marked_rep : Rep runC_marked blocksC listsC := by
  obtain ⟨⟨h1, h2, h3, h4, h6, h7, h8⟩, hc, hl⟩ := runC_marked_facts
  refine ⟨h1, h2, h3, h4, h6, h7, hc, h8, fun c h1 h14 => hl c (by omega) h1, ?_, ?_⟩
  · intro c x hx
    unfold listsC at hx
    by_cases h1 : c = 1
    · subst h1
      refine ⟨24, ?_, by decide⟩
      simp only [if_true, List.mem_cons, List.mem_singleton, List.not_mem_nil, or_false] at hx
      rcases hx with rfl | rfl | rfl <;> simp [blocksC]
    · by_cases h7 : c = 7
      · subst h7
        refine ⟨528, ?_, by decide⟩
        simp at hx
        subst hx
        simp [blocksC]
      · simp [h1, h7] at hx
  · intro c
    unfold listsC
    by_cases h1 : c = 1
    · simp [h1]
    · by_cases h7 : c = 7
      · simp [h7]
      · simp [h1, h7]

theorem lastFree_cpre {pre : List Blk} (h : NoAdj pre) : lastFree (cpre pre) = none := by
  rcases eq_nil_or_snoc_blk pre with rfl | ⟨pre1, q, rfl⟩
  · rfl
  · by_cases hq : q.al = 0
    · have hl : lastFree (pre1 ++ [q]) = some q := by rw [lastFree_snoc, if_pos hq]
      rw [cpre_some hl]
      rcases eq_nil_or_snoc_blk pre1 with rfl | ⟨pre2, p, rfl⟩
      · rfl
      · rw [lastFree_snoc]
        have hc : List.Chain' (fun a b : Blk => ¬ (a.al = 0 ∧ b.al = 0))
            (pre2 ++ p :: q :: []) := by
          have e : pre2 ++ [p] ++ [q] = pre2 ++ p :: q :: [] := by simp
          rw [← e]; exact h
        have := (List.chain'_append_cons_cons.1 hc).2.1
        have hp : ¬ p.al = 0 := fun hp => this ⟨hp, hq⟩
        rw [if_neg hp]
    · have hl : lastFree (pre1 ++ [q]) = none := by rw [lastFree_snoc, if_neg hq]
      rw [cpre_none hl, hl]

theorem headFree_cpost {post : List Blk} (h : NoAdj post) : headFree (cpost post) = none := by
  cases post with
  | nil => rfl
  | cons n post1 =>
    by_cases hn : n.al = 0
    · have hl : headFree (n :: post1) = some n := by rw [headFree_cons, if_pos hn]
      rw [cpost_some hl]
      cases post1 with
      | nil => rfl
      | cons p post2 =>
        rw [headFree_cons]
        have := (List.chain'_cons.1 h).1
        have hp : ¬ p.al = 0 := fun hp => this ⟨hn, hp⟩
        rw [if_neg hp]
    · have hl : headFree (n :: post1) = none := by rw [headFree_cons, if_neg hn]
      rw [cpost_none hl, hl]

/-- The block pointer and the size of the coalesced block, expressed with the macros
that `coalesce` evaluates in the state before the call. -/
theorem cblk_macros {s : Heap} {fl : Nat → List Nat} {pre post : List Blk} {b : Blk}
    (h : Rep s (pre ++ b :: post) fl) :
    (cblk pre b post).bp =
      (if GET_ALLOC s.mem (FTRP s.mem (PREV_BLKP s.mem b.bp)) = 0 then PREV_BLKP s.mem b.bp
        else b.bp) ∧
    (cblk pre b post).sz = GET_SIZE s.mem (HDRP b.bp) +
      (if GET_ALLOC s.mem (FTRP s.mem (PREV_BLKP s.mem b.bp)) = 0
        then GET_SIZE s.mem (HDRP (PREV_BLKP s.mem b.bp)) else 0) +
      (if GET_ALLOC s.mem (HDRP (NEXT_BLKP s.mem b.bp)) = 0
        then GET_SIZE s.mem (HDRP (NEXT_BLKP s.mem b.bp)) else 0) := by
  obtain ⟨r1, r2, _, _, r5, _, r7⟩ := Rep_reads h
  rcases Rep_prev_cases h with ⟨hp0, hpa⟩ | ⟨pre1, q, hpre, hqal, hp1, hpa⟩
  · rcases Rep_next_cases h with ⟨hn0, hna⟩ | ⟨n, post1, hpost, hnal, hn1, hna⟩
    · simp only [cblk, hp0, hn0]
      rw [if_neg hpa, if_neg hpa, if_neg hna, r1]
      exact ⟨rfl, rfl⟩
    · obtain ⟨f1, f2, _⟩ := r7 n post1 hpost
      simp only [cblk, hp0, hn1]
      rw [if_neg hpa, if_neg hpa, if_pos hna, r1, r2, ← f1, f2]
      exact ⟨rfl, rfl⟩
  · obtain ⟨e1, _, e3, _⟩ := r5 pre1 q hpre
    rcases Rep_next_cases h with ⟨hn0, hna⟩ | ⟨n, post1, hpost, hnal, hn1, hna⟩
    · simp only [cblk, hp1, hn0]
      rw [if_pos hpa, if_pos hpa, if_neg hna, r1, e1, e3]
      exact ⟨rfl, rfl⟩
    · obtain ⟨f1, f2, _⟩ := r7 n post1 hpost
      simp only [cblk, hp1, hn1]
      rw [if_pos hpa, if_pos hpa, if_pos hna, r1, r2, ← f1, f2, e1, e3]
      exact ⟨rfl, rfl⟩

theorem mem_cfl {fl : Nat → List Nat} {pre post : List Blk} {c x : Nat}
    (h : x ∈ cfl fl pre post c) : x ∈ fl c :=
  mem_unlist (mem_unlist h)

/-- After `coalesce` the free successor of the block is in no list. -/
theorem next_not_mem_cfl {s : Heap} {fl : Nat → List Nat} {pre post : List Blk} {b n : Blk}
    (h : Rep s (pre ++ b :: post) fl) (hn : headFree post = some n) (c : Nat) :
    n.bp ∉ cfl fl pre post c := by
  have hnL : n ∈ pre ++ b :: post := by
    cases post with
    | nil => simp [headFree] at hn
    | cons p post1 =>
      rw [headFree_cons] at hn
      by_cases hp : p.al = 0
      · rw [if_pos hp] at hn
        have : p = n := Option.some.inj hn
        subst this
        simp
      · rw [if_neg hp] at hn
        exact absurd hn (by simp)
  intro hm
  unfold cfl at hm
  rw [hn] at hm
  have hm1 : n.bp ∈ unlist fl (lastFree pre) c := mem_unlist hm
  have hm2 : n.bp ∈ fl c := mem_unlist hm1
  have hc := (h.listed hnL hm2).2
  subst hc
  simp only [unlist, Function.update_same] at hm
  have hnd : (unlist fl (lastFree pre) (class_of n.sz)).Nodup := by
    cases hl : lastFree pre with
    | none => exact h.nodup _
    | some q =>
      simp only [unlist]
      by_cases hc : class_of n.sz = class_of q.sz
      · rw [hc, Function.update_same]
        exact (h.nodup _).erase _
      · rw [Function.update_noteq hc]
        exact h.nodup _
  exact (List.Nodup.not_mem_erase hnd) hm

/-- C20 (amended): in a well-formed heap (a state that represents the block sequence
`pre ++ b :: post` and the free lists `fl`, with no two adjacent free blocks inside `pre`
or inside `post`) where `b` is marked free and is in no list and each free physical
neighbour of `b` is in the list of its class, and where the size of `b` plus the sizes of
its free neighbours is below `2^32` (so that it fits the 4-byte header), `coalesce(b)`
returns a block `r` that is
`PREV_BLKP(b)` when the previous block is free and `b` otherwise; the header and the
footer of `r` both hold `PACK(size, 0)` where `size` is the size of `b` plus the sizes of
its free neighbours; the new state represents the same blocks with `b` and its free
neighbours replaced by `r` (so no other header or footer changed) and the lists `fl`
without the free neighbours (no list gained a node, `r` itself and the former free
successor are in no list); both physical neighbours of `r` are allocated; payloads of
allocated blocks are untouched; and when both neighbours of `b` are allocated the result
is `b` and the state is unchanged. -/
theorem coalesce_merges_free_neighbours {s : Heap} {fl : Nat → List Nat}
    {pre post : List Blk} {b : Blk}
    (h : Rep s (pre ++ b :: post) fl) (hal : b.al = 0) (hnl : ∀ c, b.bp ∉ fl c)
    (hq : ∀ q, lastFree pre = some q → q.bp ∈ fl (class_of q.sz))
    (hn : ∀ n, headFree post = some n → n.bp ∈ fl (class_of n.sz))
    (hpre : NoAdj pre) (hpost : NoAdj post)
    (hsum : (cblk pre b post).sz < 4294967296) :
    ∃ m' r size,
      coalesce s b.bp = ({ s with mem := m' }, r) ∧
      r = (if GET_ALLOC s.mem (FTRP s.mem (PREV_BLKP s.mem b.bp)) = 0
        then PREV_BLKP s.mem b.bp else b.bp) ∧
      size = GET_SIZE s.mem (HDRP b.bp) +
        (if GET_ALLOC s.mem (FTRP s.mem (PREV_BLKP s.mem b.bp)) = 0
          then GET_SIZE s.mem (HDRP (PREV_BLKP s.mem b.bp)) else 0) +
        (if GET_ALLOC s.mem (HDRP (NEXT_BLKP s.mem b.bp)) = 0
          then GET_SIZE s.mem (HDRP (NEXT_BLKP s.mem b.bp)) else 0) ∧
      GET4 m' (HDRP r) = PACK size 0 ∧ GET4 m' (FTRP m' r) = PACK size 0 ∧
      Rep { s with mem := m' } (cpre pre ++ ⟨r, size, 0⟩ :: cpost post) (cfl fl pre post) ∧
      (∀ c x, x ∈ cfl fl pre post c → x ∈ fl c) ∧
      (∀ c, r ∉ cfl fl pre post c) ∧
      (∀ q, lastFree pre = some q → ∀ c, q.bp ∉ cfl fl pre post c) ∧
      (∀ n, headFree post = some n → ∀ c, n.bp ∉ cfl fl pre post c) ∧
      GET_ALLOC m' (FTRP m' (PREV_BLKP m' r)) ≠ 0 ∧
      GET_ALLOC m' (HDRP (NEXT_BLKP m' r)) ≠ 0 ∧
      PayloadFrame 0 (pre ++ b :: post) s.mem m' ∧
      (GET_ALLOC s.mem (FTRP s.mem (PREV_BLKP s.mem b.bp)) ≠ 0 →
        GET_ALLOC s.mem (HDRP (NEXT_BLKP s.mem b.bp)) ≠ 0 → coalesce s b.bp = (s, b.bp)) := by
  obtain ⟨m', k1, k2, k3, k4, _⟩ := coalesce_spec h hal hnl hq hn hsum
  obtain ⟨g1, g2⟩ := cblk_macros h
  have hcb : cblk pre b post = ⟨(cblk pre b post).bp, (cblk pre b post).sz, 0⟩ := rfl
  rw [hcb] at k2
  have hbk := @Rep.blk _ _ _ k2 ⟨(cblk pre b post).bp, (cblk pre b post).sz, 0⟩ (by simp)
  simp only at hbk
  obtain ⟨_, _, _, b4, _, b6, b7, _, _⟩ := hbk
  have hpk : PACK (cblk pre b post).sz 0 = (cblk pre b post).sz + 0 :=
    PACK_eq _ _ b4 (by norm_num)
  have hgs : GET_SIZE m' ((cblk pre b post).bp - 4) = (cblk pre b post).sz :=
    GET_SIZE_of b6 b4 (by norm_num)
  refine ⟨m', (cblk pre b post).bp, (cblk pre b post).sz, k1, g1, g2, ?_, ?_, k2,
    fun c x hx => mem_cfl hx, k3, ?_, fun n hn1 c => next_not_mem_cfl h hn1 c, ?_, ?_, k4, ?_⟩
  · rw [HDRP_eq, hpk]; exact b6
  · rw [FTRP_eq, hgs, hpk]; exact b7
  · intro q hq1 c
    have : (cblk pre b post).bp = q.bp := by simp only [cblk, hq1]
    rw [← this]
    exact k3 c
  · rcases Rep_prev_cases k2 with ⟨_, hpa⟩ | ⟨pre1, q, _, _, hp1, _⟩
    · exact hpa
    · rw [lastFree_cpre hpre] at hp1
      exact absurd hp1 (by simp)
  · rcases Rep_next_cases k2 with ⟨_, hna⟩ | ⟨n, post1, _, _, hn1, _⟩
    · exact hna
    · rw [headFree_cpost hpost] at hn1
      exact absurd hn1 (by simp)
  · intro hpa hna
    exact coalesce_c1 hpa hna

theorem listsC_not_mem (c : Nat) : 65688 ∉ listsC c := by
  unfold listsC
  by_cases h1 : c = 1
  · simp [h1]
  · by_cases h7 : c = 7
    · simp [h7]
    · simp [h1, h7]

theorem runC_marked_reads :
    (if GET_ALLOC runC_marked.mem (FTRP runC_marked.mem (PREV_BLKP runC_marked.mem (⟨65688, 24, 0⟩ : Blk).bp)) = 0
      then PREV_BLKP runC_marked.mem (⟨65688, 24, 0⟩ : Blk).bp else (⟨65688, 24, 0⟩ : Blk).bp) = 65664 ∧
    GET_SIZE runC_marked.mem (HDRP (⟨65688, 24, 0⟩ : Blk).bp) +
      (if GET_ALLOC runC_marked.mem (FTRP runC_marked.mem (PREV_BLKP runC_marked.mem (⟨65688, 24, 0⟩ : Blk).bp)) = 0
        then GET_SIZE runC_marked.mem (HDRP (PREV_BLKP runC_marked.mem (⟨65688, 24, 0⟩ : Blk).bp)) else 0) +
      (if GET_ALLOC runC_marked.mem (HDRP (NEXT_BLKP runC_marked.mem (⟨65688, 24, 0⟩ : Blk).bp)) = 0
        then GET_SIZE runC_marked.mem (HDRP (NEXT_BLKP runC_marked.mem (⟨65688, 24, 0⟩ : Blk).bp)) else 0) = 72 := by
  decide!

theorem coalesce_merges_free_neighbours_witness :
    Rep runC_marked blocksC listsC ∧
    ∃ m', coalesce runC_marked 65688 = ({ runC_marked with mem := m' }, 65664) ∧
      GET4 m' (HDRP 65664) = PACK 72 0 ∧ GET4 m' (FTRP m' 65664) = PACK 72 0 ∧
      65664 ∉ listsC 7 := by
  refine ⟨runC_marked_rep, ?_⟩
  obtain ⟨m', r, size, k1, hr, hsize, h4, h5, _, h7, _⟩ :=
    @coalesce_merges_free_neighbours runC_marked listsC [⟨65664, 24, 0⟩] 
      [⟨65712, 24, 0⟩, ⟨65736, 24, 1⟩, ⟨65760, 24, 0⟩, ⟨65784, 24, 1⟩, ⟨65808, 528, 0⟩]
      ⟨65688, 24, 0⟩ runC_marked_rep rfl listsC_not_mem
      (by
        intro q hq
        have : q = ⟨65664, 24, 0⟩ := (Option.some.inj hq).symm
        subst this
        decide)
      (by
        intro n hn
        have : n = ⟨65712, 24, 0⟩ := (Option.some.inj hn).symm
        subst this
        decide)
      (by simp [NoAdj]) (by simp [NoAdj]) (by decide)
  have hr1 : r = 65664 := hr.trans runC_marked_reads.1
  have hs1 : size = 72 := hsize.trans runC_marked_reads.2
  subst hr1 hs1
  exact ⟨m', k1, h4, h5, by decide⟩

theorem runC_marked_sizes :
    class_of (GET_SIZE runC_marked.mem (HDRP 65712)) = 1 ∧
    class_of (GET_SIZE runC_marked.mem (HDRP 65688)) = 1 ∧
    runC_marked.seg_start + 112 ≤ 65688 := by
  decide!

theorem listsC_apart (d y : Nat) (h : y ∈ listsC d) : 65688 + 16 ≤ y ∨ y + 16 ≤ 65688 := by
  unfold listsC at h
  by_cases h1 : d = 1
  · simp only [h1, if_true, List.mem_cons, List.mem_singleton, List.not_mem_nil, or_false] at h
    rcases h with rfl | rfl | rfl <;> omega
  · by_cases h7 : d = 7
    · simp [h7] at h
      omega
    · simp [h1, h7] at h

/-- C18: in a well-linked index (`Index`), for a block `b` that lies above the head slots
and whose link words overlap the link words of no listed node (so `b` is in no list),
`flist_insert(b)` returns `b` and changes only memory; afterwards the index is well linked
with the list of `class_of(size(b))` equal to `b` followed by its previous contents in the
previous order and the 13 other lists unchanged; the head slot of that list points to
`b`, the predecessor link of `b` is nil, its successor link is the former head, and the
predecessor link of the former head (if any) is `b`. -/
theorem flist_insert_lifo {s : Heap} {fl : Nat → List Nat} {b : Nat}
    (hI : Index s.mem s.seg_start fl)
    (hb : s.seg_start + 112 ≤ b ∧ b < U64)
    (hno : ∀ d y, y ∈ fl d → b + 16 ≤ y ∨ y + 16 ≤ b) :
    ∃ m', flist_insert s b = ({ s with mem := m' }, b) ∧
      Index m' s.seg_start (Function.update fl (class_of (GET_SIZE s.mem (HDRP b)))
        (b :: fl (class_of (GET_SIZE s.mem (HDRP b))))) ∧
      (∀ d, d ≠ class_of (GET_SIZE s.mem (HDRP b)) →
        Function.update fl (class_of (GET_SIZE s.mem (HDRP b)))
          (b :: fl (class_of (GET_SIZE s.mem (HDRP b)))) d = fl d) ∧
      GET_FREE m' (s.seg_start + 8 * (class_of (GET_SIZE s.mem (HDRP b)) - 1)) = b ∧
      GET_FREE m' (PREV_FREE b) = 0 ∧
      GET_FREE m' (NEXT_FREE b) = (fl (class_of (GET_SIZE s.mem (HDRP b)))).headD 0 ∧
      (∀ x, (fl (class_of (GET_SIZE s.mem (HDRP b)))).head? = some x →
        GET_FREE m' (PREV_FREE x) = b) := by
  have hr := class_of_range (GET_SIZE s.mem (HDRP b))
  obtain ⟨m', h1, h2, _⟩ := flist_insert_index hI hr.1 hr.2 rfl hb hno
  have hl := h2.lists _ hr.1 hr.2
  rw [Function.update_same] at hl
  obtain ⟨l1, l2⟩ := hl
  simp only [Seg, List.headD] at l1 l2
  refine ⟨m', h1, h2, fun d hd => Function.update_noteq hd _ _, l1, l2.1, l2.2.1, ?_⟩
  intro x hx
  have hs := l2.2.2
  cases hfl : fl (class_of (GET_SIZE s.mem (HDRP b))) with
  | nil => rw [hfl] at hx; simp at hx
  | cons y ys =>
    rw [hfl] at hx hs
    simp only [List.head?_cons, Option.some.injEq] at hx
    subst hx
    simp only [Seg] at hs
    exact hs.1

theorem flist_insert_lifo_witness :
    Index runC_marked.mem runC_marked.seg_start listsC ∧
    ∃ m', flist_insert runC_marked 65688 = ({ runC_marked with mem := m' }, 65688) ∧
      Index m' runC_marked.seg_start
        (Function.update listsC 1 [65688, 65760, 65712, 65664]) ∧
      GET_FREE m' (PREV_FREE 65760) = 65688 := by
  refine ⟨runC_marked_rep.index, ?_⟩
  obtain ⟨m', h1, h2, _, _, _, _, h7⟩ :=
    @flist_insert_lifo runC_marked listsC 65688 runC_marked_rep.index
      ⟨runC_marked_sizes.2.2, by decide⟩ listsC_apart
  rw [runC_marked_sizes.2.1] at h2 h7
  exact ⟨m', h1, h2, h7 65760 rfl⟩

/-- C19: in a well-linked index (`Index`) in which the block `b` is a member of list `c`,
the list of `class_of(size(b))`, `splice_block(b)` returns `b` and changes only memory;
afterwards the index is well linked (all links mutually consistent) with list `c` equal
to the previous list with `b` deleted, the order of the other nodes kept, and the 13
other lists unchanged.  This covers the four cases of `splice_block`: `b` may be the only
node, the head with a successor, the tail, or an interior node. -/
theorem splice_block_removes_node {s : Heap} {fl : Nat → List Nat} {c b : Nat}
    (hI : Index s.mem s.seg_start fl) (hc1 : 1 ≤ c) (hc14 : c ≤ 14) (hb : b ∈ fl c)
    (hcl : class_of (GET_SIZE s.mem (HDRP b)) = c) :
    ∃ m', splice_block s b = ({ s with mem := m' }, b) ∧
      Index m' s.seg_start (Function.update fl c ((fl c).erase b)) ∧
      (∀ d, d ≠ c → Function.update fl c ((fl c).erase b) d = fl d) ∧
      b ∉ (fl c).erase b ∧
      (∀ x, x ≠ b → (x ∈ (fl c).erase b ↔ x ∈ fl c)) ∧
      List.Sublist ((fl c).erase b) (fl c) ∧
      ((fl c).erase b).length + 1 = (fl c).length ∧
      (∀ l1 l2, fl c = l1 ++ b :: l2 → (fl c).erase b = l1 ++ l2) := by
  obtain ⟨m', h1, h2, _⟩ := splice_block_index hI hc1 hc14 hb hcl
  have hnd := hI.nodup c
  refine ⟨m', h1, h2, fun d hd => Function.update_noteq hd _ _,
    List.Nodup.not_mem_erase hnd, ?_, List.erase_sublist _ _, ?_, ?_⟩
  · intro x hx
    exact List.mem_erase_of_ne hx
  · rw [List.length_erase_of_mem hb]
    have : 0 < (fl c).length := List.length_pos_of_mem hb
    omega
  · intro l1 l2 hl
    rw [hl] at hnd ⊢
    have hb1 : b ∉ l1 := fun hm =>
      (List.nodup_append.1 hnd).2.2 hm (List.mem_cons_self _ _)
    rw [List.erase_append_right _ hb1, List.erase_cons_head]

theorem splice_block_removes_node_witness :
    Index runC_marked.mem runC_marked.seg_start listsC ∧ 65712 ∈ listsC 1 ∧
    ∃ m', splice_block runC_marked 65712 = ({ runC_marked with mem := m' }, 65712) ∧
      Index m' runC_marked.seg_start (Function.update listsC 1 [65760, 65664]) := by
  refine ⟨runC_marked_rep.index, by decide, ?_⟩
  obtain ⟨m', h1, h2, _⟩ :=
    @splice_block_removes_node runC_marked listsC 1 65712 runC_marked_rep.index
      (by decide) (by decide) (by decide) runC_marked_sizes.1
  exact ⟨m', h1, h2⟩

theorem SameBounds.refl (s : Heap) : SameBounds s s := ⟨rfl, rfl, rfl, rfl⟩

theorem SameBounds.trans {a b c : Heap} (h1 : SameBounds a b) (h2 : SameBounds b c) :
    SameBounds a c :=
  ⟨h2.1.trans h1.1, h2.2.1.trans h1.2.1, h2.2.2.1.trans h1.2.2.1, h2.2.2.2.trans h1.2.2.2⟩

theorem SameBounds.mem (s : Heap) (m : Mem) : SameBounds s { s with mem := m } :=
  ⟨rfl, rfl, rfl, rfl⟩

theorem splice_block_bounds (s : Heap) (bp : Nat) : SameBounds s (splice_block s bp).1 := by
  rw [splice_block_mem]
  exact SameBounds.mem _ _

theorem flist_insert_bounds (s : Heap) (bp : Nat) : SameBounds s (flist_insert s bp).1 := by
  rw [flist_insert_mem]
  exact SameBounds.mem _ _

theorem coalesce_bounds (s : Heap) (bp : Nat) : SameBounds s (coalesce s bp).1 := by
  by_cases hp : GET_ALLOC s.mem (FTRP s.mem (PREV_BLKP s.mem bp)) = 0
  · by_cases hn : GET_ALLOC s.mem (HDRP (NEXT_BLKP s.mem bp)) = 0
    · rw [coalesce_c4 hp hn]
      exact (splice_block_bounds _ _).trans
        ((splice_block_bounds _ _).trans (SameBounds.mem _ _))
    · rw [coalesce_c3 hp hn]
      exact (splice_block_bounds _ _).trans (SameBounds.mem _ _)
  · by_cases hn : GET_ALLOC s.mem (HDRP (NEXT_BLKP s.mem bp)) = 0
    · rw [coalesce_c2 hp hn]
      exact (splice_block_bounds _ _).trans (SameBounds.mem _ _)
    · rw [coalesce_c1 hp hn]
      exact SameBounds.refl _

theorem place_bounds (s : Heap) (bp asize : Nat) : SameBounds s (place s bp asize) := by
  unfold place
  simp only
  split
  · exact (splice_block_bounds _ _).trans ((SameBounds.mem _ _).trans
      ((coalesce_bounds _ _).trans (flist_insert_bounds _ _)))
  · exact (splice_block_bounds _ _).trans (SameBounds.mem _ _)

/-- The break after `extend_heap` is the break after its one call of the backend. -/
theorem extend_heap_brk (s : Heap) (words : Nat) :
    (extend_heap s words).1.mem_brk =
      (mem_sbrk s (if words % 2 ≠ 0 then ((words + 1) * WSIZE) % U64
        else (words * WSIZE) % U64)).1.mem_brk := by
  unfold extend_heap
  simp only
  generalize (if words % 2 ≠ 0 then ((words + 1) * WSIZE) % U64
    else (words * WSIZE) % U64) = sz
  by_cases h : (mem_sbrk s sz).2 ≥ 9223372036854775808
  · rw [if_pos h]
  · rw [if_neg h]
    exact ((SameBounds.mem _ _).trans
      ((coalesce_bounds _ _).trans (flist_insert_bounds _ _))).1

/-- When the backend refuses, `extend_heap` returns `NULL` and the state is unchanged. -/
theorem extend_heap_refused (s : Heap) (words : Nat)
    (h : s.mem_brk + (if words % 2 ≠ 0 then ((words + 1) * WSIZE) % U64
        else (words * WSIZE) % U64) > s.mem_max_addr) : extend_heap s words = (s, 0) := by
  unfold extend_heap
  simp only
  revert h
  generalize (if words % 2 ≠ 0 then ((words + 1) * WSIZE) % U64
    else (words * WSIZE) % U64) = sz
  intro h
  have e : mem_sbrk s sz = (s, U64 - 1) := by
    unfold mem_sbrk
    rw [if_pos h]
  rw [e]
  simp

theorem malloc_asize_mod8 (n : Nat) : malloc_asize n % 8 = 0 := by
  unfold malloc_asize
  simp only [ALIGNMENT, OVERHEAD, ALLOC_OVERHEAD, H_SIZE, F_SIZE, FREE_PTR_SIZE, U64]
  split <;> omega

theorem malloc_asize_lt (n : Nat) : malloc_asize n < U64 := by
  unfold malloc_asize
  simp only [ALIGNMENT, OVERHEAD, ALLOC_OVERHEAD, H_SIZE, F_SIZE, FREE_PTR_SIZE, U64]
  split <;> omega

theorem MAX_eq_max (x y : Nat) : MAX x y = max x y := by
  unfold MAX
  split
  · rw [Nat.max_eq_left (by omega)]
  · rw [Nat.max_eq_right (by omega)]

theorem MAX_CHUNK (a : Nat) : MAX a CHUNKSIZE = max a 672 := MAX_eq_max a 672

theorem extendsize_facts (n : Nat) :
    MAX (malloc_asize n) CHUNKSIZE % 8 = 0 ∧ (MAX (malloc_asize n) CHUNKSIZE / WSIZE) % 2 = 0 ∧
    (MAX (malloc_asize n) CHUNKSIZE / WSIZE * WSIZE) % U64 = MAX (malloc_asize n) CHUNKSIZE ∧
    CHUNKSIZE ≤ MAX (malloc_asize n) CHUNKSIZE ∧ malloc_asize n ≤ MAX (malloc_asize n) CHUNKSIZE := by
  have h8 := malloc_asize_mod8 n
  have hlt := malloc_asize_lt n
  unfold MAX
  simp only [CHUNKSIZE, WSIZE, U64] at *
  split <;> omega

theorem malloc_hit {s : Heap} {n bp : Nat} (hn : 0 < n)
    (hf : find_fit s (malloc_asize n) = some bp) (hbp : bp ≠ 0) :
    malloc s n = some (place s bp (malloc_asize n), bp) := by
  unfold malloc
  rw [if_neg (by omega)]
  simp only [hf, if_pos hbp]

theorem malloc_miss {s : Heap} {n : Nat} (hn : 0 < n)
    (hf : find_fit s (malloc_asize n) = some 0) :
    malloc s n =
      (if (extend_heap s (MAX (malloc_asize n) CHUNKSIZE / WSIZE)).2 = 0
        then some ((extend_heap s (MAX (malloc_asize n) CHUNKSIZE / WSIZE)).1, 0)
        else some (place (extend_heap s (MAX (malloc_asize n) CHUNKSIZE / WSIZE)).1
          (extend_heap s (MAX (malloc_asize n) CHUNKSIZE / WSIZE)).2 (malloc_asize n),
          (extend_heap s (MAX (malloc_asize n) CHUNKSIZE / WSIZE)).2)) := by
  unfold malloc
  rw [if_neg (by omega)]
  simp only [hf, ne_eq, not_true_eq_false, if_false]

theorem extend_words_even (n : Nat) :
    (if (MAX (malloc_asize n) CHUNKSIZE / WSIZE) % 2 ≠ 0
      then ((MAX (malloc_asize n) CHUNKSIZE / WSIZE + 1) * WSIZE) % U64
      else (MAX (malloc_asize n) CHUNKSIZE / WSIZE * WSIZE) % U64) =
    MAX (malloc_asize n) CHUNKSIZE := by
  have h := extendsize_facts n
  rw [if_neg (by rw [h.2.1]; simp)]
  exact h.2.2.1

/-- C16: the adjusted size and the maximum of the adjusted size and 672 are multiples of
8, and that maximum divided by 4 is an even word count that multiplied by 4 gives the
maximum back; when `find_fit` returns a block, `malloc` returns it after `place` and the
break is unchanged (the backend is not called); when `find_fit` returns `NULL`, the break
after `malloc` is the break after one backend call for exactly `max(asize, 672)` bytes,
where `max` is the maximum of two numbers; and `extend_heap(w)` moves the break as one
backend call for `4 * w` bytes when `w` is even and for `4 * (w + 1)` bytes when `w` is
odd. -/
theorem malloc_growth_amount (s : Heap) (n w : Nat) :
    malloc_asize n % 8 = 0 ∧ max (malloc_asize n) 672 % 8 = 0 ∧
    (max (malloc_asize n) 672 / 4) % 2 = 0 ∧
    4 * (max (malloc_asize n) 672 / 4) = max (malloc_asize n) 672 ∧
    (∀ bp, 0 < n → find_fit s (malloc_asize n) = some bp → bp ≠ 0 →
      malloc s n = some (place s bp (malloc_asize n), bp) ∧
      (place s bp (malloc_asize n)).mem_brk = s.mem_brk) ∧
    (0 < n → find_fit s (malloc_asize n) = some 0 →
      (malloc s n).isSome = true ∧
      (post s (malloc s n)).mem_brk =
        (mem_sbrk s (max (malloc_asize n) 672)).1.mem_brk ∧
      ((post s (malloc s n)).mem_brk = s.mem_brk ∨
        (post s (malloc s n)).mem_brk = s.mem_brk + max (malloc_asize n) 672)) ∧
    (w % 2 = 0 → 4 * w < U64 →
      (extend_heap s w).1.mem_brk = (mem_sbrk s (4 * w)).1.mem_brk) ∧
    (w % 2 = 1 → 4 * (w + 1) < U64 →
      (extend_heap s w).1.mem_brk = (mem_sbrk s (4 * (w + 1))).1.mem_brk) := by
  have hf := extendsize_facts n
  have hmx := MAX_CHUNK (malloc_asize n)
  have h8 : max (malloc_asize n) 672 % 8 = 0 := by
    rw [← hmx]
    exact hf.1
  refine ⟨malloc_asize_mod8 n, h8, ?_, ?_, ?_, ?_, ?_, ?_⟩
  · clear * - h8
    omega
  · clear * - h8
    omega
  · intro bp hn hfit hbp
    exact ⟨malloc_hit hn hfit hbp, (place_bounds s bp _).1⟩
  · intro hn hfit
    rw [← hmx]
    have hb := extend_heap_brk s (MAX (malloc_asize n) CHUNKSIZE / WSIZE)
    rw [extend_words_even n] at hb
    have hm := malloc_miss hn hfit
    have key : (malloc s n).isSome = true ∧ (post s (malloc s n)).mem_brk =
        (mem_sbrk s (MAX (malloc_asize n) CHUNKSIZE)).1.mem_brk := by
      rw [hm]
      split
      · exact ⟨rfl, hb⟩
      · exact ⟨rfl, (place_bounds _ _ _).1.trans hb⟩
    refine ⟨key.1, key.2, ?_⟩
    rw [key.2]
    unfold mem_sbrk
    split
    · exact Or.inl rfl
    · exact Or.inr rfl
  · intro hw hlt
    rw [extend_heap_brk, if_neg (by rw [hw]; simp)]
    have : (w * WSIZE) % U64 = 4 * w := by
      simp only [WSIZE, U64] at *
      omega
    rw [this]
  · intro hw hlt
    rw [extend_heap_brk, if_pos (by rw [hw]; simp)]
    have : ((w + 1) * WSIZE) % U64 = 4 * (w + 1) := by
      simp only [WSIZE, U64] at *
      omega
    rw [this]

theorem heap0_miss_1000 :
    find_fit heap0 (malloc_asize 1000) = some 0 ∧ heap0.mem_brk = 66336 ∧
    MAX (malloc_asize 1000) CHUNKSIZE = 1008 ∧
    (mem_sbrk heap0 (MAX (malloc_asize 1000) CHUNKSIZE)).1.mem_brk = 67344 := by
  decide!

theorem heap_full_miss :
    ret (malloc heap0 664) = 65664 ∧ malloc_asize 16 = 24 ∧
    find_fit heap_full (malloc_asize 16) = some 0 ∧ heap_full.mem_brk = 66336 ∧
    (mem_sbrk heap_full (max (malloc_asize 16) 672)).1.mem_brk = 67008 := by
  decide!

theorem malloc_growth_amount_witness :
    find_fit heap0 (malloc_asize 1000) = some 0 ∧
    (malloc heap0 1000).isSome = true ∧
    (post heap0 (malloc heap0 1000)).mem_brk = 67344 ∧
    malloc_asize 16 = 24 ∧ find_fit heap_full (malloc_asize 16) = some 0 ∧
    (malloc heap_full 16).isSome = true ∧
    (post heap_full (malloc heap_full 16)).mem_brk = 67008 ∧ heap_full.mem_brk + 672 = 67008 ∧
    (extend_heap heap0 5).1.mem_brk = (mem_sbrk heap0 (4 * (5 + 1))).1.mem_brk :=
  ⟨heap0_miss_1000.1,
    ((malloc_growth_amount heap0 1000 5).2.2.2.2.2.1 (by decide) heap0_miss_1000.1).1,
    (((malloc_growth_amount heap0 1000 5).2.2.2.2.2.1 (by decide) heap0_miss_1000.1).2.1).trans
      ((MAX_CHUNK (malloc_asize 1000)) ▸ heap0_miss_1000.2.2.2),
    heap_full_miss.2.1, heap_full_miss.2.2.1,
    ((malloc_growth_amount heap_full 16 5).2.2.2.2.2.1 (by decide) heap_full_miss.2.2.1).1,
    (((malloc_growth_amount heap_full 16 5).2.2.2.2.2.1 (by decide) heap_full_miss.2.2.1).2.1).trans
      heap_full_miss.2.2.2.2,
    by rw [heap_full_miss.2.2.2.1],
    (malloc_growth_amount heap0 1000 5).2.2.2.2.2.2.2 (by decide) (by decide)⟩

/-- C12: in every state, (i) `malloc(0)` returns `NULL`; (ii) for `n > 0`, when `find_fit`
finds no block and the backend refuses the extension by `max(asize, 672)` bytes,
`malloc(n)` returns `NULL`; (iii) `realloc(p, n)` with `p` not `NULL` and `n > 0` returns
`NULL` whenever its inner `malloc(n)` returns `NULL`, in the state the inner `malloc`
left, which under the conditions of (ii) is the state before the call; (iv) `free(NULL)`
returns; and in each case the state after the call (memory, bounds and globals) is the
state before the call. -/
theorem failures_do_not_mutate (s : Heap) (p n : Nat) :
    malloc s 0 = some (s, 0) ∧
    (0 < n → find_fit s (malloc_asize n) = some 0 →
      s.mem_brk + MAX (malloc_asize n) CHUNKSIZE > s.mem_max_addr →
      malloc s n = some (s, 0)) ∧
    (p ≠ 0 → 0 < n → ∀ s1, malloc s n = some (s1, 0) → realloc s p n = some (s1, 0)) ∧
    (p ≠ 0 → 0 < n → find_fit s (malloc_asize n) = some 0 →
      s.mem_brk + MAX (malloc_asize n) CHUNKSIZE > s.mem_max_addr →
      realloc s p n = some (s, 0)) ∧
    free s 0 = s := by
  have h2 : 0 < n → find_fit s (malloc_asize n) = some 0 →
      s.mem_brk + MAX (malloc_asize n) CHUNKSIZE > s.mem_max_addr →
      malloc s n = some (s, 0) := by
    intro hn hfit hre
    have he : extend_heap s (MAX (malloc_asize n) CHUNKSIZE / WSIZE) = (s, 0) := by
      apply extend_heap_refused
      rw [extend_words_even n]
      exact hre
    rw [malloc_miss hn hfit, he]
    simp
  have h3 : p ≠ 0 → 0 < n → ∀ s1, malloc s n = some (s1, 0) →
      realloc s p n = some (s1, 0) := by
    intro hp hn s1 hm
    unfold realloc
    rw [if_neg (by omega), if_neg hp, hm]
    simp
  refine ⟨?_, h2, h3, fun hp hn hfit hre => h3 hp hn s (h2 hn hfit hre), ?_⟩
  · unfold malloc
    simp
  · unfold free
    simp

theorem heap_small_facts :
    (mm_init backend_small).2 = 0 ∧ ret (malloc (mm_init backend_small).1 16) = 65664 ∧
    find_fit heap_small (malloc_asize 1000) = some 0 ∧
    heap_small.mem_brk + MAX (malloc_asize 1000) CHUNKSIZE > heap_small.mem_max_addr := by
  decide!

theorem failures_do_not_mutate_witness :
    (mm_init backend_small).2 = 0 ∧ ret (malloc (mm_init backend_small).1 16) = 65664 ∧
    malloc heap_small 1000 = some (heap_small, 0) ∧
    realloc heap_small 65664 1000 = some (heap_small, 0) ∧
    malloc heap_small 0 = some (heap_small, 0) ∧ free heap_small 0 = heap_small :=
  ⟨heap_small_facts.1, heap_small_facts.2.1,
    (failures_do_not_mutate heap_small 65664 1000).2.1 (by decide) heap_small_facts.2.2.1
      heap_small_facts.2.2.2,
    (failures_do_not_mutate heap_small 65664 1000).2.2.2.1 (by decide) (by decide)
      heap_small_facts.2.2.1 heap_small_facts.2.2.2,
    (failures_do_not_mutate heap_small 65664 1000).1,
    (failures_do_not_mutate heap_small 65664 1000).2.2.2.2⟩

/-- C11 (failing input): on the fresh heap `calloc(1, SIZE_MAX)` has `k * n > 0` without
overflow of the product and the underlying `malloc(SIZE_MAX)` succeeds: it returns `65664`,
a block of 8 bytes whose header and footer hold `PACK(8, 1)`; the footer is the word at
`65664` itself, so the block has no payload byte.  `calloc` then calls
`memset(65664, 0, SIZE_MAX)`: the range to zero starts with the footer of the block and
does not lie inside the backend's mapping. -/
theorem calloc_overflow_memset_overruns :
    1 * (U64 - 1) < U64 ∧ 0 < 1 * (U64 - 1) ∧
    (malloc heap0 (1 * (U64 - 1) % U64)).isSome = true ∧
    ret (malloc heap0 (1 * (U64 - 1) % U64)) = 65664 ∧
    GET4 (after_malloc heap0 (1 * (U64 - 1) % U64)).mem (HDRP 65664) = PACK 8 1 ∧
    FTRP (after_malloc heap0 (1 * (U64 - 1) % U64)).mem 65664 = 65664 ∧
    GET4 (after_malloc heap0 (1 * (U64 - 1) % U64)).mem 65664 = PACK 8 1 ∧
    calloc_memset heap0 1 (U64 - 1) = some (65664, U64 - 1) ∧
    (after_malloc heap0 (1 * (U64 - 1) % U64)).mem_max_addr = 21037056 ∧
    ¬ in_mapping (after_malloc heap0 (1 * (U64 - 1) % U64)) 65664 (U64 - 1) := by
  decide!

/-- C15 (failing input): after `q = malloc(SIZE_MAX - 7)` (which is `65664`) and
`free(q)` no client block remains allocated, but the block at `65664` records the size
4032 although the region ends 672 bytes after it starts: it does not span exactly the
block region.  In scenario 2 (`a = malloc(24)`, `b = malloc(24)`, `free(a)`, `free(b)`)
the claim does hold: the one block at `65664` is free with size 672, ends at the
epilogue, and is the head and only node of list 7. -/
theorem free_all_after_overflow_one_block_too_long :
    (malloc heap0 (U64 - 8)).isSome = true ∧ ret (malloc heap0 (U64 - 8)) = 65664 ∧
    (free runB 65664).heap_listp + 8 = 65664 ∧ (free runB 65664).mem_brk = 66336 ∧
    GET4 (free runB 65664).mem (HDRP 65664) = PACK 4032 0 ∧
    (free runB 65664).mem_brk < NEXT_BLKP (free runB 65664).mem 65664 ∧
    ret (malloc heap0 24) = 65664 ∧ ret (malloc (after_malloc heap0 24) 24) = 65696 ∧
    GET4 scenario2.mem (HDRP 65664) = PACK 672 0 ∧
    GET4 scenario2.mem (FTRP scenario2.mem 65664) = PACK 672 0 ∧
    NEXT_BLKP scenario2.mem 65664 = scenario2.mem_brk ∧
    GET_FREE scenario2.mem (scenario2.seg_start + SEG7) = 65664 ∧
    GET_FREE scenario2.mem (NEXT_FREE 65664) = 0 := by
  decide!

/-- Writing an allocated header and footer for the first `asize` bytes of a block that is
in no list, and a free header and footer for the rest, splits the block in two. -/
theorem Rep_split {s : Heap} {fl : Nat → List Nat} {pre post : List Blk}
    {A c al0 asize : Nat} (h : Rep s (pre ++ [⟨A, c, al0⟩] ++ post) fl)
    (hnl : ∀ d, A ∉ fl d) (h8 : asize % 8 = 0) (h24 : 24 ≤ asize) (hrem : asize + 24 ≤ c) :
    Rep { s with mem := (PUT4 (PUT4 (PUT4 (PUT4 s.mem (A - 4) (PACK asize 1))
        (A + asize - 8) (PACK asize 1)) (A + asize - 4) (PACK (c - asize) 0))
        (A + asize + (c - asize) - 8) (PACK (c - asize) 0)) }
      (pre ++ [⟨A, asize, 1⟩, ⟨A + asize, c - asize, 0⟩] ++ post) fl ∧
    (∀ a, (a < A - 4 ∨ A + c - 4 ≤ a) →
      PUT4 (PUT4 (PUT4 (PUT4 s.mem (A - 4) (PACK asize 1))
        (A + asize - 8) (PACK asize 1)) (A + asize - 4) (PACK (c - asize) 0))
        (A + asize + (c - asize) - 8) (PACK (c - asize) 0) a = s.mem a) ∧
    (∀ a, A ≤ a → a < A + asize - 8 →
      PUT4 (PUT4 (PUT4 (PUT4 s.mem (A - 4) (PACK asize 1))
        (A + asize - 8) (PACK asize 1)) (A + asize - 4) (PACK (c - asize) 0))
        (A + asize + (c - asize) - 8) (PACK (c - asize) 0) a = s.mem a) := by
  obtain ⟨a0, b0, hpre, hmid, hpost⟩ := Chain_split3 h.chain
  have hm := hmid
  simp only [Chain] at hm
  obtain ⟨e1, _, c8, _, _, _, e2⟩ := hm
  subst e1
  subst e2
  have hbk := @Rep.blk _ _ _ h ⟨A, c, al0⟩ (by simp)
  simp only at hbk
  have hA : 128 ≤ A := by
    have k := hbk.1
    clear * - k
    omega
  have hlt : c < 4294967296 - 7 := hbk.2.2.2.2.2.2.2.2
  have hr8 : (c - asize) % 8 = 0 := by
    clear * - c8 h8 hrem
    omega
  have hl1 : asize + 1 < 4294967296 := by
    clear * - hlt hrem
    omega
  have hl2 : c - asize + 0 < 4294967296 := by
    clear * - hlt
    omega
  have hfr : ∀ a, (a < A - 4 ∨ A + c - 4 ≤ a) →
      PUT4 (PUT4 (PUT4 (PUT4 s.mem (A - 4) (PACK asize 1))
        (A + asize - 8) (PACK asize 1)) (A + asize - 4) (PACK (c - asize) 0))
        (A + asize + (c - asize) - 8) (PACK (c - asize) 0) a = s.mem a := by
    intro a ha
    have q1 : a < A + asize + (c - asize) - 8 ∨ A + asize + (c - asize) - 8 + 4 ≤ a := by
      clear * - ha hrem h24 hA
      omega
    have q2 : a < A + asize - 4 ∨ A + asize - 4 + 4 ≤ a := by
      clear * - ha hrem h24 hA
      omega
    have q3 : a < A + asize - 8 ∨ A + asize - 8 + 4 ≤ a := by
      clear * - ha hrem h24 hA
      omega
    have q4 : a < A - 4 ∨ A - 4 + 4 ≤ a := by
      clear * - ha hrem h24 hA
      omega
    rw [PUT4_apply_out q1, PUT4_apply_out q2, PUT4_apply_out q3, PUT4_apply_out q4]
  have hfr2 : ∀ a, A ≤ a → a < A + asize - 8 →
      PUT4 (PUT4 (PUT4 (PUT4 s.mem (A - 4) (PACK asize 1))
        (A + asize - 8) (PACK asize 1)) (A + asize - 4) (PACK (c - asize) 0))
        (A + asize + (c - asize) - 8) (PACK (c - asize) 0) a = s.mem a := by
    intro a ha1 ha2
    have q1 : a < A + asize + (c - asize) - 8 ∨ A + asize + (c - asize) - 8 + 4 ≤ a := by
      clear * - ha1 ha2 hrem h24 hA
      omega
    have q2 : a < A + asize - 4 ∨ A + asize - 4 + 4 ≤ a := by
      clear * - ha1 ha2 hrem h24 hA
      omega
    have q3 : a < A + asize - 8 ∨ A + asize - 8 + 4 ≤ a := by
      clear * - ha1 ha2 hrem h24 hA
      omega
    have q4 : a < A - 4 ∨ A - 4 + 4 ≤ a := by
      clear * - ha1 ha2 hrem h24 hA
      omega
    rw [PUT4_apply_out q1, PUT4_apply_out q2, PUT4_apply_out q3, PUT4_apply_out q4]
  refine ⟨Rep_replace h hpre hmid hpost ?_ hfr ?_, hfr, hfr2⟩
  · intro b hb d
    simp only [List.mem_singleton] at hb
    subst hb
    exact hnl d
  · simp only [Chain]
    have d1 : A + asize + (c - asize) - 8 + 4 ≤ A - 4 ∨ A - 4 + 4 ≤ A + asize + (c - asize) - 8 := by
      clear * - hrem h24 hA
      omega
    have d2 : A + asize - 4 + 4 ≤ A - 4 ∨ A - 4 + 4 ≤ A + asize - 4 := by
      clear * - hrem h24 hA
      omega
    have d3 : A + asize - 8 + 4 ≤ A - 4 ∨ A - 4 + 4 ≤ A + asize - 8 := by
      clear * - hrem h24 hA
      omega
    have d4 : A + asize + (c - asize) - 8 + 4 ≤ A + asize - 8 ∨
        A + asize - 8 + 4 ≤ A + asize + (c - asize) - 8 := by
      clear * - hrem h24 hA
      omega
    have d5 : A + asize - 4 + 4 ≤ A + asize - 8 ∨ A + asize - 8 + 4 ≤ A + asize - 4 := by
      clear * - hrem h24 hA
      omega
    have d6 : A + asize + (c - asize) - 8 + 4 ≤ A + asize - 4 ∨
        A + asize - 4 + 4 ≤ A + asize + (c - asize) - 8 := by
      clear * - hrem h24 hA
      omega
    have g1 : GET4 (PUT4 (PUT4 (PUT4 (PUT4 s.mem (A - 4) (PACK asize 1))
        (A + asize - 8) (PACK asize 1)) (A + asize - 4) (PACK (c - asize) 0))
        (A + asize + (c - asize) - 8) (PACK (c - asize) 0)) (A - 4) = asize + 1 := by
      rw [GET4_PUT4_disj d1, GET4_PUT4_disj d2, GET4_PUT4_disj d3,
        GET4_PUT4_PACK h8 (by norm_num) hl1]
    have g2 : GET4 (PUT4 (PUT4 (PUT4 (PUT4 s.mem (A - 4) (PACK asize 1))
        (A + asize - 8) (PACK asize 1)) (A + asize - 4) (PACK (c - asize) 0))
        (A + asize + (c - asize) - 8) (PACK (c - asize) 0)) (A + asize - 8) = asize + 1 := by
      rw [GET4_PUT4_disj d4, GET4_PUT4_disj d5, GET4_PUT4_PACK h8 (by norm_num) hl1]
    have g3 : GET4 (PUT4 (PUT4 (PUT4 (PUT4 s.mem (A - 4) (PACK asize 1))
        (A + asize - 8) (PACK asize 1)) (A + asize - 4) (PACK (c - asize) 0))
        (A + asize + (c - asize) - 8) (PACK (c - asize) 0)) (A + asize - 4) = c - asize + 0 := by
      rw [GET4_PUT4_disj d6, GET4_PUT4_PACK hr8 (by norm_num) hl2]
    have g4 : GET4 (PUT4 (PUT4 (PUT4 (PUT4 s.mem (A - 4) (PACK asize 1))
        (A + asize - 8) (PACK asize 1)) (A + asize - 4) (PACK (c - asize) 0))
        (A + asize + (c - asize) - 8) (PACK (c - asize) 0)) (A + asize + (c - asize) - 8) =
        c - asize + 0 := by
      rw [GET4_PUT4_PACK hr8 (by norm_num) hl2]
    refine ⟨trivial, h24, h8, by norm_num, g1, g2, trivial, ?_, hr8, by norm_num, g3, g4, ?_⟩
    · clear * - hrem
      omega
    · clear * - hrem
      omega

/-- An address strictly inside a block of the chain is in no list. -/
theorem Rep.inside_not_listed {s : Heap} {L : List Blk} {fl : Nat → List Nat} (h : Rep s L fl)
    {b : Blk} (hb : b ∈ L) {x : Nat} (h1 : b.bp < x) (h2 : x < b.bp + b.sz) (d : Nat) :
    x ∉ fl d := by
  intro hx
  obtain ⟨sz, hm, _⟩ := h.sound d x hx
  rcases Chain_disjoint h.chain b hb _ hm with e | e | e
  · have := congrArg Blk.bp e
    simp only at this
    omega
  · simp only at e
    omega
  · simp only at e
    omega

/-- The split branch of `place`, with every intermediate value named. -/
theorem place_split_flat {s : Heap} {bp asize c rem f1 bp1 f2 : Nat} {m0 m2 m3 m4 : Mem}
    (hc : GET_SIZE s.mem (HDRP bp) = c)
    (hs1 : splice_block s bp = ({ s with mem := m0 }, bp))
    (hrem : (c + U64 - asize) % U64 = rem) (hge : rem ≥ OVERHEAD)
    (hf1 : FTRP (PUT4 m0 (HDRP bp) (PACK asize 1)) bp = f1)
    (hm2 : PUT4 (PUT4 m0 (HDRP bp) (PACK asize 1)) f1 (PACK asize 1) = m2)
    (hbp1 : NEXT_BLKP m2 bp = bp1)
    (hm3 : PUT4 m2 (HDRP bp1) (PACK rem 0) = m3)
    (hf2 : FTRP m3 bp1 = f2)
    (hm4 : PUT4 m3 f2 (PACK rem 0) = m4) :
    place s bp asize =
      (flist_insert (coalesce { s with mem := m4 } bp1).1 (coalesce { s with mem := m4 } bp1).2).1 := by
  subst hc hrem hf1 hm2 hbp1 hm3 hf2 hm4
  unfold place
  simp only [hs1]
  rw [if_pos hge]

/-- The branch of `place` that does not split, with every intermediate value named. -/
theorem place_whole_flat {s : Heap} {bp asize c f1 : Nat} {m0 : Mem}
    (hc : GET_SIZE s.mem (HDRP bp) = c)
    (hs1 : splice_block s bp = ({ s with mem := m0 }, bp))
    (hlt : ¬ (c + U64 - asize) % U64 ≥ OVERHEAD)
    (hf1 : FTRP (PUT4 m0 (HDRP bp) (PACK c 1)) bp = f1) :
    place s bp asize = { s with mem := PUT4 (PUT4 m0 (HDRP bp) (PACK c 1)) f1 (PACK c 1) } := by
  subst hc hf1
  unfold place
  simp only [hs1]
  rw [if_neg hlt]

theorem place_split_spec {s : Heap} {fl : Nat → List Nat} {pre post : List Blk}
    {bp c asize : Nat}
    (h : Rep s (pre ++ ⟨bp, c, 0⟩ :: post) fl) (hb : bp ∈ fl (class_of c))
    (h8 : asize % 8 = 0) (h24 : 24 ≤ asize) (hrem : asize + 24 ≤ c)
    (hnx : headFree post = none) :
    ∃ m', place s bp asize = { s with mem := m' } ∧
      Rep { s with mem := m' }
        (pre ++ [⟨bp, asize, 1⟩, ⟨bp + asize, c - asize, 0⟩] ++ post)
        (enlist (unlist fl (some ⟨bp, c, 0⟩)) ⟨bp + asize, c - asize, 0⟩) ∧
      PayloadFrame 0 (pre ++ ⟨bp, c, 0⟩ :: post) s.mem m' := by
  have hbL : (⟨bp, c, 0⟩ : Blk) ∈ pre ++ ⟨bp, c, 0⟩ :: post := by simp
  have hbk := h.blk hbL
  simp only at hbk
  obtain ⟨r1, _⟩ := Rep_reads h
  simp only at r1
  obtain ⟨m0, he, h1, hf0⟩ := Rep_splice h hb
  have hnl1 : ∀ d, bp ∉ unlist fl (some ⟨bp, c, 0⟩) d := fun d => h.not_mem_unlist hbL d
  have hclt : c < 4294967296 - 7 := hbk.2.2.2.2.2.2.2.2
  have hremv : (c + U64 - asize) % U64 = c - asize := by
    clear * - hrem hclt
    simp only [U64]
    omega
  have hge : c - asize ≥ OVERHEAD := by
    clear * - hrem
    simp only [OVERHEAD, H_SIZE, F_SIZE, FREE_PTR_SIZE]
    omega
  have hl1 : asize + 1 < 4294967296 := by
    clear * - hclt hrem
    omega
  have hr8 : (c - asize) % 8 = 0 := by
    have k := hbk.2.2.2.1
    clear * - k h8 hrem
    omega
  have hl2 : c - asize + 0 < 4294967296 := by
    clear * - hclt
    omega
  have hA : 128 ≤ bp := by
    have k := hbk.1
    clear * - k
    omega
  have hf1 : FTRP (PUT4 m0 (HDRP bp) (PACK asize 1)) bp = bp + asize - 8 := by
    simp only [FTRP_eq, HDRP_eq]
    rw [GET_SIZE_PUT4_PACK h8 (by norm_num) hl1]
  have hd1 : bp + asize - 8 + 4 ≤ bp - 4 ∨ bp - 4 + 4 ≤ bp + asize - 8 := by
    clear * - h24 hA
    omega
  have hbp1 : NEXT_BLKP (PUT4 (PUT4 m0 (HDRP bp) (PACK asize 1)) (bp + asize - 8)
      (PACK asize 1)) bp = bp + asize := by
    simp only [NEXT_BLKP_eq, HDRP_eq]
    rw [GET_SIZE_PUT4_disj hd1, GET_SIZE_PUT4_PACK h8 (by norm_num) hl1]
  have hf2 : FTRP (PUT4 (PUT4 (PUT4 m0 (HDRP bp) (PACK asize 1)) (bp + asize - 8)
      (PACK asize 1)) (HDRP (bp + asize)) (PACK (c - asize) 0)) (bp + asize) =
      bp + asize + (c - asize) - 8 := by
    simp only [FTRP_eq, HDRP_eq]
    rw [GET_SIZE_PUT4_PACK hr8 (by norm_num) hl2]
  have hplace := place_split_flat r1 he hremv hge hf1 rfl hbp1 rfl hf2 rfl
  have hL : pre ++ ⟨bp, c, 0⟩ :: post = pre ++ [⟨bp, c, 0⟩] ++ post := by simp
  have h1' := h1
  rw [hL] at h1'
  obtain ⟨h2, hfr4, _⟩ := Rep_split h1' hnl1 h8 h24 hrem
  have hL2 : pre ++ [⟨bp, asize, 1⟩, ⟨bp + asize, c - asize, 0⟩] ++ post =
      (pre ++ [⟨bp, asize, 1⟩]) ++ ⟨bp + asize, c - asize, 0⟩ :: post := by simp
  have h2' := h2
  rw [hL2] at h2'
  have hpa : GET_ALLOC (PUT4 (PUT4 (PUT4 (PUT4 m0 (bp - 4) (PACK asize 1))
        (bp + asize - 8) (PACK asize 1)) (bp + asize - 4) (PACK (c - asize) 0))
        (bp + asize + (c - asize) - 8) (PACK (c - asize) 0))
      (FTRP (PUT4 (PUT4 (PUT4 (PUT4 m0 (bp - 4) (PACK asize 1))
        (bp + asize - 8) (PACK asize 1)) (bp + asize - 4) (PACK (c - asize) 0))
        (bp + asize + (c - asize) - 8) (PACK (c - asize) 0))
        (PREV_BLKP (PUT4 (PUT4 (PUT4 (PUT4 m0 (bp - 4) (PACK asize 1))
        (bp + asize - 8) (PACK asize 1)) (bp + asize - 4) (PACK (c - asize) 0))
        (bp + asize + (c - asize) - 8) (PACK (c - asize) 0)) (bp + asize))) ≠ 0 := by
    rcases Rep_prev_cases h2' with ⟨_, hpa⟩ | ⟨pre1, q, _, _, hp1, _⟩
    · exact hpa
    · rw [lastFree_snoc] at hp1
      simp at hp1
  have hna : GET_ALLOC (PUT4 (PUT4 (PUT4 (PUT4 m0 (bp - 4) (PACK asize 1))
        (bp + asize - 8) (PACK asize 1)) (bp + asize - 4) (PACK (c - asize) 0))
        (bp + asize + (c - asize) - 8) (PACK (c - asize) 0))
      (HDRP (NEXT_BLKP (PUT4 (PUT4 (PUT4 (PUT4 m0 (bp - 4) (PACK asize 1))
        (bp + asize - 8) (PACK asize 1)) (bp + asize - 4) (PACK (c - asize) 0))
        (bp + asize + (c - asize) - 8) (PACK (c - asize) 0)) (bp + asize))) ≠ 0 := by
    rcases Rep_next_cases h2' with ⟨_, hna⟩ | ⟨n, post1, _, _, hn1, _⟩
    · exact hna
    · rw [hnx] at hn1
      exact absurd hn1 (by simp)
  have hco := @coalesce_c1 { s with mem := (PUT4 (PUT4 (PUT4 (PUT4 m0 (bp - 4) (PACK asize 1))
        (bp + asize - 8) (PACK asize 1)) (bp + asize - 4) (PACK (c - asize) 0))
        (bp + asize + (c - asize) - 8) (PACK (c - asize) 0)) } (bp + asize) hpa hna
  have hb2 : (⟨bp + asize, c - asize, 0⟩ : Blk) ∈
      pre ++ [⟨bp, asize, 1⟩, ⟨bp + asize, c - asize, 0⟩] ++ post := by simp
  have hnot : ∀ d, bp + asize ∉ unlist fl (some ⟨bp, c, 0⟩) d := by
    intro d
    refine h1.inside_not_listed hbL ?_ ?_ d
    · simp only
      clear * - h24
      omega
    · simp only
      clear * - hrem
      omega
  obtain ⟨m5, hins, h5, hf5⟩ := Rep_insert h2 hb2 hnot
  refine ⟨m5, ?_, h5, ?_⟩
  · rw [hplace]
    simp only [HDRP_eq] at hco ⊢
    rw [hco]
    simp only [hins]
  · intro x hx hal _ a ha1 ha2
    have hp := h.payload_free hx hal ha1 ha2
    have hx2 : x ∈ pre ++ [⟨bp, asize, 1⟩, ⟨bp + asize, c - asize, 0⟩] ++ post := by
      simp only [List.mem_append, List.mem_cons, List.mem_singleton, List.not_mem_nil,
        or_false] at hx ⊢
      rcases hx with hx | hx | hx
      · exact Or.inl (Or.inl hx)
      · subst hx
        simp at hal
      · exact Or.inr hx
    have hp2 := h2.payload_free hx2 hal ha1 ha2
    obtain ⟨a0, b0, cpre, cmid, cpost⟩ := Chain_split3 h1'.chain
    have hmid := cmid
    simp only [Chain] at hmid
    have hout := payload_outside_run cpre cpost (by
      intro b hb
      simp only [List.mem_singleton] at hb
      rw [hb]) (hL ▸ hx) hal ha1 ha2
    have hrange : a < bp - 4 ∨ bp + c - 4 ≤ a := by
      have k1 := hmid.1; have k2 := hmid.2.2.2.2.2.2
      clear * - hout k1 k2
      simp only at k1 k2
      omega
    rw [hf5 a hp2.1 hp2.2]
    exact (hfr4 a hrange).trans (hf0 a hp.1 hp.2)

theorem place_whole_spec {s : Heap} {fl : Nat → List Nat} {pre post : List Blk}
    {bp c asize : Nat}
    (h : Rep s (pre ++ ⟨bp, c, 0⟩ :: post) fl) (hb : bp ∈ fl (class_of c))
    (hle : asize ≤ c) (hrem : ¬ asize + 24 ≤ c) :
    ∃ m', place s bp asize = { s with mem := m' } ∧
      Rep { s with mem := m' } (pre ++ [⟨bp, c, 1⟩] ++ post) (unlist fl (some ⟨bp, c, 0⟩)) ∧
      PayloadFrame 0 (pre ++ ⟨bp, c, 0⟩ :: post) s.mem m' := by
  have hbL : (⟨bp, c, 0⟩ : Blk) ∈ pre ++ ⟨bp, c, 0⟩ :: post := by simp
  have hbk := h.blk hbL
  simp only at hbk
  obtain ⟨r1, _⟩ := Rep_reads h
  simp only at r1
  obtain ⟨m0, he, h1, hf0⟩ := Rep_splice h hb
  have hnl1 : ∀ d, bp ∉ unlist fl (some ⟨bp, c, 0⟩) d := fun d => h.not_mem_unlist hbL d
  have hclt : c < 4294967296 - 7 := hbk.2.2.2.2.2.2.2.2
  have hc8 : c % 8 = 0 := hbk.2.2.2.1
  have hlt : ¬ (c + U64 - asize) % U64 ≥ OVERHEAD := by
    clear * - hrem hle hclt
    simp only [U64, OVERHEAD, H_SIZE, F_SIZE, FREE_PTR_SIZE]
    omega
  have hl1 : c + 1 < 4294967296 := by
    clear * - hclt
    omega
  have hf1 : FTRP (PUT4 m0 (HDRP bp) (PACK c 1)) bp = bp + c - 8 := by
    simp only [FTRP_eq, HDRP_eq]
    rw [GET_SIZE_PUT4_PACK hc8 (by norm_num) hl1]
  have hplace := place_whole_flat r1 he hlt hf1
  have hL : pre ++ ⟨bp, c, 0⟩ :: post = pre ++ [⟨bp, c, 0⟩] ++ post := by simp
  have h1' := h1
  rw [hL] at h1'
  obtain ⟨A, B, c1, c2, c3⟩ := Chain_split3 h1'.chain
  have hc2 := c2
  simp only [Chain] at hc2
  have hA : A = bp := hc2.1.symm
  have hB : B = bp + c := by
    have k2 := hc2.2.2.2.2.2.2
    clear * - hA k2
    omega
  have hmerge := @Rep_merge _ _ (PUT4 (PUT4 m0 (A - 4) (PACK (B - A) 1)) (B - 8)
      (PACK (B - A) 1)) _ _ _ _ _ 1 h1' c1 c2 c3 (by
      intro b hb c
      simp only [List.mem_singleton] at hb
      subst hb
      exact hnl1 c) (by simp) (by norm_num) (by
      clear * - hA hB hl1
      omega) (Or.inl rfl)
  have hBA : B - A = c := by
    clear * - hA hB
    omega
  have hB8 : B - 8 = bp + c - 8 := by
    clear * - hB
    omega
  have hfrm := hmerge.2
  have hrep := hmerge.1
  rw [hBA, hB8, hA] at hrep
  refine ⟨PUT4 (PUT4 m0 (bp - 4) (PACK c 1)) (bp + c - 8) (PACK c 1), hplace, hrep, ?_⟩
  intro x hx hal _ a ha1 ha2
  have hp := h.payload_free hx hal ha1 ha2
  have hout := payload_outside_run c1 c3 (by
    intro b hb
    simp only [List.mem_singleton] at hb
    rw [hb]) (hL ▸ hx) hal ha1 ha2
  have e9 := hfrm a (outside_of_run hout)
  rw [hBA, hB8, hA] at e9
  rw [e9]
  exact hf0 a hp.1 hp.2

/-- The effect of `place` on a state that represents the block sequence: the placed
block is unlinked and becomes allocated, with a free, listed remainder when at least 24
bytes remain; payloads of allocated blocks are untouched. -/
theorem place_spec {s : Heap} {fl : Nat → List Nat} {pre post : List Blk}
    {bp c asize : Nat}
    (h : Rep s (pre ++ ⟨bp, c, 0⟩ :: post) fl) (hb : bp ∈ fl (class_of c))
    (h8 : asize % 8 = 0) (h24 : 24 ≤ asize) (hle : asize ≤ c)
    (hnx : headFree post = none) :
    ∃ m', place s bp asize = { s with mem := m' } ∧
      Rep { s with mem := m' } (pre ++ placedBlocks bp c asize ++ post)
        (placedLists fl bp c asize) ∧
      PayloadFrame 0 (pre ++ ⟨bp, c, 0⟩ :: post) s.mem m' := by
  by_cases hrem : asize + 24 ≤ c
  · obtain ⟨m', k1, k2, k3⟩ := place_split_spec h hb h8 h24 hrem hnx
    refine ⟨m', k1, ?_, k3⟩
    simp only [placedBlocks, placedLists, if_pos hrem]
    exact k2
  · obtain ⟨m', k1, k2, k3⟩ := place_whole_spec h hb hle hrem
    refine ⟨m', k1, ?_, k3⟩
    simp only [placedBlocks, placedLists, if_neg hrem]
    exact k2

theorem heap0_facts :
    (0 < heap0.seg_start ∧ heap0.heap_listp = heap0.seg_start + 120 ∧
      heap0.mem_brk ≤ heap0.mem_max_addr ∧
      heap0.mem_max_addr ≤ U64 ∧
      GET4 heap0.mem (heap0.heap_listp - 4) = 9 ∧
      GET4 heap0.mem heap0.heap_listp = 9 ∧
      GET4 heap0.mem (heap0.mem_brk - 4) = 1) ∧
    Chain heap0.mem (heap0.heap_listp + 8) [⟨65664, 672, 0⟩] heap0.mem_brk ∧
    (∀ c < 15, 1 ≤ c → ListAt heap0.mem (heap0.seg_start + 8 * (c - 1)) (lists0 c)) := by
  decide!

theorem heap0_rep : Rep heap0 [⟨65664, 672, 0⟩] lists0 := by
  obtain ⟨⟨h1, h2, h3, h4, h6, h7, h8⟩, hc, hl⟩ := heap0_facts
  refine ⟨h1, h2, h3, h4, h6, h7, hc, h8, fun c h1 h14 => hl c (by omega) h1, ?_, ?_⟩
  · intro c x hx
    unfold lists0 at hx
    by_cases h7 : c = 7
    · subst h7
      refine ⟨672, ?_, by decide⟩
      simp at hx
      subst hx
      simp
    · simp [h7] at hx
  · intro c
    unfold lists0
    by_cases h7 : c = 7
    · simp [h7]
    · simp [h7]

/-- The boundary tags of a block of the chain, as the macros read them. -/
theorem Rep.tags {s : Heap} {L : List Blk} {fl : Nat → List Nat} (h : Rep s L fl) {b : Blk}
    (hb : b ∈ L) :
    GET4 s.mem (HDRP b.bp) = PACK b.sz b.al ∧ GET4 s.mem (FTRP s.mem b.bp) = PACK b.sz b.al ∧
    GET_SIZE s.mem (HDRP b.bp) = b.sz ∧ GET_ALLOC s.mem (HDRP b.bp) = b.al ∧
    NEXT_BLKP s.mem b.bp = b.bp + b.sz := by
  obtain ⟨_, _, _, b4, b5, b6, b7, _, _⟩ := h.blk hb
  have hpk := PACK_eq b.sz b.al b4 b5
  have hgs : GET_SIZE s.mem (b.bp - 4) = b.sz := GET_SIZE_of b6 b4 b5
  have hga : GET_ALLOC s.mem (b.bp - 4) = b.al := GET_ALLOC_of b6 b4 b5
  simp only [HDRP_eq, FTRP_eq, NEXT_BLKP_eq]
  rw [hgs, hpk]
  exact ⟨b6, b7, rfl, hga, rfl⟩

theorem headFree_of_NoAdj {pre post : List Blk} {b : Blk} (h : NoAdj (pre ++ b :: post))
    (hal : b.al = 0) : headFree post = none := by
  have h2 : List.Chain' (fun a b : Blk => ¬ (a.al = 0 ∧ b.al = 0)) (b :: post) :=
    (List.chain'_append.1 h).2.1
  cases post with
  | nil => rfl
  | cons p post1 =>
    rw [headFree_cons]
    have := (List.chain'_cons.1 h2).1
    have hp : ¬ p.al = 0 := fun hp => this ⟨hal, hp⟩
    rw [if_neg hp]

/-- C21: in a well-formed heap (a state that represents the block sequence
`pre ++ b :: post` with no two adjacent free blocks, and the free lists `fl`), for a free
block `b` of size `c` that is in the list of its class and an `asize` that is a multiple
of 8 with `24 <= asize <= c`: after `place(b, asize)` the block `b` is in no list; if
`c - asize >= 24` then `b` is allocated with size exactly `asize`, the block right after
it is free with size exactly `c - asize` and is in the list of `class_of(c - asize)`;
otherwise `b` is allocated with size exactly `c` and no list gained a node.  Every block
that `place` writes has at least 24 bytes, and the allocated block is smaller than
`asize + 24`.  The other blocks and the payloads of allocated blocks are unchanged. -/
theorem place_splits_iff_remainder {s : Heap} {fl : Nat → List Nat} {pre post : List Blk}
    {bp c asize : Nat}
    (h : Rep s (pre ++ ⟨bp, c, 0⟩ :: post) fl) (hwf : NoAdj (pre ++ ⟨bp, c, 0⟩ :: post))
    (hb : bp ∈ fl (class_of c))
    (h8 : asize % 8 = 0) (h24 : 24 ≤ asize) (hle : asize ≤ c) :
    ∃ m', place s bp asize = { s with mem := m' } ∧
      Rep { s with mem := m' } (pre ++ placedBlocks bp c asize ++ post)
        (placedLists fl bp c asize) ∧
      (∀ d, bp ∉ placedLists fl bp c asize d) ∧
      (24 ≤ c - asize →
        GET4 m' (HDRP bp) = PACK asize 1 ∧ GET4 m' (FTRP m' bp) = PACK asize 1 ∧
        NEXT_BLKP m' bp = bp + asize ∧
        GET4 m' (HDRP (bp + asize)) = PACK (c - asize) 0 ∧
        GET4 m' (FTRP m' (bp + asize)) = PACK (c - asize) 0 ∧
        placedLists fl bp c asize (class_of (c - asize)) =
          (bp + asize) :: unlist fl (some ⟨bp, c, 0⟩) (class_of (c - asize))) ∧
      (c - asize < 24 →
        GET4 m' (HDRP bp) = PACK c 1 ∧ GET4 m' (FTRP m' bp) = PACK c 1 ∧
        placedLists fl bp c asize = unlist fl (some ⟨bp, c, 0⟩) ∧
        ∀ d x, x ∈ placedLists fl bp c asize d → x ∈ fl d) ∧
      (∀ x ∈ placedBlocks bp c asize, 24 ≤ x.sz) ∧
      GET_SIZE m' (HDRP bp) < asize + 24 ∧ GET_ALLOC m' (HDRP bp) = 1 ∧
      PayloadFrame 0 (pre ++ ⟨bp, c, 0⟩ :: post) s.mem m' := by
  have hnx := headFree_of_NoAdj hwf rfl
  have hbL : (⟨bp, c, 0⟩ : Blk) ∈ pre ++ ⟨bp, c, 0⟩ :: post := by simp
  obtain ⟨m', k1, k2, k3⟩ := place_spec h hb h8 h24 hle hnx
  have hnl : ∀ d, bp ∉ unlist fl (some ⟨bp, c, 0⟩) d := fun d => h.not_mem_unlist hbL d
  by_cases hrem : asize + 24 ≤ c
  · have e1 : placedBlocks bp c asize = [⟨bp, asize, 1⟩, ⟨bp + asize, c - asize, 0⟩] := by
      simp only [placedBlocks, if_pos hrem]
    have e2 : placedLists fl bp c asize =
        enlist (unlist fl (some ⟨bp, c, 0⟩)) ⟨bp + asize, c - asize, 0⟩ := by
      simp only [placedLists, if_pos hrem]
    rw [e1] at k2
    have t1 := @Rep.tags _ _ _ k2 ⟨bp, asize, 1⟩ (by simp)
    have t2 := @Rep.tags _ _ _ k2 ⟨bp + asize, c - asize, 0⟩ (by simp)
    simp only at t1 t2
    rw [← e1] at k2
    refine ⟨m', k1, k2, ?_, ?_, ?_, ?_, ?_, t1.2.2.2.1, k3⟩
    · intro d hd
      rw [e2] at hd
      simp only [enlist] at hd
      by_cases hdc : d = class_of (c - asize)
      · subst hdc
        rw [Function.update_same] at hd
        rcases List.mem_cons.1 hd with e | e
        · omega
        · exact hnl _ e
      · rw [Function.update_noteq hdc] at hd
        exact hnl _ hd
    · intro _
      refine ⟨t1.1, t1.2.1, t1.2.2.2.2, t2.1, t2.2.1, ?_⟩
      rw [e2]
      simp only [enlist, Function.update_same]
    · intro hlt
      omega
    · intro x hx
      rw [e1] at hx
      simp only [List.mem_cons, List.mem_singleton, List.not_mem_nil, or_false] at hx
      rcases hx with rfl | rfl
      · exact h24
      · simp only
        omega
    · rw [t1.2.2.1]
      omega
  · have e1 : placedBlocks bp c asize = [⟨bp, c, 1⟩] := by
      simp only [placedBlocks, if_neg hrem]
    have e2 : placedLists fl bp c asize = unlist fl (some ⟨bp, c, 0⟩) := by
      simp only [placedLists, if_neg hrem]
    rw [e1] at k2
    have t1 := @Rep.tags _ _ _ k2 ⟨bp, c, 1⟩ (by simp)
    simp only at t1
    rw [← e1] at k2
    refine ⟨m', k1, k2, ?_, ?_, ?_, ?_, ?_, t1.2.2.2.1, k3⟩
    · intro d
      rw [e2]
      exact hnl d
    · intro hge
      omega
    · intro _
      refine ⟨t1.1, t1.2.1, e2, ?_⟩
      intro d x hx
      rw [e2] at hx
      exact mem_unlist hx
    · intro x hx
      rw [e1] at hx
      simp only [List.mem_singleton] at hx
      subst hx
      simp only
      omega
    · rw [t1.2.2.1]
      omega

theorem lists0_mem : 65664 ∈ lists0 (class_of 672) := by decide

theorem place_splits_iff_remainder_witness :
    Rep heap0 [⟨65664, 672, 0⟩] lists0 ∧
    ∃ m', place heap0 65664 24 = { heap0 with mem := m' } ∧
      GET4 m' (HDRP 65664) = PACK 24 1 ∧ NEXT_BLKP m' 65664 = 65664 + 24 ∧
      GET4 m' (HDRP (65664 + 24)) = PACK (672 - 24) 0 := by
  refine ⟨heap0_rep, ?_⟩
  obtain ⟨m', k1, _, _, k4, _⟩ :=
    @place_splits_iff_remainder heap0 lists0 [] [] 65664 672 24 heap0_rep
      (by simp [NoAdj]) lists0_mem (by decide) (by decide) (by decide)
  obtain ⟨g1, _, g3, g4, _⟩ := k4 (by decide)
  exact ⟨m', k1, g1, g3, g4⟩

theorem find_loop_list (m : Mem) (asize : Nat) : ∀ (l : List Nat) (p fuel this bb : Nat)
    (bd : Int) (k : Nat), Seg m p l 0 → this = l.headD 0 → (∀ x ∈ l, x ≠ 0) →
    l.length < fuel →
    find_loop m asize fuel this bb bd k = some (find_list m asize l bb bd k) := by
  intro l
  induction l with
  | nil =>
    intro p fuel this bb bd k _ ht _ hf
    obtain ⟨f, rfl⟩ : ∃ f, fuel = f + 1 := ⟨fuel - 1, by simp at hf; omega⟩
    simp only [List.headD] at ht
    subst ht
    unfold find_loop find_list
    simp only [ne_eq, not_true_eq_false, if_false]
    split <;> rfl
  | cons x xs ih =>
    intro p fuel this bb bd k hs ht hnz hf
    obtain ⟨f, rfl⟩ : ∃ f, fuel = f + 1 := ⟨fuel - 1, by simp at hf; omega⟩
    simp only [List.headD] at ht
    subst ht
    have hx : this ≠ 0 := hnz this (List.mem_cons_self _ _)
    simp only [Seg] at hs
    obtain ⟨_, hnext, hseg⟩ := hs
    have hnz' : ∀ y ∈ xs, y ≠ 0 := fun y hy => hnz y (List.mem_cons_of_mem _ hy)
    have hf' : xs.length < f := by simp at hf; omega
    unfold find_loop find_list
    simp only [ne_eq, hx, not_false_eq_true, if_true]
    by_cases hk : k ≥ 9
    · simp only [if_pos hk]
    · simp only [if_neg hk]
      by_cases ha : asize ≤ GET_SIZE m (HDRP this)
      · simp only [if_pos ha]
        by_cases hc : ((GET_SIZE m (HDRP this) - asize : Nat) : Int) < bd ∨ bd = -1
        · simp only [if_pos hc]
          exact ih this f _ this _ (k + 1) hseg hnext hnz' hf'
        · simp only [if_neg hc]
          exact ih this f _ bb bd (k + 1) hseg hnext hnz' hf'
      · simp only [if_neg ha]
        exact ih this f _ bb bd k hseg hnext hnz' hf'

theorem find_list_seen (m : Mem) (asize : Nat) : ∀ (l : List Nat) (bb k : Nat), 1 ≤ k →
    asize ≤ GET_SIZE m (HDRP bb) →
    find_list m asize l bb ((GET_SIZE m (HDRP bb) - asize : Nat) : Int) k =
      best_of m bb ((l.filter (fun x => decide (asize ≤ GET_SIZE m (HDRP x)))).take (9 - k)) := by
  intro l
  induction l with
  | nil =>
    intro bb k _ _
    unfold find_list
    have : ¬ (((GET_SIZE m (HDRP bb) - asize : Nat) : Int) = -1) := by omega
    simp only [if_neg this, List.filter_nil, List.take_nil, best_of]
  | cons x xs ih =>
    intro bb k hk hbb
    unfold find_list
    by_cases hk9 : k ≥ 9
    · have : 9 - k = 0 := by omega
      simp only [if_pos hk9, this, List.take_zero, best_of]
    · simp only [if_neg hk9]
      by_cases ha : asize ≤ GET_SIZE m (HDRP x)
      · have hfil : (x :: xs).filter (fun x => decide (asize ≤ GET_SIZE m (HDRP x))) =
            x :: xs.filter (fun x => decide (asize ≤ GET_SIZE m (HDRP x))) := by
          simp [List.filter_cons, ha]
        have h9 : 9 - k = (9 - (k + 1)) + 1 := by omega
        rw [hfil, h9, List.take_succ_cons]
        simp only [if_pos ha, best_of]
        by_cases hlt : GET_SIZE m (HDRP x) < GET_SIZE m (HDRP bb)
        · have hc : ((GET_SIZE m (HDRP x) - asize : Nat) : Int) <
              ((GET_SIZE m (HDRP bb) - asize : Nat) : Int) ∨
              ((GET_SIZE m (HDRP bb) - asize : Nat) : Int) = -1 := by
            left; omega
          simp only [if_pos hc, if_pos hlt]
          exact ih x (k + 1) (by omega) ha
        · have hc : ¬ (((GET_SIZE m (HDRP x) - asize : Nat) : Int) <
              ((GET_SIZE m (HDRP bb) - asize : Nat) : Int) ∨
              ((GET_SIZE m (HDRP bb) - asize : Nat) : Int) = -1) := by
            omega
          simp only [if_neg hc, if_neg hlt]
          exact ih bb (k + 1) (by omega) hbb
      · have hfil : (x :: xs).filter (fun x => decide (asize ≤ GET_SIZE m (HDRP x))) =
            xs.filter (fun x => decide (asize ≤ GET_SIZE m (HDRP x))) := by
          simp [List.filter_cons, ha]
        rw [hfil]
        simp only [if_neg ha]
        exact ih bb k hk hbb

theorem find_list_start (m : Mem) (asize : Nat) : ∀ (l : List Nat) (bb : Nat),
    find_list m asize l bb (-1) 0 = spec_find m asize l := by
  intro l
  induction l with
  | nil =>
    intro bb
    simp [find_list, spec_find, window]
  | cons x xs ih =>
    intro bb
    unfold find_list
    have h0 : ¬ (0 ≥ 9) := by omega
    simp only [if_neg h0, or_true, if_true, zero_add]
    by_cases ha : asize ≤ GET_SIZE m (HDRP x)
    · have hfil : (x :: xs).filter (fun x => decide (asize ≤ GET_SIZE m (HDRP x))) =
          x :: xs.filter (fun x => decide (asize ≤ GET_SIZE m (HDRP x))) := by
        simp [List.filter_cons, ha]
      simp only [if_pos ha]
      rw [find_list_seen m asize xs x 1 (by omega) ha]
      simp only [spec_find, window, hfil]
      rfl
    · have hfil : (x :: xs).filter (fun x => decide (asize ≤ GET_SIZE m (HDRP x))) =
          xs.filter (fun x => decide (asize ≤ GET_SIZE m (HDRP x))) := by
        simp [List.filter_cons, ha]
      simp only [if_neg ha]
      rw [ih bb]
      simp only [spec_find, window, hfil]

theorem best_of_spec (m : Mem) : ∀ (ys : List Nat) (b : Nat),
    ∃ u v, b :: ys = u ++ best_of m b ys :: v ∧
      (∀ y ∈ u, GET_SIZE m (HDRP (best_of m b ys)) < GET_SIZE m (HDRP y)) ∧
      (∀ y ∈ v, GET_SIZE m (HDRP (best_of m b ys)) ≤ GET_SIZE m (HDRP y)) := by
  intro ys
  induction ys with
  | nil =>
    intro b
    exact ⟨[], [], rfl, by simp, by simp⟩
  | cons y ys ih =>
    intro b
    unfold best_of
    by_cases hlt : GET_SIZE m (HDRP y) < GET_SIZE m (HDRP b)
    · rw [if_pos hlt]
      obtain ⟨u, v, e, h1, h2⟩ := ih y
      refine ⟨b :: u, v, by rw [e]; rfl, ?_, h2⟩
      intro z hz
      rcases List.mem_cons.1 hz with rfl | hz
      · have hy : y ∈ u ++ best_of m y ys :: v := by rw [← e]; exact List.mem_cons_self _ _
        rcases List.mem_append.1 hy with hy | hy
        · have := h1 y hy
          omega
        · rcases List.mem_cons.1 hy with hy | hy
          · rw [← hy]; exact hlt
          · have := h2 y hy
            omega
      · exact h1 z hz
    · rw [if_neg hlt]
      obtain ⟨u, v, e, h1, h2⟩ := ih b
      cases u with
      | nil =>
        simp only [List.nil_append, List.cons.injEq] at e
        refine ⟨[], y :: v, ?_, by simp, ?_⟩
        · rw [← e.1, e.2]; rfl
        · intro z hz
          rcases List.mem_cons.1 hz with rfl | hz
          · rw [← e.1]; omega
          · exact h2 z hz
      | cons c u' =>
        simp only [List.cons_append, List.cons.injEq] at e
        obtain ⟨e1, e2⟩ := e
        subst e1
        refine ⟨b :: y :: u', v, by simp only [List.cons_append]; rw [← e2], ?_, h2⟩
        intro z hz
        have hb := h1 b (List.mem_cons_self _ _)
        rcases List.mem_cons.1 hz with rfl | hz
        · exact hb
        · rcases List.mem_cons.1 hz with rfl | hz
          · omega
          · exact h1 z (List.mem_cons_of_mem _ hz)

theorem window_sublist (m : Mem) (asize : Nat) (l : List Nat) :
    ∀ x ∈ window m asize l, x ∈ l ∧ asize ≤ GET_SIZE m (HDRP x) := by
  intro x hx
  have h1 := List.mem_of_mem_take hx
  have h2 := List.mem_filter.1 h1
  exact ⟨h2.1, by simpa using h2.2⟩

theorem window_nil_iff (m : Mem) (asize : Nat) (l : List Nat) :
    window m asize l = [] ↔ ∀ x ∈ l, GET_SIZE m (HDRP x) < asize := by
  unfold window
  constructor
  · intro h x hx
    by_contra hc
    have hm : x ∈ l.filter (fun x => decide (asize ≤ GET_SIZE m (HDRP x))) :=
      List.mem_filter.2 ⟨hx, by simp; omega⟩
    cases hf : l.filter (fun x => decide (asize ≤ GET_SIZE m (HDRP x))) with
    | nil => rw [hf] at hm; simp at hm
    | cons a as => rw [hf] at h; simp at h
  · intro h
    have : l.filter (fun x => decide (asize ≤ GET_SIZE m (HDRP x))) = [] := by
      rw [List.filter_eq_nil_iff]
      intro x hx
      have := h x hx
      simp
      omega
    rw [this]
    rfl

/-- What `spec_find` returns: `NULL` exactly when no node is adequate, otherwise the node
of the window of minimum size that is nearest to the head. -/
theorem spec_find_spec (m : Mem) (asize : Nat) (l : List Nat) (hnz : ∀ x ∈ l, x ≠ 0) :
    (spec_find m asize l = 0 ↔ ∀ x ∈ l, GET_SIZE m (HDRP x) < asize) ∧
    (spec_find m asize l ≠ 0 →
      ∃ u v, window m asize l = u ++ spec_find m asize l :: v ∧
        spec_find m asize l ∈ l ∧ asize ≤ GET_SIZE m (HDRP (spec_find m asize l)) ∧
        (∀ y ∈ u, GET_SIZE m (HDRP (spec_find m asize l)) < GET_SIZE m (HDRP y)) ∧
        (∀ y ∈ v, GET_SIZE m (HDRP (spec_find m asize l)) ≤ GET_SIZE m (HDRP y))) := by
  cases hw : window m asize l with
  | nil =>
    have e : spec_find m asize l = 0 := by simp only [spec_find, hw]
    rw [e]
    exact ⟨⟨fun _ => (window_nil_iff m asize l).1 hw, fun _ => rfl⟩, fun h => absurd rfl h⟩
  | cons x xs =>
    have e : spec_find m asize l = best_of m x xs := by simp only [spec_find, hw]
    obtain ⟨u, v, e1, h1, h2⟩ := best_of_spec m xs x
    have hmem : best_of m x xs ∈ window m asize l := by
      rw [hw, e1]; simp
    have hin := window_sublist m asize l _ hmem
    rw [e]
    refine ⟨⟨fun h0 => absurd h0 (hnz _ hin.1), fun hall => ?_⟩, fun _ =>
      ⟨u, v, e1, hin.1, hin.2, h1, h2⟩⟩
    have := hall _ hin.1
    omega

theorem find_eq_loop (s : Heap) (i asize : Nat) (h1 : 1 ≤ i) (h14 : i ≤ 14) :
    find s i asize = find_loop s.mem asize (s.mem_brk - s.seg_start + 1)
      (GET_FREE s.mem (s.seg_start + 8 * (i - 1)))
      (GET_FREE s.mem (s.seg_start + 8 * (i - 1))) (-1) 0 := by
  unfold find
  interval_cases i <;> rfl

theorem find_of_list {s : Heap} {i asize : Nat} {l : List Nat} (h1 : 1 ≤ i) (h14 : i ≤ 14)
    (hl : ListAt s.mem (s.seg_start + 8 * (i - 1)) l) (hnz : ∀ x ∈ l, x ≠ 0)
    (hlen : l.length ≤ s.mem_brk - s.seg_start) :
    find s i asize = some (spec_find s.mem asize l) := by
  rw [find_eq_loop s i asize h1 h14, hl.1,
    find_loop_list s.mem asize l 0 _ _ _ _ _ hl.2 rfl hnz (by omega), find_list_start]

/-- C22: for a class `i` in 1..14 whose list in memory is the well-linked list `l` of
non-NULL nodes (with at most as many nodes as the region has bytes, so that the search
ends within its bound), `find(i, asize)` returns `spec_find`: with `W` the first
`min(9, m)` nodes of `l` whose size is at least `asize` (`m` the number of such nodes in
`l`), the result is `NULL` iff no node of `l` is adequate, and otherwise it is the node of
`W` of minimum size, the one nearest the head when several attain the minimum (every node
before it in `W` is strictly larger, every node after it is at least as large).  The
result depends on `l` only through `W`, and `find` returns a pointer only: it has no
effect on the state. -/
theorem find_bounded_best_fit {s : Heap} {i asize : Nat} {l : List Nat}
    (h1 : 1 ≤ i) (h14 : i ≤ 14)
    (hl : ListAt s.mem (s.seg_start + 8 * (i - 1)) l) (hnz : ∀ x ∈ l, x ≠ 0)
    (hlen : l.length ≤ s.mem_brk - s.seg_start) :
    find s i asize = some (spec_find s.mem asize l) ∧
    (window s.mem asize l).length =
      min 9 (l.filter (fun x => decide (asize ≤ GET_SIZE s.mem (HDRP x)))).length ∧
    (spec_find s.mem asize l = 0 ↔ ∀ x ∈ l, GET_SIZE s.mem (HDRP x) < asize) ∧
    (spec_find s.mem asize l ≠ 0 →
      ∃ u v, window s.mem asize l = u ++ spec_find s.mem asize l :: v ∧
        spec_find s.mem asize l ∈ l ∧
        asize ≤ GET_SIZE s.mem (HDRP (spec_find s.mem asize l)) ∧
        (∀ y ∈ u, GET_SIZE s.mem (HDRP (spec_find s.mem asize l)) < GET_SIZE s.mem (HDRP y)) ∧
        (∀ y ∈ v, GET_SIZE s.mem (HDRP (spec_find s.mem asize l)) ≤ GET_SIZE s.mem (HDRP y))) ∧
    (∀ l2, window s.mem asize l2 = window s.mem asize l →
      spec_find s.mem asize l2 = spec_find s.mem asize l) := by
  have hs := spec_find_spec s.mem asize l hnz
  refine ⟨find_of_list h1 h14 hl hnz hlen, ?_, hs.1, hs.2, ?_⟩
  · unfold window
    rw [List.length_take]
  · intro l2 h
    simp only [spec_find, h]

theorem runC_marked_find :
    (listsC 1).length ≤ runC_marked.mem_brk - runC_marked.seg_start ∧
    spec_find runC_marked.mem 24 (listsC 1) = 65760 ∧
    spec_find runC_marked.mem 32 (listsC 1) = 0 := by
  decide!

theorem find_bounded_best_fit_witness :
    ListAt runC_marked.mem (runC_marked.seg_start + 8 * (1 - 1)) (listsC 1) ∧
    find runC_marked 1 24 = some 65760 ∧ find runC_marked 1 32 = some 0 :=
  ⟨runC_marked_rep.lists 1 (by decide) (by decide),
    runC_marked_find.2.1 ▸
      (@find_bounded_best_fit runC_marked 1 24 (listsC 1) (by decide) (by decide)
        (runC_marked_rep.lists 1 (by decide) (by decide)) (by decide) runC_marked_find.1).1,
    runC_marked_find.2.2 ▸
      (@find_bounded_best_fit runC_marked 1 32 (listsC 1) (by decide) (by decide)
        (runC_marked_rep.lists 1 (by decide) (by decide)) (by decide) runC_marked_find.1).1⟩

theorem nodup_length_le {l : List Nat} {a b : Nat} (hnd : l.Nodup)
    (h : ∀ x ∈ l, a ≤ x ∧ x < b) : l.length ≤ b - a := by
  have hsub : l.toFinset ⊆ Finset.Ico a b := by
    intro x hx
    rw [List.mem_toFinset] at hx
    rw [Finset.mem_Ico]
    exact h x hx
  have := Finset.card_le_card hsub
  rw [List.toFinset_card_of_nodup hnd, Nat.card_Ico] at this
  exact this

theorem Index.find {s : Heap} {fl : Nat → List Nat} (hI : Index s.mem s.seg_start fl)
    (hreg : ∀ c x, x ∈ fl c → x < s.mem_brk) {i : Nat} (h1 : 1 ≤ i) (h14 : i ≤ 14)
    (asize : Nat) : find s i asize = some (spec_find s.mem asize (fl i)) := by
  refine find_of_list h1 h14 (hI.lists i h1 h14) ?_ ?_
  · intro x hx
    have := (hI.above i x hx).1
    omega
  · have := nodup_length_le (hI.nodup i) (fun x hx =>
      (⟨by have := (hI.above i x hx).1; omega, hreg i x hx⟩ : s.seg_start ≤ x ∧ x < s.mem_brk))
    exact this

theorem find_fit_loop_hit {s : Heap} {fl : Nat → List Nat} (hI : Index s.mem s.seg_start fl)
    (hreg : ∀ c x, x ∈ fl c → x < s.mem_brk) (asize : Nat) :
    ∀ (n i : Nat), 1 ≤ i → i + n ≤ 15 →
      find_fit_loop s asize n i = some (first_hit s.mem asize fl n i) := by
  intro n
  induction n with
  | zero => intro i _ _; rfl
  | succ n ih =>
    intro i h1 h15
    unfold find_fit_loop first_hit
    rw [hI.find hreg h1 (by omega) asize]
    simp only
    by_cases h0 : spec_find s.mem asize (fl i) ≠ 0
    · rw [if_pos h0, if_pos h0]
    · rw [if_neg h0, if_neg h0]
      exact ih (i + 1) (by omega) (by omega)

theorem first_hit_spec (m : Mem) (asize : Nat) (fl : Nat → List Nat) :
    ∀ (n i : Nat),
      (first_hit m asize fl n i ≠ 0 →
        ∃ c, i ≤ c ∧ c < i + n ∧ spec_find m asize (fl c) = first_hit m asize fl n i ∧
          ∀ d, i ≤ d → d < c → spec_find m asize (fl d) = 0) ∧
      (first_hit m asize fl n i = 0 ↔ ∀ c, i ≤ c → c < i + n → spec_find m asize (fl c) = 0) := by
  intro n
  induction n with
  | zero =>
    intro i
    refine ⟨fun h => absurd rfl h, ⟨fun _ c h1 h2 => by omega, fun _ => rfl⟩⟩
  | succ n ih =>
    intro i
    unfold first_hit
    by_cases h0 : spec_find m asize (fl i) ≠ 0
    · rw [if_pos h0]
      refine ⟨fun _ => ⟨i, le_refl _, by omega, rfl, fun d h1 h2 => by omega⟩, ?_⟩
      constructor
      · intro h
        exact absurd h h0
      · intro h
        exact h i (le_refl _) (by omega)
    · rw [if_neg h0]
      have hz : spec_find m asize (fl i) = 0 := by
        by_contra h
        exact h0 h
      obtain ⟨ih1, ih2⟩ := ih (i + 1)
      constructor
      · intro hne
        obtain ⟨c, c1, c2, c3, c4⟩ := ih1 hne
        refine ⟨c, by omega, by omega, c3, ?_⟩
        intro d d1 d2
        by_cases hd : d = i
        · rw [hd]; exact hz
        · exact c4 d (by omega) d2
      · rw [ih2]
        constructor
        · intro h c c1 c2
          by_cases hc : c = i
          · rw [hc]; exact hz
          · exact h c (by omega) (by omega)
        · intro h c c1 c2
          exact h c (by omega) (by omega)

/-- In a well-linked index whose nodes lie inside the region `find_fit` returns the first
hit from the class of `asize` upward. -/
theorem Index.find_fit {s : Heap} {fl : Nat → List Nat} (hI : Index s.mem s.seg_start fl)
    (hreg : ∀ c x, x ∈ fl c → x < s.mem_brk) (asize : Nat) :
    find_fit s asize = some (spec_find_fit s.mem asize fl) := by
  rw [find_fit_cascade]
  have hr := class_of_range asize
  have e : NUM_SEGS + 1 - class_of asize = 15 - class_of asize := rfl
  rw [e]
  exact find_fit_loop_hit hI hreg asize _ _ hr.1 (by omega)

theorem Rep.in_region {s : Heap} {L : List Blk} {fl : Nat → List Nat} (h : Rep s L fl) :
    ∀ c x, x ∈ fl c → x < s.mem_brk := by
  intro c x hx
  obtain ⟨sz, hm, _⟩ := h.sound c x hx
  have := h.blk hm
  simp only at this
  omega

theorem Rep.listed_size {s : Heap} {L : List Blk} {fl : Nat → List Nat} (h : Rep s L fl)
    {c x : Nat} (hx : x ∈ fl c) :
    ∃ sz, (⟨x, sz, 0⟩ : Blk) ∈ L ∧ class_of sz = c ∧ GET_SIZE s.mem (HDRP x) = sz := by
  obtain ⟨sz, hm, hc⟩ := h.sound c x hx
  exact ⟨sz, hm, hc, (h.tags hm).2.2.1⟩

/-- Under index membership `find_fit` misses exactly when no free block of the heap has
at least `asize` bytes. -/
theorem Rep.find_fit_miss_iff {s : Heap} {L : List Blk} {fl : Nat → List Nat}
    (h : Rep s L fl) (hcomp : Complete L fl) (asize : Nat) :
    spec_find_fit s.mem asize fl = 0 ↔ ∀ b ∈ L, b.al = 0 → b.sz < asize := by
  have hr := class_of_range asize
  have hnz : ∀ c, ∀ x ∈ fl c, x ≠ 0 := by
    intro c x hx
    have := (h.index.above c x hx).1
    omega
  unfold spec_find_fit
  rw [(first_hit_spec s.mem asize fl _ _).2]
  constructor
  · intro hall b hb hal
    by_contra hge
    have hmem := hcomp b hb hal
    have hmono := class_of_mono (show asize ≤ b.sz by omega)
    have hr2 := class_of_range b.sz
    have h0 := hall (class_of b.sz) hmono (by omega)
    have := ((spec_find_spec s.mem asize _ (hnz _)).1.1 h0) b.bp hmem
    rw [(h.tags hb).2.2.1] at this
    omega
  · intro hall c _ _
    rw [(spec_find_spec s.mem asize _ (hnz c)).1]
    intro x hx
    obtain ⟨sz, hm, _, hs⟩ := h.listed_size hx
    rw [hs]
    exact hall _ hm rfl

/-- The facts about `find_fit` in a well-linked index: it returns, its result is the
first hit of `find` from the class of `asize` upward, and it misses exactly when no listed
block is large enough. -/
theorem find_fit_sound_lemma {s : Heap} {fl : Nat → List Nat}
    (hI : Index s.mem s.seg_start fl) (hreg : ∀ c x, x ∈ fl c → x < s.mem_brk)
    (asize : Nat) :
    find_fit s asize = some (spec_find_fit s.mem asize fl) ∧
    (spec_find_fit s.mem asize fl ≠ 0 →
      ∃ c, class_of asize ≤ c ∧ c ≤ 14 ∧
        find s c asize = some (spec_find_fit s.mem asize fl) ∧
        (∀ d, class_of asize ≤ d → d < c → find s d asize = some 0) ∧
        spec_find_fit s.mem asize fl ∈ fl c ∧
        asize ≤ GET_SIZE s.mem (HDRP (spec_find_fit s.mem asize fl))) ∧
    (spec_find_fit s.mem asize fl = 0 ↔
      ∀ c, class_of asize ≤ c → c ≤ 14 → ∀ x ∈ fl c, GET_SIZE s.mem (HDRP x) < asize) ∧
    (∀ L, Rep s L fl → Complete L fl →
      (spec_find_fit s.mem asize fl = 0 ↔ ∀ b ∈ L, b.al = 0 → b.sz < asize)) ∧
    (∀ n, 0 < n → malloc_asize n = asize → spec_find_fit s.mem asize fl ≠ 0 →
      malloc s n = some (place s (spec_find_fit s.mem asize fl) asize,
        spec_find_fit s.mem asize fl)) := by
  have hr := class_of_range asize
  have hnz : ∀ c, ∀ x ∈ fl c, x ≠ 0 := by
    intro c x hx
    have := (hI.above c x hx).1
    omega
  have hff := hI.find_fit hreg asize
  have hfh := first_hit_spec s.mem asize fl (15 - class_of asize) (class_of asize)
  refine ⟨hff, ?_, ?_, fun L hR hC => hR.find_fit_miss_iff hC asize, ?_⟩
  · intro hne
    obtain ⟨c, c1, c2, c3, c4⟩ := hfh.1 hne
    have hc14 : c ≤ 14 := by omega
    have hc1 : 1 ≤ c := by omega
    have hsp := (spec_find_spec s.mem asize (fl c) (hnz c)).2 (by
      rw [c3]; exact hne)
    obtain ⟨_, _, _, hin, hsz, _⟩ := hsp
    refine ⟨c, c1, hc14, ?_, ?_, ?_, ?_⟩
    · rw [hI.find hreg hc1 hc14, c3]
      rfl
    · intro d d1 d2
      rw [hI.find hreg (by omega) (by omega), c4 d d1 d2]
    · have e : spec_find_fit s.mem asize fl = spec_find s.mem asize (fl c) := c3.symm
      rw [e]; exact hin
    · have e : spec_find_fit s.mem asize fl = spec_find s.mem asize (fl c) := c3.symm
      rw [e]; exact hsz
  · unfold spec_find_fit
    rw [hfh.2]
    constructor
    · intro hall c c1 c14
      exact (spec_find_spec s.mem asize (fl c) (hnz c)).1.1 (hall c c1 (by omega))
    · intro hall c c1 c2
      exact (spec_find_spec s.mem asize (fl c) (hnz c)).1.2 (hall c c1 (by omega))
  · intro n hn hasz hne
    subst hasz
    exact malloc_hit hn hff hne

/-- C23: in a well-linked index whose nodes lie inside the region, `find_fit(asize)`
returns `spec_find_fit`: a non-NULL result is `find(c, asize)` for the smallest class `c`
from `class_of(asize)` to 14 for which `find(c, asize)` is non-NULL, and it is a node of
list `c` whose size is at least `asize`; the result is `NULL` iff no list of a class from
`class_of(asize)` to 14 has a node of size at least `asize`.  When in addition the state
represents a block sequence `L` in which every free block is in the list of its class
(index membership), the result is `NULL` iff no free block of the heap has size at least
`asize`; and `malloc` does not extend the region when `find_fit` hits: it places the
request in the block found. -/
theorem find_fit_sound_complete {s : Heap} {fl : Nat → List Nat}
    (hI : Index s.mem s.seg_start fl) (hreg : ∀ c x, x ∈ fl c → x < s.mem_brk)
    (asize : Nat) :
    find_fit s asize = some (spec_find_fit s.mem asize fl) ∧
    (spec_find_fit s.mem asize fl ≠ 0 →
      ∃ c, class_of asize ≤ c ∧ c ≤ 14 ∧
        find s c asize = some (spec_find_fit s.mem asize fl) ∧
        (∀ d, class_of asize ≤ d → d < c → find s d asize = some 0) ∧
        spec_find_fit s.mem asize fl ∈ fl c ∧
        asize ≤ GET_SIZE s.mem (HDRP (spec_find_fit s.mem asize fl))) ∧
    (spec_find_fit s.mem asize fl = 0 ↔
      ∀ c, class_of asize ≤ c → c ≤ 14 → ∀ x ∈ fl c, GET_SIZE s.mem (HDRP x) < asize) ∧
    (∀ L, Rep s L fl → Complete L fl →
      (spec_find_fit s.mem asize fl = 0 ↔ ∀ b ∈ L, b.al = 0 → b.sz < asize)) ∧
    (∀ n, 0 < n → malloc_asize n = asize → spec_find_fit s.mem asize fl ≠ 0 →
      malloc s n = some (place s (spec_find_fit s.mem asize fl) asize,
        spec_find_fit s.mem asize fl)) :=
  find_fit_sound_lemma hI hreg asize

theorem heap0_fit :
    spec_find_fit heap0.mem 24 lists0 = 65664 ∧ 65664 < heap0.mem_brk ∧
    spec_find_fit heap0.mem 680 lists0 = 0 := by
  decide!

theorem find_fit_sound_complete_witness :
    Index heap0.mem heap0.seg_start lists0 ∧ find_fit heap0 24 = some 65664 ∧
    find_fit heap0 680 = some 0 :=
  ⟨heap0_rep.index,
    heap0_fit.1 ▸ (find_fit_sound_complete heap0_rep.index heap0_rep.in_region 24).1,
    heap0_fit.2.2 ▸ (find_fit_sound_complete heap0_rep.index heap0_rep.in_region 680).1⟩

/-- C25 (failing input): on the fresh heap `malloc(SIZE_MAX - 7)` is served by a
`find_fit` hit (the block `65664`; the break stays at `66336`, the backend is not called).
Before the call the block sequence is one free block of size 672 that ends at the
epilogue; after `free(malloc(SIZE_MAX - 7))` the first block records the size 4032 and
the walk leaves the region: the sequence of (size, allocated bit) pairs is not the one
before the `malloc`. -/
theorem malloc_free_overflow_changes_tiling :
    find_fit heap0 (malloc_asize (U64 - 8)) = some 65664 ∧
    ret (malloc heap0 (U64 - 8)) = 65664 ∧
    heap0.mem_brk = 66336 ∧ runB.mem_brk = 66336 ∧ (free runB 65664).mem_brk = 66336 ∧
    GET4 heap0.mem (HDRP 65664) = PACK 672 0 ∧ NEXT_BLKP heap0.mem 65664 = heap0.mem_brk ∧
    GET4 (free runB 65664).mem (HDRP 65664) = PACK 4032 0 ∧
    (free runB 65664).mem_brk < NEXT_BLKP (free runB 65664).mem 65664 := by
  decide!

theorem lastFree_some {pre : List Blk} {q : Blk} (h : lastFree pre = some q) :
    ∃ pre1, pre = pre1 ++ [q] ∧ q.al = 0 := by
  rcases eq_nil_or_snoc_blk pre with rfl | ⟨pre1, z, rfl⟩
  · simp [lastFree] at h
  · rw [lastFree_snoc] at h
    by_cases hz : z.al = 0
    · rw [if_pos hz] at h
      have : z = q := Option.some.inj h
      subst this
      exact ⟨pre1, rfl, hz⟩
    · rw [if_neg hz] at h
      exact absurd h (by simp)

theorem headFree_some {post : List Blk} {n : Blk} (h : headFree post = some n) :
    ∃ post1, post = n :: post1 ∧ n.al = 0 := by
  cases post with
  | nil => simp [headFree] at h
  | cons z post1 =>
    rw [headFree_cons] at h
    by_cases hz : z.al = 0
    · rw [if_pos hz] at h
      have : z = n := Option.some.inj h
      subst this
      exact ⟨post1, rfl, hz⟩
    · rw [if_neg hz] at h
      exact absurd h (by simp)

theorem mem_cpre_of_alloc {pre : List Blk} {x : Blk} (hx : x ∈ pre) (hal : x.al ≠ 0) :
    x ∈ cpre pre := by
  cases hl : lastFree pre with
  | none => rw [cpre_none hl]; exact hx
  | some q =>
    obtain ⟨pre1, rfl, hq⟩ := lastFree_some hl
    rw [cpre_some hl]
    rcases List.mem_append.1 hx with h | h
    · exact h
    · simp only [List.mem_singleton] at h
      subst h
      exact absurd hq hal

theorem mem_cpost_of_alloc {post : List Blk} {x : Blk} (hx : x ∈ post) (hal : x.al ≠ 0) :
    x ∈ cpost post := by
  cases hl : headFree post with
  | none => rw [cpost_none hl]; exact hx
  | some n =>
    obtain ⟨post1, rfl, hn⟩ := headFree_some hl
    rw [cpost_some hl]
    rcases List.mem_cons.1 hx with h | h
    · subst h
      exact absurd hn hal
    · exact h

theorem mem_of_mem_cpre {pre : List Blk} {x : Blk} (hx : x ∈ cpre pre) : x ∈ pre := by
  cases hl : lastFree pre with
  | none => rw [cpre_none hl] at hx; exact hx
  | some q =>
    obtain ⟨pre1, rfl, _⟩ := lastFree_some hl
    rw [cpre_some hl] at hx
    exact List.mem_append_left _ hx

theorem mem_of_mem_cpost {post : List Blk} {x : Blk} (hx : x ∈ cpost post) : x ∈ post := by
  cases hl : headFree post with
  | none => rw [cpost_none hl] at hx; exact hx
  | some n =>
    obtain ⟨post1, rfl, _⟩ := headFree_some hl
    rw [cpost_some hl] at hx
    exact List.mem_cons_of_mem _ hx

/-- The branch of `free` for a pointer that is not `NULL`, with every intermediate value
named. -/
theorem free_flat {s : Heap} {p size f : Nat} {m2 : Mem} (hp : p ≠ 0)
    (hsize : GET_SIZE s.mem (HDRP p) = size)
    (hf : FTRP (PUT4 s.mem (HDRP p) (PACK size 0)) p = f)
    (hm2 : PUT4 (PUT4 s.mem (HDRP p) (PACK size 0)) f (PACK size 0) = m2) :
    free s p = (flist_insert (coalesce { s with mem := m2 } p).1
      (coalesce { s with mem := m2 } p).2).1 := by
  subst hsize hf hm2
  unfold free
  rw [if_neg hp]

/-- The effect of `free` on a state that represents the block sequence, for an allocated
block `p`: the block is marked free, merged with its free neighbours and put in front of
the list of its class; payloads of the other allocated blocks are untouched. -/
theorem free_spec {s : Heap} {fl : Nat → List Nat} {pre post : List Blk} {p sz : Nat}
    (h : Rep s (pre ++ ⟨p, sz, 1⟩ :: post) fl)
    (hcomp : Complete (pre ++ ⟨p, sz, 1⟩ :: post) fl)
    (hsum : (cblk pre ⟨p, sz, 0⟩ post).sz < 4294967296) :
    ∃ m', free s p = { s with mem := m' } ∧
      Rep { s with mem := m' } (cpre pre ++ cblk pre ⟨p, sz, 0⟩ post :: cpost post)
        (enlist (cfl fl pre post) (cblk pre ⟨p, sz, 0⟩ post)) ∧
      PayloadFrame p (pre ++ ⟨p, sz, 1⟩ :: post) s.mem m' := by
  have hbL : (⟨p, sz, 1⟩ : Blk) ∈ pre ++ ⟨p, sz, 1⟩ :: post := by simp
  have hbk := h.blk hbL
  simp only at hbk
  have hp0 : p ≠ 0 := by
    have k := hbk.1
    clear * - k
    omega
  obtain ⟨r1, _⟩ := Rep_reads h
  simp only at r1
  have hclt : sz < 4294967296 - 7 := hbk.2.2.2.2.2.2.2.2
  have hc8 : sz % 8 = 0 := hbk.2.2.2.1
  have hl1 : sz + 0 < 4294967296 := by
    clear * - hclt
    omega
  have hf1 : FTRP (PUT4 s.mem (HDRP p) (PACK sz 0)) p = p + sz - 8 := by
    simp only [FTRP_eq, HDRP_eq]
    rw [GET_SIZE_PUT4_PACK hc8 (by norm_num) hl1]
  have hfree := free_flat hp0 r1 hf1 rfl
  have hnl : ∀ c, p ∉ fl c := by
    intro c hc
    have := (h.listed hbL hc).1
    simp at this
  have hL : pre ++ ⟨p, sz, 1⟩ :: post = pre ++ [⟨p, sz, 1⟩] ++ post := by simp
  have h' := h
  rw [hL] at h'
  obtain ⟨A, B, c1, c2, c3⟩ := Chain_split3 h'.chain
  have hc2 := c2
  simp only [Chain] at hc2
  have hA : A = p := hc2.1.symm
  have hB : B = p + sz := by
    have k2 := hc2.2.2.2.2.2.2
    clear * - hA k2
    omega
  have hmerge := @Rep_merge _ _ (PUT4 (PUT4 s.mem (A - 4) (PACK (B - A) 0)) (B - 8)
      (PACK (B - A) 0)) _ _ _ _ _ 0 h' c1 c2 c3 (by
      intro b hb c
      simp only [List.mem_singleton] at hb
      subst hb
      exact hnl c) (by simp) (by norm_num) (by
      clear * - hA hB hl1
      omega) (Or.inl rfl)
  have hBA : B - A = sz := by
    clear * - hA hB
    omega
  have hB8 : B - 8 = p + sz - 8 := by
    clear * - hB
    omega
  have hfrm := hmerge.2
  have hrep := hmerge.1
  rw [hBA, hB8, hA] at hrep
  have hL2 : pre ++ [⟨p, sz, 0⟩] ++ post = pre ++ ⟨p, sz, 0⟩ :: post := by simp
  rw [hL2] at hrep
  have hq : ∀ q, lastFree pre = some q → q.bp ∈ fl (class_of q.sz) := by
    intro q hq
    obtain ⟨pre1, e, hal⟩ := lastFree_some hq
    exact hcomp q (by rw [e]; simp) hal
  have hn : ∀ n, headFree post = some n → n.bp ∈ fl (class_of n.sz) := by
    intro n hn
    obtain ⟨post1, e, hal⟩ := headFree_some hn
    exact hcomp n (by rw [e]; simp) hal
  obtain ⟨m3, k1, k2, k3, k4, _⟩ := @coalesce_spec _ _ _ _ ⟨p, sz, 0⟩ hrep rfl hnl hq hn hsum
  have hcb : (⟨(cblk pre ⟨p, sz, 0⟩ post).bp, (cblk pre ⟨p, sz, 0⟩ post).sz, 0⟩ : Blk) ∈
      cpre pre ++ cblk pre ⟨p, sz, 0⟩ post :: cpost post := by
    have : cblk pre ⟨p, sz, 0⟩ post =
        ⟨(cblk pre ⟨p, sz, 0⟩ post).bp, (cblk pre ⟨p, sz, 0⟩ post).sz, 0⟩ := rfl
    rw [← this]
    simp
  obtain ⟨m4, hins, h4, hf4⟩ := Rep_insert k2 hcb k3
  refine ⟨m4, ?_, h4, ?_⟩
  · rw [hfree]
    simp only [HDRP_eq] at k1 ⊢
    rw [k1]
    simp only [hins]
  · intro x hx hal hne a ha1 ha2
    have hxa : x.al ≠ 0 := by omega
    have hx3 : x ∈ cpre pre ++ cblk pre ⟨p, sz, 0⟩ post :: cpost post := by
      simp only [List.mem_append, List.mem_cons] at hx ⊢
      rcases hx with hx | hx | hx
      · exact Or.inl (mem_cpre_of_alloc hx hxa)
      · exact absurd (congrArg Blk.bp hx) hne
      · exact Or.inr (Or.inr (mem_cpost_of_alloc hx hxa))
    have hx2 : x ∈ pre ++ ⟨p, sz, 0⟩ :: post := by
      simp only [List.mem_append, List.mem_cons] at hx ⊢
      rcases hx with hx | hx | hx
      · exact Or.inl hx
      · exact absurd (congrArg Blk.bp hx) hne
      · exact Or.inr (Or.inr hx)
    have hp3 := k2.payload_free hx3 hal ha1 ha2
    have hx0 : x.bp ≠ 0 := by
      have k := (h.blk hx).1
      clear * - k
      omega
    have e3 := k4 x hx2 hal hx0 a ha1 ha2
    simp only at e3
    have hout := payload_outside_run c1 c3 (show ∀ b ∈ ([] : List Blk), b.al = 0 by simp)
      (by
        simp only [List.append_nil]
        simp only [List.mem_append, List.mem_cons] at hx ⊢
        rcases hx with hx | hx | hx
        · exact Or.inl hx
        · exact absurd (congrArg Blk.bp hx) hne
        · exact Or.inr hx) hal ha1 ha2
    have e9 := hfrm a (outside_of_run hout)
    rw [hBA, hB8, hA] at e9
    exact (hf4 a hp3.1 hp3.2).trans (e3.trans e9)

/-- Paving `size` new bytes at the break as one free block followed by a new epilogue
header extends the block sequence by that block. -/
theorem Rep_extend {s : Heap} {fl : Nat → List Nat} {L : List Blk} {size : Nat}
    (h : Rep s L fl) (h8 : size % 8 = 0) (h24 : 24 ≤ size)
    (hfit : s.mem_brk + size ≤ s.mem_max_addr) (hlt : size + 0 < 4294967296) :
    Rep { s with
        mem := (PUT4 (PUT4 (PUT4 s.mem (s.mem_brk - 4) (PACK size 0))
          (s.mem_brk + size - 8) (PACK size 0)) (s.mem_brk + size - 4) (PACK 0 1)),
        mem_brk := s.mem_brk + size }
      (L ++ [⟨s.mem_brk, size, 0⟩]) fl ∧
    (∀ a, a < s.mem_brk - 4 →
      PUT4 (PUT4 (PUT4 s.mem (s.mem_brk - 4) (PACK size 0))
          (s.mem_brk + size - 8) (PACK size 0)) (s.mem_brk + size - 4) (PACK 0 1) a =
        s.mem a) := by
  have hhl := h.hl
  have hfl := h.first_le
  have hsp := h.seg_pos
  have hfr : ∀ a, a < s.mem_brk - 4 →
      PUT4 (PUT4 (PUT4 s.mem (s.mem_brk - 4) (PACK size 0))
          (s.mem_brk + size - 8) (PACK size 0)) (s.mem_brk + size - 4) (PACK 0 1) a =
        s.mem a := by
    intro a ha
    rw [PUT4_apply_out (by omega), PUT4_apply_out (by omega), PUT4_apply_out (by omega)]
  refine ⟨⟨h.seg_pos, h.hl, hfit, h.max_u64, ?_, ?_, ?_, ?_, ?_, ?_, h.nodup⟩, hfr⟩
  · show GET4 _ (s.heap_listp - 4) = 9
    rw [← h.pro_h]
    apply GET4_congr
    intro a _ _
    apply hfr; omega
  · show GET4 _ s.heap_listp = 9
    rw [← h.pro_f]
    apply GET4_congr
    intro a _ _
    apply hfr; omega
  · show Chain _ (s.heap_listp + 8) (L ++ [⟨s.mem_brk, size, 0⟩]) (s.mem_brk + size)
    apply Chain_append.2
    refine ⟨s.mem_brk, ?_, ?_⟩
    · apply Chain_frame _ (by omega) h.chain
      intro a _ ha
      exact hfr a ha
    · simp only [Chain]
      refine ⟨trivial, h24, h8, by norm_num, ?_, ?_, trivial⟩
      · rw [GET4_PUT4_disj (by omega), GET4_PUT4_disj (by omega),
          GET4_PUT4_PACK h8 (by norm_num) hlt]
      · rw [GET4_PUT4_disj (by omega), GET4_PUT4_PACK h8 (by norm_num) hlt]
  · show GET4 _ (s.mem_brk + size - 4) = 1
    rw [GET4_PUT4_PACK (by norm_num) (by norm_num) (by norm_num)]
  · intro c hc1 hc14
    apply ListAt_frame (h.lists c hc1 hc14)
    · intro a _ _
      apply hfr; omega
    · intro x hx a _ _
      obtain ⟨sz, hb, _⟩ := h.sound c x hx
      have := h.blk hb
      simp only at this
      apply hfr; omega
  · intro c x hx
    obtain ⟨sz, hb, hc⟩ := h.sound c x hx
    exact ⟨sz, List.mem_append_left _ hb, hc⟩

theorem cblk_sz_ge (pre : List Blk) (b : Blk) (post : List Blk) :
    b.sz ≤ (cblk pre b post).sz := by
  unfold cblk
  simp only
  omega

/-- The success branch of `extend_heap`, with every intermediate value named. -/
theorem extend_heap_flat {s : Heap} {words size f e : Nat} {m2 : Mem}
    (hsz : (if words % 2 ≠ 0 then ((words + 1) * WSIZE) % U64 else (words * WSIZE) % U64) = size)
    (hok : s.mem_brk + size ≤ s.mem_max_addr) (hlow : s.mem_brk < 9223372036854775808)
    (hf : FTRP (PUT4 s.mem (HDRP s.mem_brk) (PACK size 0)) s.mem_brk = f)
    (hm2 : PUT4 (PUT4 s.mem (HDRP s.mem_brk) (PACK size 0)) f (PACK size 0) = m2)
    (hh : HDRP (NEXT_BLKP m2 s.mem_brk) = e) :
    extend_heap s words =
      flist_insert
        (coalesce { s with mem := PUT4 m2 e (PACK 0 1), mem_brk := s.mem_brk + size }
          s.mem_brk).1
        (coalesce { s with mem := PUT4 m2 e (PACK 0 1), mem_brk := s.mem_brk + size }
          s.mem_brk).2 := by
  subst hf hm2 hh
  have e1 : mem_sbrk s size = ({ s with mem_brk := s.mem_brk + size }, s.mem_brk) := by
    unfold mem_sbrk
    rw [if_neg (by omega)]
  unfold extend_heap
  simp only [hsz, e1]
  rw [if_neg (by omega)]

/-- The effect of `extend_heap` when the backend grants the request, on a state that
represents the block sequence: the new bytes become one free block, merged with the last
block when that one is free, and put in front of the list of its class. -/
theorem extend_heap_spec {s : Heap} {fl : Nat → List Nat} {L : List Blk} {words size : Nat}
    (h : Rep s L fl) (hcomp : Complete L fl)
    (hsz : (if words % 2 ≠ 0 then ((words + 1) * WSIZE) % U64 else (words * WSIZE) % U64) = size)
    (h8 : size % 8 = 0) (h24 : 24 ≤ size) (hok : s.mem_brk + size ≤ s.mem_max_addr)
    (hlow : s.mem_brk < 9223372036854775808)
    (hsum : (cblk L ⟨s.mem_brk, size, 0⟩ []).sz < 4294967296) :
    ∃ m', extend_heap s words =
        ({ s with mem := m', mem_brk := s.mem_brk + size },
          (cblk L ⟨s.mem_brk, size, 0⟩ []).bp) ∧
      Rep { s with mem := m', mem_brk := s.mem_brk + size }
        (cpre L ++ [cblk L ⟨s.mem_brk, size, 0⟩ []])
        (enlist (cfl fl L []) (cblk L ⟨s.mem_brk, size, 0⟩ [])) ∧
      PayloadFrame 0 L s.mem m' := by
  have hfl := h.first_le
  have hhl := h.hl
  have hlt : size + 0 < 4294967296 := by
    have k := cblk_sz_ge L ⟨s.mem_brk, size, 0⟩ []
    simp only at k
    clear * - k hsum
    omega
  have hb4 : 4 ≤ s.mem_brk := by
    clear * - hfl hhl
    omega
  have hf : FTRP (PUT4 s.mem (HDRP s.mem_brk) (PACK size 0)) s.mem_brk =
      s.mem_brk + size - 8 := by
    simp only [FTRP_eq, HDRP_eq]
    rw [GET_SIZE_PUT4_PACK h8 (by norm_num) hlt]
  have hd : s.mem_brk + size - 8 + 4 ≤ s.mem_brk - 4 ∨
      s.mem_brk - 4 + 4 ≤ s.mem_brk + size - 8 := by
    clear * - h24 hb4
    omega
  have hh : HDRP (NEXT_BLKP (PUT4 (PUT4 s.mem (HDRP s.mem_brk) (PACK size 0))
      (s.mem_brk + size - 8) (PACK size 0)) s.mem_brk) = s.mem_brk + size - 4 := by
    simp only [NEXT_BLKP_eq, HDRP_eq]
    rw [GET_SIZE_PUT4_disj hd, GET_SIZE_PUT4_PACK h8 (by norm_num) hlt]
  have hext := extend_heap_flat hsz hok hlow hf rfl hh
  obtain ⟨h1, hfr⟩ := Rep_extend h h8 h24 hok hlt
  have hnl : ∀ c, s.mem_brk ∉ fl c := by
    intro c hc
    have := h.in_region c _ hc
    omega
  have hq : ∀ q, lastFree L = some q → q.bp ∈ fl (class_of q.sz) := by
    intro q hq
    obtain ⟨pre1, e, hal⟩ := lastFree_some hq
    exact hcomp q (by rw [e]; simp) hal
  have hn : ∀ n, headFree ([] : List Blk) = some n → n.bp ∈ fl (class_of n.sz) := by
    intro n hn
    simp [headFree] at hn
  obtain ⟨m4, k1, k2, k3, k4, _⟩ :=
    @coalesce_spec _ _ L [] ⟨s.mem_brk, size, 0⟩ h1 rfl hnl hq hn hsum
  have hcp : cpost ([] : List Blk) = [] := rfl
  rw [hcp] at k2
  have hcb : (⟨(cblk L ⟨s.mem_brk, size, 0⟩ []).bp, (cblk L ⟨s.mem_brk, size, 0⟩ []).sz, 0⟩ :
      Blk) ∈ cpre L ++ [cblk L ⟨s.mem_brk, size, 0⟩ []] := by
    have : cblk L ⟨s.mem_brk, size, 0⟩ [] =
        ⟨(cblk L ⟨s.mem_brk, size, 0⟩ []).bp, (cblk L ⟨s.mem_brk, size, 0⟩ []).sz, 0⟩ := rfl
    rw [← this]
    simp
  obtain ⟨m5, hins, h5, hf5⟩ := Rep_insert k2 hcb k3
  refine ⟨m5, ?_, h5, ?_⟩
  · rw [hext]
    simp only [HDRP_eq] at k1 ⊢
    rw [k1]
    simp only [hins]
  · intro x hx hal _ a ha1 ha2
    have hxa : x.al ≠ 0 := by omega
    have hx3 : x ∈ cpre L ++ [cblk L ⟨s.mem_brk, size, 0⟩ []] :=
      List.mem_append_left _ (mem_cpre_of_alloc hx hxa)
    have hp3 := k2.payload_free hx3 hal ha1 ha2
    have hxb := h.blk hx
    have hx0 : x.bp ≠ 0 := by
      have k := hxb.1
      clear * - k
      omega
    have e3 := k4 x (List.mem_append_left _ hx) hal hx0 a ha1 ha2
    simp only at e3
    have e9 := hfr a (by
      have k := hxb.2.1
      clear * - k ha2
      omega)
    exact (hf5 a hp3.1 hp3.2).trans (e3.trans e9)

theorem NoAdj_append {l1 l2 : List Blk} (h : NoAdj (l1 ++ l2)) : NoAdj l1 ∧ NoAdj l2 := by
  have := List.chain'_append.1 h
  exact ⟨this.1, this.2.1⟩

theorem NoAdj_cpre {pre : List Blk} (h : NoAdj pre) : NoAdj (cpre pre) := by
  cases hl : lastFree pre with
  | none => rw [cpre_none hl]; exact h
  | some q =>
    obtain ⟨pre1, rfl, _⟩ := lastFree_some hl
    rw [cpre_some hl]
    exact (NoAdj_append h).1

theorem NoAdj_cpost {post : List Blk} (h : NoAdj post) : NoAdj (cpost post) := by
  cases hl : headFree post with
  | none => rw [cpost_none hl]; exact h
  | some n =>
    obtain ⟨post1, rfl, _⟩ := headFree_some hl
    rw [cpost_some hl]
    exact List.Chain'.tail h

/-- Joining two sequences without adjacent free blocks around a block: the result has no
adjacent free blocks when the block is allocated or both its neighbours are. -/
theorem NoAdj_join {pre post : List Blk} {b : Blk} (h1 : NoAdj pre) (h2 : NoAdj post)
    (hl : b.al = 0 → lastFree pre = none) (hr : b.al = 0 → headFree post = none) :
    NoAdj (pre ++ b :: post) := by
  unfold NoAdj
  rw [List.chain'_append]
  refine ⟨h1, ?_, ?_⟩
  · rw [List.chain'_cons']
    refine ⟨?_, h2⟩
    intro y hy
    intro hc
    cases post with
    | nil => simp at hy
    | cons z zs =>
      simp only [List.head?_cons, Option.mem_def, Option.some.injEq] at hy
      subst hy
      have := hr hc.1
      rw [headFree_cons, if_pos hc.2] at this
      exact absurd this (by simp)
  · intro x hx y hy hc
    simp only [List.head?_cons, Option.mem_def, Option.some.injEq] at hy
    subst hy
    have hne : pre ≠ [] := by
      intro e
      rw [e] at hx
      simp at hx
    rcases eq_nil_or_snoc_blk pre with e | ⟨pre1, z, e⟩
    · exact hne e
    · rw [e] at hx
      simp at hx
      subst hx
      have := hl hc.2
      rw [e, lastFree_snoc, if_pos hc.1] at this
      exact absurd this (by simp)

/-- After coalescing a free block with its neighbours no two adjacent blocks are free. -/
theorem NoAdj_coalesced {pre post : List Blk} (b : Blk) (h1 : NoAdj pre) (h2 : NoAdj post) :
    NoAdj (cpre pre ++ cblk pre b post :: cpost post) :=
  NoAdj_join (NoAdj_cpre h1) (NoAdj_cpost h2) (fun _ => lastFree_cpre h1)
    (fun _ => headFree_cpost h2)

/-- Positions in a chain: the blocks before a block end at or before it, the blocks
after it start at or after its end. -/
theorem Chain_order {m : Mem} {l1 l2 : List Blk} {y : Blk} {f e : Nat}
    (h : Chain m f (l1 ++ y :: l2) e) :
    24 ≤ y.sz ∧ (∀ x ∈ l1, x.bp + x.sz ≤ y.bp ∧ 24 ≤ x.sz) ∧
      (∀ x ∈ l2, y.bp + y.sz ≤ x.bp ∧ 24 ≤ x.sz) := by
  obtain ⟨a0, h1, h2⟩ := Chain_append.1 h
  simp only [Chain] at h2
  obtain ⟨e1, e2, _, _, _, _, h3⟩ := h2
  refine ⟨e2, ?_, ?_⟩
  · intro x hx
    have := Chain_mem h1 x hx
    omega
  · intro x hx
    have := Chain_mem h3 x hx
    omega

theorem mem_cfl_of_ne {fl : Nat → List Nat} {pre post : List Blk} {c x : Nat}
    (h : x ∈ fl c) (h1 : ∀ q, lastFree pre = some q → x ≠ q.bp)
    (h2 : ∀ n, headFree post = some n → x ≠ n.bp) : x ∈ cfl fl pre post c := by
  unfold cfl
  have s1 : x ∈ unlist fl (lastFree pre) c := by
    cases hl : lastFree pre with
    | none => exact h
    | some q => exact mem_unlist_of_ne h (h1 q hl)
  cases hn : headFree post with
  | none => exact s1
  | some n => exact mem_unlist_of_ne s1 (h2 n hn)

theorem mem_enlist {fl : Nat → List Nat} {b : Blk} {c x : Nat} (h : x ∈ fl c) :
    x ∈ enlist fl b c := by
  unfold enlist
  by_cases hc : c = class_of b.sz
  · subst hc
    rw [Function.update_same]
    exact List.mem_cons_of_mem _ h
  · rw [Function.update_noteq hc]
    exact h

theorem mem_enlist_self (fl : Nat → List Nat) (b : Blk) : b.bp ∈ enlist fl b (class_of b.sz) := by
  unfold enlist
  rw [Function.update_same]
  exact List.mem_cons_self _ _

/-- After coalescing a free block with its neighbours and inserting the result, every
free block is in the list of its class, provided every other free block was. -/
theorem Complete_coalesced {m : Mem} {f e : Nat} {pre post : List Blk} {b : Blk}
    {fl : Nat → List Nat} (hch : Chain m f (pre ++ b :: post) e)
    (hlisted : ∀ x ∈ pre ++ post, x.al = 0 → x.bp ∈ fl (class_of x.sz)) :
    Complete (cpre pre ++ cblk pre b post :: cpost post)
      (enlist (cfl fl pre post) (cblk pre b post)) := by
  obtain ⟨hb24, hord1, hord2⟩ := Chain_order hch
  intro x hx hal
  simp only [List.mem_append, List.mem_cons] at hx
  rcases hx with hx | hx | hx
  · have hxp := mem_of_mem_cpre hx
    apply mem_enlist
    apply mem_cfl_of_ne (hlisted x (List.mem_append_left _ hxp) hal)
    · intro q hq
      obtain ⟨pre1, e1, _⟩ := lastFree_some hq
      subst e1
      rw [cpre_some hq] at hx
      have hch2 : Chain m f (pre1 ++ q :: ([] ++ b :: post)) e := by
        simpa using hch
      have := (Chain_order hch2).2.1 x hx
      omega
    · intro n hn
      obtain ⟨post1, e1, _⟩ := headFree_some hn
      subst e1
      have h1 := hord1 x hxp
      have h2 := hord2 n (List.mem_cons_self _ _)
      omega
  · subst hx
    exact mem_enlist_self _ _
  · have hxp := mem_of_mem_cpost hx
    apply mem_enlist
    apply mem_cfl_of_ne (hlisted x (List.mem_append_right _ hxp) hal)
    · intro q hq
      obtain ⟨pre1, e1, _⟩ := lastFree_some hq
      subst e1
      have h1 := hord1 q (by simp)
      have h2 := hord2 x hxp
      omega
    · intro n hn
      obtain ⟨post1, e1, _⟩ := headFree_some hn
      subst e1
      rw [cpost_some hn] at hx
      have hch2 : Chain m f ((pre ++ [b]) ++ n :: post1) e := by
        simpa using hch
      have h0 := Chain_order hch2
      have := h0.2.2 x hx
      omega

theorem NoAdj_placed {pre post : List Blk} {r c : Nat} (asize : Nat)
    (h : NoAdj (pre ++ ⟨r, c, 0⟩ :: post)) :
    NoAdj (pre ++ placedBlocks r c asize ++ post) := by
  have hnx := headFree_of_NoAdj h rfl
  obtain ⟨hp, hq⟩ := NoAdj_append h
  have hpost : NoAdj post := List.Chain'.tail hq
  unfold placedBlocks
  split
  · have e : pre ++ [⟨r, asize, 1⟩, ⟨r + asize, c - asize, 0⟩] ++ post =
        pre ++ ⟨r, asize, 1⟩ :: (([] : List Blk) ++ ⟨r + asize, c - asize, 0⟩ :: post) := by
      simp
    rw [e]
    refine NoAdj_join hp ?_ (fun h => absurd h (by simp)) (fun h => absurd h (by simp))
    exact NoAdj_join (List.chain'_nil) hpost (fun _ => rfl) (fun _ => hnx)
  · have e : pre ++ [⟨r, c, 1⟩] ++ post = pre ++ ⟨r, c, 1⟩ :: post := by simp
    rw [e]
    exact NoAdj_join hp hpost (fun h => absurd h (by simp)) (fun h => absurd h (by simp))

theorem Complete_placed {m : Mem} {f e : Nat} {pre post : List Blk} {r c : Nat}
    {fl : Nat → List Nat} (asize : Nat) (hch : Chain m f (pre ++ ⟨r, c, 0⟩ :: post) e)
    (hcomp : Complete (pre ++ ⟨r, c, 0⟩ :: post) fl) :
    Complete (pre ++ placedBlocks r c asize ++ post) (placedLists fl r c asize) := by
  obtain ⟨hc24, hord1, hord2⟩ := Chain_order hch
  simp only at hc24
  have hold : ∀ x ∈ pre ++ post, x.al = 0 → x.bp ∈ unlist fl (some ⟨r, c, 0⟩) (class_of x.sz) := by
    intro x hx hal
    have hxL : x ∈ pre ++ ⟨r, c, 0⟩ :: post := by
      simp only [List.mem_append, List.mem_cons] at hx ⊢
      rcases hx with hx | hx
      · exact Or.inl hx
      · exact Or.inr (Or.inr hx)
    apply mem_unlist_of_ne (hcomp x hxL hal)
    simp only
    rcases List.mem_append.1 hx with hx | hx
    · have := hord1 x hx
      simp only at this
      omega
    · have := hord2 x hx
      simp only at this
      omega
  intro x hx hal
  unfold placedBlocks at hx
  unfold placedLists
  split
  · rename_i hs
    rw [if_pos hs] at hx
    simp only [List.mem_append, List.mem_cons, List.mem_singleton, List.not_mem_nil,
      or_false] at hx
    rcases hx with (hx | hx | hx) | hx
    · exact mem_enlist (hold x (List.mem_append_left _ hx) hal)
    · subst hx
      simp at hal
    · subst hx
      exact mem_enlist_self _ _
    · exact mem_enlist (hold x (List.mem_append_right _ hx) hal)
  · rename_i hs
    rw [if_neg hs] at hx
    simp only [List.mem_append, List.mem_singleton] at hx
    rcases hx with (hx | hx) | hx
    · exact hold x (List.mem_append_left _ hx) hal
    · subst hx
      simp at hal
    · exact hold x (List.mem_append_right _ hx) hal

/-- `place` keeps the heap well formed. -/
theorem place_wf {s : Heap} {fl : Nat → List Nat} {pre post : List Blk} {r c asize : Nat}
    (h : Wf s (pre ++ ⟨r, c, 0⟩ :: post) fl) (h8 : asize % 8 = 0) (h24 : 24 ≤ asize)
    (hle : asize ≤ c) :
    ∃ m', place s r asize = { s with mem := m' } ∧
      Wf { s with mem := m' } (pre ++ placedBlocks r c asize ++ post)
        (placedLists fl r c asize) ∧
      PayloadFrame 0 (pre ++ ⟨r, c, 0⟩ :: post) s.mem m' := by
  obtain ⟨hR, hC, hN⟩ := h
  have hb : r ∈ fl (class_of c) := hC ⟨r, c, 0⟩ (by simp) rfl
  obtain ⟨m', k1, k2, k3⟩ := place_spec hR hb h8 h24 hle (headFree_of_NoAdj hN rfl)
  exact ⟨m', k1, ⟨k2, Complete_placed asize hR.chain hC, NoAdj_placed asize hN⟩, k3⟩

/-- `free` of an allocated block keeps the heap well formed. -/
theorem free_wf {s : Heap} {fl : Nat → List Nat} {pre post : List Blk} {p sz : Nat}
    (h : Wf s (pre ++ ⟨p, sz, 1⟩ :: post) fl)
    (hsum : (cblk pre ⟨p, sz, 0⟩ post).sz < 4294967296) :
    ∃ m', free s p = { s with mem := m' } ∧
      Wf { s with mem := m' } (cpre pre ++ cblk pre ⟨p, sz, 0⟩ post :: cpost post)
        (enlist (cfl fl pre post) (cblk pre ⟨p, sz, 0⟩ post)) ∧
      PayloadFrame p (pre ++ ⟨p, sz, 1⟩ :: post) s.mem m' := by
  obtain ⟨hR, hC, hN⟩ := h
  obtain ⟨m', k1, k2, k3⟩ := free_spec hR hC hsum
  obtain ⟨hp, hq⟩ := NoAdj_append hN
  have hpost : NoAdj post := List.Chain'.tail hq
  have hch : Chain s.mem (s.heap_listp + 8) (pre ++ ⟨p, sz, 1⟩ :: post) s.mem_brk := hR.chain
  have hord := Chain_order hch
  refine ⟨m', k1, ⟨k2, ?_, NoAdj_coalesced _ hp hpost⟩, k3⟩
  have hch0 : Chain { s with mem := m' }.mem ({ s with mem := m' }.heap_listp + 8)
      (cpre pre ++ cblk pre ⟨p, sz, 0⟩ post :: cpost post) { s with mem := m' }.mem_brk :=
    k2.chain
  intro x hx hal
  simp only [List.mem_append, List.mem_cons] at hx
  have hlisted : ∀ y ∈ pre ++ post, y.al = 0 → y.bp ∈ fl (class_of y.sz) := by
    intro y hy hyal
    apply hC y _ hyal
    simp only [List.mem_append, List.mem_cons] at hy ⊢
    rcases hy with hy | hy
    · exact Or.inl hy
    · exact Or.inr (Or.inr hy)
  have hch1 : ∃ m f e, Chain m f (pre ++ (⟨p, sz, 0⟩ : Blk) :: post) e := by
    obtain ⟨a0, c1, c2⟩ := Chain_append.1 hch
    simp only [Chain] at c2
    obtain ⟨e1, e2, e3, _, _, _, c3⟩ := c2
    refine ⟨PUT4 (PUT4 s.mem (p - 4) (PACK sz 0)) (p + sz - 8) (PACK sz 0), s.heap_listp + 8,
      s.mem_brk, ?_⟩
    have hbk := @Rep.blk _ _ _ hR ⟨p, sz, 1⟩ (by simp)
    simp only at hbk
    have hlt : sz + 0 < 4294967296 := by omega
    apply Chain_append.2
    refine ⟨a0, ?_, ?_⟩
    · apply Chain_frame _ (by have := hR.hl; omega) c1
      intro a _ ha
      rw [PUT4_apply_out (by omega), PUT4_apply_out (by omega)]
    · simp only [Chain]
      refine ⟨e1, e2, e3, by norm_num, ?_, ?_, ?_⟩
      · rw [GET4_PUT4_disj (by omega), GET4_PUT4_PACK e3 (by norm_num) hlt]
      · rw [GET4_PUT4_PACK e3 (by norm_num) hlt]
      · apply Chain_frame _ (by omega) c3
        intro a ha _
        rw [PUT4_apply_out (by omega), PUT4_apply_out (by omega)]
  obtain ⟨m1, f1, e1, hc1⟩ := hch1
  exact Complete_coalesced hc1 hlisted x (by
    simp only [List.mem_append, List.mem_cons]
    exact hx) hal

/-- `extend_heap` keeps the heap well formed when the backend grants the request. -/
theorem extend_heap_wf {s : Heap} {fl : Nat → List Nat} {L : List Blk} {words size : Nat}
    (h : Wf s L fl)
    (hsz : (if words % 2 ≠ 0 then ((words + 1) * WSIZE) % U64 else (words * WSIZE) % U64) = size)
    (h8 : size % 8 = 0) (h24 : 24 ≤ size) (hok : s.mem_brk + size ≤ s.mem_max_addr)
    (hlow : s.mem_brk < 9223372036854775808)
    (hsum : (cblk L ⟨s.mem_brk, size, 0⟩ []).sz < 4294967296) :
    ∃ m', extend_heap s words =
        ({ s with mem := m', mem_brk := s.mem_brk + size },
          (cblk L ⟨s.mem_brk, size, 0⟩ []).bp) ∧
      Wf { s with mem := m', mem_brk := s.mem_brk + size }
        (cpre L ++ [cblk L ⟨s.mem_brk, size, 0⟩ []])
        (enlist (cfl fl L []) (cblk L ⟨s.mem_brk, size, 0⟩ [])) ∧
      PayloadFrame 0 L s.mem m' := by
  obtain ⟨hR, hC, hN⟩ := h
  obtain ⟨m', k1, k2, k3⟩ := extend_heap_spec hR hC hsz h8 h24 hok hlow hsum
  obtain ⟨h1, _⟩ := Rep_extend hR h8 h24 hok (by
    have k := cblk_sz_ge L ⟨s.mem_brk, size, 0⟩ []
    simp only at k
    clear * - k hsum
    omega)
  have hcc := @Complete_coalesced _ _ _ L [] ⟨s.mem_brk, size, 0⟩ fl h1.chain (by
    intro x hx hal
    simp only [List.append_nil] at hx
    exact hC x hx hal)
  have hnn := @NoAdj_coalesced L [] ⟨s.mem_brk, size, 0⟩ hN List.chain'_nil
  exact ⟨m', k1, ⟨k2, hcc, hnn⟩, k3⟩

theorem malloc_asize_ge24 (n : Nat) (hov : n + 15 < U64) : 24 ≤ malloc_asize n := by
  unfold malloc_asize
  simp only [ALIGNMENT, OVERHEAD, ALLOC_OVERHEAD, H_SIZE, F_SIZE, FREE_PTR_SIZE, U64] at *
  split <;> omega

/-- `malloc` on a `find_fit` hit in a well-formed heap. -/
theorem malloc_hit_wf {s : Heap} {fl : Nat → List Nat} {L : List Blk} {n : Nat}
    (h : Wf s L fl) (hn : 0 < n) (hov : n + 15 < U64)
    (hr : spec_find_fit s.mem (malloc_asize n) fl ≠ 0) :
    ∃ pre c post m', L = pre ++ ⟨spec_find_fit s.mem (malloc_asize n) fl, c, 0⟩ :: post ∧
      malloc_asize n ≤ c ∧
      malloc s n = some ({ s with mem := m' }, spec_find_fit s.mem (malloc_asize n) fl) ∧
      Wf { s with mem := m' }
        (pre ++ placedBlocks (spec_find_fit s.mem (malloc_asize n) fl) c (malloc_asize n) ++ post)
        (placedLists fl (spec_find_fit s.mem (malloc_asize n) fl) c (malloc_asize n)) ∧
      PayloadFrame 0 L s.mem m' := by
  obtain ⟨hR, hC, hN⟩ := h
  have h8 := malloc_asize_mod8 n
  have h24 := malloc_asize_ge24 n hov
  obtain ⟨hff, hhit, _, _, hm⟩ := find_fit_sound_lemma hR.index hR.in_region (malloc_asize n)
  obtain ⟨c0, _, _, _, _, hin, hsz⟩ := hhit hr
  obtain ⟨sz, hmem, _, hgs⟩ := hR.listed_size hin
  obtain ⟨pre, post, rfl⟩ := List.append_of_mem hmem
  rw [hgs] at hsz
  obtain ⟨m', k1, k2, k3⟩ := place_wf ⟨hR, hC, hN⟩ h8 h24 hsz
  refine ⟨pre, sz, post, m', rfl, hsz, ?_, k2, k3⟩
  rw [hm n hn rfl hr, k1]

/-- `malloc` on a `find_fit` miss in a well-formed heap, when the backend grants the
extension: the region grows by `max(asize, 672)` bytes, the new block is coalesced with a
free last block, and the request is placed in the coalesced block. -/
theorem malloc_miss_wf {s : Heap} {fl : Nat → List Nat} {L : List Blk} {n : Nat}
    (h : Wf s L fl) (hn : 0 < n) (hov : n + 15 < U64)
    (hr : spec_find_fit s.mem (malloc_asize n) fl = 0)
    (hok : s.mem_brk + MAX (malloc_asize n) CHUNKSIZE ≤ s.mem_max_addr)
    (hlow : s.mem_brk < 9223372036854775808)
    (hsum : (cblk L ⟨s.mem_brk, MAX (malloc_asize n) CHUNKSIZE, 0⟩ []).sz < 4294967296) :
    ∃ m', malloc s n = some
        ({ s with mem := m', mem_brk := s.mem_brk + MAX (malloc_asize n) CHUNKSIZE },
          (cblk L ⟨s.mem_brk, MAX (malloc_asize n) CHUNKSIZE, 0⟩ []).bp) ∧
      (cblk L ⟨s.mem_brk, MAX (malloc_asize n) CHUNKSIZE, 0⟩ []).bp ≠ 0 ∧
      Wf { s with mem := m', mem_brk := s.mem_brk + MAX (malloc_asize n) CHUNKSIZE }
        (cpre L ++ placedBlocks (cblk L ⟨s.mem_brk, MAX (malloc_asize n) CHUNKSIZE, 0⟩ []).bp
          (cblk L ⟨s.mem_brk, MAX (malloc_asize n) CHUNKSIZE, 0⟩ []).sz (malloc_asize n) ++ [])
        (placedLists (enlist (cfl fl L [])
            (cblk L ⟨s.mem_brk, MAX (malloc_asize n) CHUNKSIZE, 0⟩ []))
          (cblk L ⟨s.mem_brk, MAX (malloc_asize n) CHUNKSIZE, 0⟩ []).bp
          (cblk L ⟨s.mem_brk, MAX (malloc_asize n) CHUNKSIZE, 0⟩ []).sz (malloc_asize n)) ∧
      PayloadFrame 0 L s.mem m' := by
  have h8 := malloc_asize_mod8 n
  have h24 := malloc_asize_ge24 n hov
  obtain ⟨e1, _, _, e4, e5⟩ := extendsize_facts n
  have hff := (find_fit_sound_lemma h.1.index h.1.in_region (malloc_asize n)).1
  rw [hr] at hff
  have hmm := malloc_miss hn hff
  have hc24 : 24 ≤ MAX (malloc_asize n) CHUNKSIZE := by
    simp only [CHUNKSIZE] at e4
    omega
  obtain ⟨m1, k1, k2, k3⟩ := extend_heap_wf h (extend_words_even n) e1 hc24 hok hlow hsum
  generalize hcb : cblk L ⟨s.mem_brk, MAX (malloc_asize n) CHUNKSIZE, 0⟩ [] = cb at *
  have hge : MAX (malloc_asize n) CHUNKSIZE ≤ cb.sz := by
    rw [← hcb]
    exact cblk_sz_ge L ⟨s.mem_brk, MAX (malloc_asize n) CHUNKSIZE, 0⟩ []
  have hal : cb.al = 0 := by
    rw [← hcb]
    rfl
  have hcbe : cb = ⟨cb.bp, cb.sz, 0⟩ := by
    cases cb
    simp only at hal
    simp only [hal]
  have hmem : cb ∈ cpre L ++ [cb] := by simp
  have hbp := k2.1.blk hmem
  have hne : cb.bp ≠ 0 := by
    have := k2.1.seg_pos
    clear * - hbp this
    simp only at hbp
    omega
  have k2b : Wf { s with mem := m1, mem_brk := s.mem_brk + MAX (malloc_asize n) CHUNKSIZE }
      (cpre L ++ ⟨cb.bp, cb.sz, 0⟩ :: []) (enlist (cfl fl L []) cb) := by
    rw [← hcbe]
    exact k2
  obtain ⟨m2, j1, j2, j3⟩ := place_wf k2b h8 h24 (by omega)
  refine ⟨m2, ?_, hne, j2, ?_⟩
  · rw [hmm, k1]
    simp only [if_neg hne]
    rw [j1]
  · intro b hb hal1 hb0 a ha1 ha2
    have hb1 : b ∈ cpre L ++ ⟨cb.bp, cb.sz, 0⟩ :: [] := by
      have := mem_cpre_of_alloc hb (by omega)
      simp only [List.mem_append]
      exact Or.inl this
    rw [j3 b hb1 hal1 hb0 a ha1 ha2]
    exact k3 b hb hal1 hb0 a ha1 ha2

/-- The block that `extend_heap` creates, merged with a free last block, lies between the
first block pointer and the new break. -/
theorem Rep.cblk_nil_sz_le {s : Heap} {fl : Nat → List Nat} {L : List Blk}
    (h : Rep s L fl) (b : Blk) :
    (cblk L b []).sz + s.seg_start + 128 ≤ s.mem_brk + b.sz := by
  have h1 := h.first_le
  have h2 := h.hl
  unfold cblk
  cases hl : lastFree L with
  | none =>
    simp only [headFree]
    omega
  | some q =>
    obtain ⟨pre1, e, _⟩ := lastFree_some hl
    have hm : q ∈ L := by rw [e]; simp
    have := h.blk hm
    simp only [headFree]
    omega

theorem heap0_wf : Wf heap0 [⟨65664, 672, 0⟩] lists0 := by
  refine ⟨heap0_rep, ?_, ?_⟩
  · intro b hb _
    rw [List.mem_singleton.1 hb]
    decide
  · simp [NoAdj]

theorem malloc_asize_le {n sz : Nat} (hn : n + 8 ≤ sz) (h24 : 24 ≤ sz) (h8 : sz % 8 = 0)
    (hlt : sz < U64) : malloc_asize n ≤ sz := by
  unfold malloc_asize
  simp only [ALIGNMENT, OVERHEAD, ALLOC_OVERHEAD, H_SIZE, F_SIZE, FREE_PTR_SIZE, U64] at *
  split <;> omega

/-- The state after `malloc(16)` on the fresh heap is well formed: the block at `65664`
has 24 bytes and is allocated, the remainder of 648 bytes is free. -/
theorem heap1_wf : Wf (after_malloc heap0 16) [⟨65664, 24, 1⟩, ⟨65688, 648, 0⟩]
    (placedLists lists0 65664 672 24) := by
  have hr : spec_find_fit heap0.mem (malloc_asize 16) lists0 ≠ 0 := by
    have e : malloc_asize 16 = 24 := by decide
    rw [e, heap0_fit.1]
    decide
  obtain ⟨pre, c, post, m', e0, _, k1, k2, _⟩ := malloc_hit_wf heap0_wf (by decide) (by decide) hr
  have e : malloc_asize 16 = 24 := by decide
  rw [e, heap0_fit.1] at e0 k1 k2
  have hpre : pre = [] := by
    cases pre with
    | nil => rfl
    | cons x xs =>
      have := congrArg List.length e0
      simp at this
  subst hpre
  simp only [List.nil_append, List.cons.injEq, Blk.mk.injEq] at e0
  obtain ⟨⟨_, hc, _⟩, hpost⟩ := e0
  subst hc
  subst hpost
  have e2 : after_malloc heap0 16 = { heap0 with mem := m' } := by
    unfold after_malloc
    rw [k1]
    rfl
  rw [e2]
  exact k2

/-- C14 (amended): in every well-formed heap, for every allocated block `p` of `sz` bytes
whose size together with the sizes of its free neighbours is below `2^32` (block sizes are
kept in 4-byte headers), and every `n > 0` with `n + 8 ≤ sz`, the call `malloc(n)` made
right after `free(p)` succeeds without moving the break and returns a free block `q` of at
least `asize` bytes whose size class is not above the class of the block that `free(p)`
created (the block of `p` coalesced with its free neighbours): `q` is either that block,
and then `q ≤ p < p + sz`, or a block that was free before the `free`. -/
theorem free_then_malloc_reuse {s : Heap} {fl : Nat → List Nat} {pre post : List Blk}
    {p sz n : Nat} (h : Wf s (pre ++ ⟨p, sz, 1⟩ :: post) fl) (hn : 0 < n) (hfit : n + 8 ≤ sz)
    (hsum : (cblk pre ⟨p, sz, 0⟩ post).sz < 4294967296) :
    ∃ m1 q c, malloc (free s p) n = some ({ free s p with mem := m1 }, q) ∧ q ≠ 0 ∧
      (free s p).mem_brk = s.mem_brk ∧
      (⟨q, c, 0⟩ : Blk) ∈ cpre pre ++ cblk pre ⟨p, sz, 0⟩ post :: cpost post ∧
      malloc_asize n ≤ c ∧ class_of c ≤ class_of (cblk pre ⟨p, sz, 0⟩ post).sz ∧
      (q = (cblk pre ⟨p, sz, 0⟩ post).bp ∨ (⟨q, c, 0⟩ : Blk) ∈ pre ++ post) ∧
      (q = (cblk pre ⟨p, sz, 0⟩ post).bp → q ≤ p ∧ q < p + sz) := by
  have hb := h.1.blk (List.mem_append_right pre (List.mem_cons_self _ _))
  simp only at hb
  obtain ⟨_, _, hb24, hb8, _, _, _, _, hb32⟩ := hb
  have hov : n + 15 < U64 := by
    simp only [U64]
    omega
  have hle := malloc_asize_le hfit hb24 hb8 (by simp only [U64]; omega)
  obtain ⟨m0, f1, f2, _⟩ := free_wf h hsum
  rw [f1]
  generalize hcb : cblk pre ⟨p, sz, 0⟩ post = cb at *
  have hcbsz : sz ≤ cb.sz := by
    rw [← hcb]
    exact cblk_sz_ge pre ⟨p, sz, 0⟩ post
  have hcbal : cb.al = 0 := by
    rw [← hcb]
    rfl
  have hcbmem : cb ∈ cpre pre ++ cb :: cpost post :=
    List.mem_append_right _ (List.mem_cons_self _ _)
  have hr : spec_find_fit m0 (malloc_asize n) (enlist (cfl fl pre post) cb) ≠ 0 := by
    intro h0
    have := (f2.1.find_fit_miss_iff f2.2.1 (malloc_asize n)).1 h0 cb hcbmem hcbal
    omega
  obtain ⟨pre1, c, post1, m1, e0, hc, k1, _, _⟩ := malloc_hit_wf f2 hn hov hr
  obtain ⟨_, hhit, _, _, _⟩ := find_fit_sound_lemma f2.1.index f2.1.in_region (malloc_asize n)
  obtain ⟨c0, c1, c2, _, c4, c5, _⟩ := hhit hr
  generalize spec_find_fit m0 (malloc_asize n) (enlist (cfl fl pre post) cb) = q at *
  have hqmem : (⟨q, c, 0⟩ : Blk) ∈ cpre pre ++ cb :: cpost post := by
    rw [e0]
    exact List.mem_append_right _ (List.mem_cons_self _ _)
  have hcls := (f2.1.listed hqmem c5).2
  simp only at hcls
  have hclass : class_of c ≤ class_of cb.sz := by
    by_contra hgt
    have hd1 : class_of (malloc_asize n) ≤ class_of cb.sz := class_of_mono (by omega)
    have hfz := c4 (class_of cb.sz) hd1 (by omega)
    rw [f2.1.index.find f2.1.in_region (class_of_range cb.sz).1 (class_of_range cb.sz).2] at hfz
    have hz := Option.some.inj hfz
    have hnz : ∀ x ∈ enlist (cfl fl pre post) cb (class_of cb.sz), x ≠ 0 := by
      intro x hx
      have := (f2.1.index.above _ x hx).1
      omega
    have hall := (spec_find_spec m0 (malloc_asize n) _ hnz).1.1 hz cb.bp (mem_enlist_self _ cb)
    have hsz := (f2.1.tags hcbmem).2.2.1
    simp only at hsz
    rw [hsz] at hall
    omega
  refine ⟨m1, q, c, k1, hr, rfl, hqmem, hc, hclass, ?_, ?_⟩
  · rcases List.mem_append.1 hqmem with h1 | h1
    · exact Or.inr (List.mem_append_left _ (mem_of_mem_cpre h1))
    · rcases List.mem_cons.1 h1 with h2 | h2
      · left
        rw [← h2]
      · exact Or.inr (List.mem_append_right _ (mem_of_mem_cpost h2))
  · intro hq
    have hbp : cb.bp ≤ p := by
      rw [← hcb]
      unfold cblk
      simp only
      cases hl : lastFree pre with
      | none => simp
      | some z =>
        simp only
        obtain ⟨pre2, rfl, _⟩ := lastFree_some hl
        have hch := h.1.chain
        rw [List.append_assoc] at hch
        have := (Chain_order hch).2.2 ⟨p, sz, 1⟩ (by simp)
        simp only at this
        omega
    omega

/-- C14 (counterexample): after `p = malloc(500)` and `malloc(16)` on the fresh heap, the
block of `p` has 512 bytes at `65664`; `malloc(16)` right after `free(p)` returns `66200`,
which lies above the block of `p` (`65664 + 512 = 66176`). -/
theorem free_then_malloc_returns_block_above :
    ret (malloc heap0 500) = 65664 ∧ ret (malloc (after_malloc heap0 500) 16) = 66176 ∧
    GET_SIZE runD.mem (HDRP 65664) = 512 ∧ GET_ALLOC runD.mem (HDRP 65664) = 1 ∧
    ret (malloc (free runD 65664) 16) = 66200 ∧ ¬ (66200 < 65664 + 512) := by
  decide!

theorem free_then_malloc_reuse_witness :
    Wf (after_malloc heap0 16) ([] ++ ⟨65664, 24, 1⟩ :: [⟨65688, 648, 0⟩])
      (placedLists lists0 65664 672 24) ∧ 0 < 16 ∧ 16 + 8 ≤ 24 ∧
    ∃ m1 q c, malloc (free (after_malloc heap0 16) 65664) 16 =
        some ({ free (after_malloc heap0 16) 65664 with mem := m1 }, q) ∧ q ≠ 0 ∧
      (free (after_malloc heap0 16) 65664).mem_brk = (after_malloc heap0 16).mem_brk ∧
      (⟨q, c, 0⟩ : Blk) ∈ cpre [] ++ cblk [] ⟨65664, 24, 0⟩ [⟨65688, 648, 0⟩] ::
        cpost [⟨65688, 648, 0⟩] ∧
      malloc_asize 16 ≤ c ∧ class_of c ≤ class_of (cblk [] ⟨65664, 24, 0⟩ [⟨65688, 648, 0⟩]).sz ∧
      (q = (cblk [] ⟨65664, 24, 0⟩ [⟨65688, 648, 0⟩]).bp ∨
        (⟨q, c, 0⟩ : Blk) ∈ [] ++ [⟨65688, 648, 0⟩]) ∧
      (q = (cblk [] ⟨65664, 24, 0⟩ [⟨65688, 648, 0⟩]).bp → q ≤ 65664 ∧ q < 65664 + 24) :=
  ⟨heap1_wf, by decide, by decide,
    @free_then_malloc_reuse _ _ [] [⟨65688, 648, 0⟩] 65664 24 16 heap1_wf (by decide) (by decide)
      (by decide)⟩

theorem runE_marked_facts :
    (0 < runE_marked.seg_start ∧ runE_marked.heap_listp = runE_marked.seg_start + 120 ∧
      runE_marked.mem_brk ≤ runE_marked.mem_max_addr ∧
      runE_marked.mem_max_addr ≤ U64 ∧
      GET4 runE_marked.mem (runE_marked.heap_listp - 4) = 9 ∧
      GET4 runE_marked.mem runE_marked.heap_listp = 9 ∧
      GET4 runE_marked.mem (runE_marked.mem_brk - 4) = 1) ∧
    Chain runE_marked.mem (runE_marked.heap_listp + 8) blocksE runE_marked.mem_brk ∧
    (∀ c < 15, 1 ≤ c → ListAt runE_marked.mem (runE_marked.seg_start + 8 * (c - 1)) (listsE c)) ∧
    (coalesce runE_marked 2147549312).2 = 65664 ∧
    GET4 (coalesce runE_marked 2147549312).1.mem (HDRP 65664) = PACK 672 0 := by
  decide!

theorem runE_marked_rep : Rep runE_marked blocksE listsE := by
  obtain ⟨⟨h1, h2, h3, h4, h6, h7, h8⟩, hc, hl, _⟩ := runE_marked_facts
  refine ⟨h1, h2, h3, h4, h6, h7, hc, h8, fun c h1 h14 => hl c (by omega) h1, ?_, ?_⟩
  · intro c x hx
    unfold listsE at hx
    by_cases h7 : c = 7
    · subst h7
      refine ⟨672, ?_, by decide⟩
      simp at hx
      subst hx
      simp [blocksE]
    · by_cases h14 : c = 14
      · subst h14
        refine ⟨2147483648, ?_, by decide⟩
        simp at hx
        subst hx
        simp [blocksE]
      · simp [h7, h14] at hx
  · intro c
    unfold listsE
    by_cases h7 : c = 7
    · simp [h7]
    · by_cases h14 : c = 14
      · simp [h14]
      · simp [h7, h14]

/-- The block `b = 2147549312` of run E is in no free list. -/
theorem listsE_not_mem (c : Nat) : 2147549312 ∉ listsE c := by
  unfold listsE
  by_cases h7 : c = 7
  · simp [h7]
  · by_cases h14 : c = 14
    · simp [h14]
    · simp [h7, h14]

/-- C20 (counterexample): the state `runE_marked` represents three blocks, free blocks of
`2^31` and 672 bytes around the block `b = 2147549312` of `2^31` bytes, which is marked
free and is in no list while each neighbour is in the list of its class; `coalesce(b)`
returns `65664`, but the header it writes there records 672 bytes, not the sum
`2^31 + 2^31 + 672 = 4294967968`, which does not fit the 4-byte header. -/
theorem coalesce_truncates_merged_size :
    Rep runE_marked ([⟨65664, 2147483648, 0⟩] ++ ⟨2147549312, 2147483648, 0⟩ ::
      [⟨4295032960, 672, 0⟩]) listsE ∧
    (∀ c, 2147549312 ∉ listsE c) ∧
    65664 ∈ listsE (class_of 2147483648) ∧ 4295032960 ∈ listsE (class_of 672) ∧
    (coalesce runE_marked 2147549312).2 = 65664 ∧
    GET4 (coalesce runE_marked 2147549312).1.mem (HDRP 65664) = PACK 672 0 ∧
    GET_SIZE (coalesce runE_marked 2147549312).1.mem (HDRP 65664) = 672 ∧
    GET_SIZE (coalesce runE_marked 2147549312).1.mem (HDRP 65664) ≠
      2147483648 + 2147483648 + 672 := by
  have e := runE_marked_facts.2.2.2.2
  have g : GET_SIZE (coalesce runE_marked 2147549312).1.mem (HDRP 65664) = 672 := by
    unfold GET_SIZE
    rw [e]
    decide
  refine ⟨runE_marked_rep, listsE_not_mem, by decide, by decide,
    runE_marked_facts.2.2.2.1, e, g, ?_⟩
  rw [g]
  decide

theorem lastFree_all_alloc {A : List Blk} (h : ∀ b ∈ A, b.al = 1) : lastFree A = none := by
  rcases eq_nil_or_snoc_blk A with rfl | ⟨A1, z, rfl⟩
  · rfl
  · rw [lastFree_snoc, if_neg]
    have := h z (by simp)
    omega

/-- A block sequence that ends with its only free block splits around a free block in one
way only. -/
theorem tail_decomp {A pre post : List Blk} {x r q c : Nat} (h : ∀ b ∈ A, b.al = 1)
    (e : A ++ [⟨x, r, 0⟩] = pre ++ ⟨q, c, 0⟩ :: post) :
    pre = A ∧ q = x ∧ c = r ∧ post = [] := by
  induction A generalizing pre with
  | nil =>
    cases pre with
    | nil =>
      simp only [List.nil_append, List.cons.injEq, Blk.mk.injEq] at e
      obtain ⟨⟨e1, e2, _⟩, e3⟩ := e
      exact ⟨rfl, e1.symm, e2.symm, e3.symm⟩
    | cons p pre1 =>
      have := congrArg List.length e
      simp at this
  | cons a A1 ih =>
    cases pre with
    | nil =>
      simp only [List.nil_append, List.cons_append, List.cons.injEq] at e
      have := h a (List.mem_cons_self _ _)
      rw [e.1] at this
      simp at this
    | cons p pre1 =>
      simp only [List.cons_append, List.cons.injEq] at e
      obtain ⟨e1, e2⟩ := e
      obtain ⟨i1, i2, i3, i4⟩ := ih (fun b hb => h b (List.mem_cons_of_mem _ hb)) e2
      exact ⟨by rw [e1, i1], i2, i3, i4⟩

theorem Tail.put_blocks (rev : List Blk) (x c asize brk : Nat) :
    (Tail.put rev x c asize brk).blocks = rev.reverse ++ placedBlocks x c asize ∧
    (Tail.put rev x c asize brk).brk = brk ∧
    ∃ sz, (Tail.put rev x c asize brk).rev = ⟨x, sz, 1⟩ :: rev := by
  unfold Tail.put placedBlocks Tail.blocks
  split
  · exact ⟨by simp, rfl, asize, rfl⟩
  · exact ⟨by simp, rfl, c, rfl⟩

/-- One `malloc(n)` in a well-formed heap whose only free block, if any, is the last one
follows `Tail.step`, provided the backend can grant an extension. -/
theorem Tail.step_wf {s : Heap} {fl : Nat → List Nat} {t : Tail} {n : Nat}
    (h : Wf s t.blocks fl) (hall : ∀ b ∈ t.rev, b.al = 1) (hbrk : t.brk = s.mem_brk)
    (hn : 0 < n) (hov : n + 15 < U64)
    (hok : s.mem_brk + MAX (malloc_asize n) CHUNKSIZE ≤ s.mem_max_addr)
    (hlow : s.mem_brk < 9223372036854775808)
    (hsmall : s.mem_brk + MAX (malloc_asize n) CHUNKSIZE < s.seg_start + 4294967296) :
    ∃ m1 fl1 p sz,
      malloc s n = some ({ s with mem := m1, mem_brk := (Tail.alloc n t).brk }, p) ∧
      p ≠ 0 ∧ (Tail.alloc n t).rev = ⟨p, sz, 1⟩ :: t.rev ∧
      Wf { s with mem := m1, mem_brk := (Tail.alloc n t).brk } (Tail.alloc n t).blocks fl1 := by
  obtain ⟨rev, last, brk⟩ := t
  simp only at hbrk hall
  subst hbrk
  have hallr : ∀ b ∈ rev.reverse, b.al = 1 := fun b hb => hall b (List.mem_reverse.1 hb)
  cases last with
  | none =>
    have hL : (Tail.mk rev none s.mem_brk).blocks = rev.reverse := by
      simp [Tail.blocks]
    rw [hL] at h
    have hr : spec_find_fit s.mem (malloc_asize n) fl = 0 := by
      rw [h.1.find_fit_miss_iff h.2.1]
      intro b hb hal
      have := hallr b hb
      omega
    have hsum : (cblk rev.reverse ⟨s.mem_brk, MAX (malloc_asize n) CHUNKSIZE, 0⟩ []).sz <
        4294967296 := by
      have k := h.1.cblk_nil_sz_le ⟨s.mem_brk, MAX (malloc_asize n) CHUNKSIZE, 0⟩
      simp only at k
      clear * - k hsmall
      omega
    obtain ⟨m1, k1, k2, k3, _⟩ := malloc_miss_wf h hn hov hr hok hlow hsum
    have hlf := lastFree_all_alloc hallr
    have hcb : cblk rev.reverse ⟨s.mem_brk, MAX (malloc_asize n) CHUNKSIZE, 0⟩ [] =
        ⟨s.mem_brk, MAX (malloc_asize n) CHUNKSIZE, 0⟩ := by
      simp [cblk, hlf, headFree]
    rw [hcb, cpre_none hlf] at k3
    rw [hcb] at k1 k2
    simp only at k1 k2 k3
    have hst : Tail.alloc n (Tail.mk rev none s.mem_brk) = Tail.put rev s.mem_brk (MAX (malloc_asize n) CHUNKSIZE)
          (malloc_asize n) (s.mem_brk + MAX (malloc_asize n) CHUNKSIZE) := rfl
    rw [hst]
    obtain ⟨p1, p2, sz, p3⟩ := Tail.put_blocks rev s.mem_brk (MAX (malloc_asize n) CHUNKSIZE)
      (malloc_asize n) (s.mem_brk + MAX (malloc_asize n) CHUNKSIZE)
    rw [p1, p2]
    rw [List.append_nil] at k3
    exact ⟨m1, _, s.mem_brk, sz, k1, k2, p3, k3⟩
  | some xr =>
    obtain ⟨x, r⟩ := xr
    have hL : (Tail.mk rev (some (x, r)) s.mem_brk).blocks = rev.reverse ++ [⟨x, r, 0⟩] := rfl
    rw [hL] at h
    by_cases hfit : malloc_asize n ≤ r
    · have hr : spec_find_fit s.mem (malloc_asize n) fl ≠ 0 := by
        intro h0
        have := (h.1.find_fit_miss_iff h.2.1 (malloc_asize n)).1 h0 ⟨x, r, 0⟩ (by simp) rfl
        simp only at this
        omega
      obtain ⟨pre, c, post, m1, e0, _, k1, k3, _⟩ := malloc_hit_wf h hn hov hr
      generalize spec_find_fit s.mem (malloc_asize n) fl = q at *
      obtain ⟨rfl, rfl, rfl, rfl⟩ := tail_decomp hallr e0
      have hst : Tail.alloc n (Tail.mk rev (some (q, c)) s.mem_brk) =
          Tail.put rev q c (malloc_asize n) s.mem_brk := by
        simp only [Tail.alloc, Tail.step, if_pos hfit]
      rw [hst]
      obtain ⟨p1, p2, sz, p3⟩ := Tail.put_blocks rev q c (malloc_asize n) s.mem_brk
      rw [p1, p2]
      rw [List.append_nil] at k3
      exact ⟨m1, _, q, sz, k1, hr, p3, k3⟩
    · have hr : spec_find_fit s.mem (malloc_asize n) fl = 0 := by
        rw [h.1.find_fit_miss_iff h.2.1]
        intro b hb hal
        rcases List.mem_append.1 hb with hb1 | hb1
        · have := hallr b hb1
          omega
        · rw [List.mem_singleton.1 hb1]
          simp only
          omega
      have hsum : (cblk (rev.reverse ++ [⟨x, r, 0⟩])
          ⟨s.mem_brk, MAX (malloc_asize n) CHUNKSIZE, 0⟩ []).sz < 4294967296 := by
        have k := h.1.cblk_nil_sz_le ⟨s.mem_brk, MAX (malloc_asize n) CHUNKSIZE, 0⟩
        simp only at k
        clear * - k hsmall
        omega
      obtain ⟨m1, k1, k2, k3, _⟩ := malloc_miss_wf h hn hov hr hok hlow hsum
      have hlf : lastFree (rev.reverse ++ [⟨x, r, 0⟩]) = some ⟨x, r, 0⟩ := by
        rw [lastFree_snoc]
        simp
      have hcb : cblk (rev.reverse ++ [⟨x, r, 0⟩])
          ⟨s.mem_brk, MAX (malloc_asize n) CHUNKSIZE, 0⟩ [] =
          ⟨x, MAX (malloc_asize n) CHUNKSIZE + r, 0⟩ := by
        simp [cblk, hlf, headFree]
      rw [hcb, cpre_some hlf] at k3
      rw [hcb] at k1 k2
      simp only at k1 k2 k3
      have hst : Tail.alloc n (Tail.mk rev (some (x, r)) s.mem_brk) =
          Tail.put rev x (MAX (malloc_asize n) CHUNKSIZE + r) (malloc_asize n)
            (s.mem_brk + MAX (malloc_asize n) CHUNKSIZE) := by
        simp only [Tail.alloc, Tail.step, if_neg hfit]
      rw [hst]
      obtain ⟨p1, p2, sz, p3⟩ := Tail.put_blocks rev x (MAX (malloc_asize n) CHUNKSIZE + r)
        (malloc_asize n) (s.mem_brk + MAX (malloc_asize n) CHUNKSIZE)
      rw [p1, p2]
      rw [List.append_nil] at k3
      exact ⟨m1, _, x, sz, k1, k2, p3, k3⟩

theorem heap0_max : heap0.mem_max_addr = 21037056 ∧ heap0.mem_brk = 66336 := by
  decide!

theorem Tail.alloc_brk (n : Nat) (t : Tail) :
    (Tail.alloc n t).brk ≤ t.brk + MAX (malloc_asize n) CHUNKSIZE := by
  unfold Tail.alloc Tail.step
  cases t.last with
  | none =>
    simp only
    rw [(Tail.put_blocks _ _ _ _ _).2.1]
  | some x =>
    simp only
    split
    · rw [(Tail.put_blocks _ _ _ _ _).2.1]
      omega
    · rw [(Tail.put_blocks _ _ _ _ _).2.1]

/-- The first phase of scenario 3: after `k` calls `malloc(32)` on the fresh heap the state
is well formed with the block sequence of the tail state after `k` steps, every call so far
has succeeded, and the returned pointers are the block pointers of the allocated blocks in
address order. -/
theorem scenario3_phase1 (k : Nat) (hk : k ≤ 1000) :
    ∃ fl, Wf (after_mallocs 32 heap0 k) (Tail.run 32 tail0 k).blocks fl ∧
      (after_mallocs 32 heap0 k).mem_brk = (Tail.run 32 tail0 k).brk ∧
      (after_mallocs 32 heap0 k).mem_max_addr = 21037056 ∧
      (∀ b ∈ (Tail.run 32 tail0 k).rev, b.al = 1) ∧
      (Tail.run 32 tail0 k).brk ≤ 66336 + 672 * k ∧
      (Tail.run 32 tail0 k).rev.reverse.map Blk.bp = (List.range k).map (nth_malloc 32 heap0) := by
  induction k with
  | zero =>
    refine ⟨lists0, heap0_wf, heap0_max.2, heap0_max.1, ?_, ?_, ?_⟩
    · intro b hb
      simp [Tail.run, tail0] at hb
    · simp [Tail.run, tail0]
    · simp [Tail.run, tail0]
  | succ k ih =>
    obtain ⟨fl, h1, h2, h3, h4, h5, h6⟩ := ih (by omega)
    have hext : MAX (malloc_asize 32) CHUNKSIZE = 672 := by decide
    have hok : (after_mallocs 32 heap0 k).mem_brk + MAX (malloc_asize 32) CHUNKSIZE ≤
        (after_mallocs 32 heap0 k).mem_max_addr := by
      rw [h2, h3, hext]
      omega
    have hlow : (after_mallocs 32 heap0 k).mem_brk < 9223372036854775808 := by
      rw [h2]
      omega
    have hsmall : (after_mallocs 32 heap0 k).mem_brk + MAX (malloc_asize 32) CHUNKSIZE <
        (after_mallocs 32 heap0 k).seg_start + 4294967296 := by
      rw [h2, hext]
      omega
    obtain ⟨m1, fl1, p, sz, k1, k2, k3, k4⟩ :=
      Tail.step_wf h1 h4 h2.symm (by decide) (by decide) hok hlow hsmall
    have hbr := Tail.alloc_brk 32 (Tail.run 32 tail0 k)
    rw [hext] at hbr
    have e1 : after_mallocs 32 heap0 (k + 1) = after_malloc (after_mallocs 32 heap0 k) 32 := rfl
    have e2 : Tail.run 32 tail0 (k + 1) = Tail.alloc 32 (Tail.run 32 tail0 k) := rfl
    have e3 : nth_malloc 32 heap0 k = p := by
      unfold nth_malloc
      rw [k1]
      rfl
    rw [e1, e2]
    unfold after_malloc
    rw [k1]
    simp only [post]
    refine ⟨fl1, k4, trivial, h3, ?_, by omega, ?_⟩
    · intro b hb
      rw [k3] at hb
      rcases List.mem_cons.1 hb with hb1 | hb1
      · rw [hb1]
      · exact h4 b hb1
    · rw [k3, List.reverse_cons, List.map_append, h6, List.range_succ, List.map_append]
      simp only [List.map_cons, List.map_nil, e3]

/-- `free` of an allocated block whose physical neighbours are both allocated: the block
becomes free in place and is put in front of the list of its class. -/
theorem free_isolated {s : Heap} {fl : Nat → List Nat} {F R : List Blk} {p sz : Nat}
    (h : Wf s (F ++ ⟨p, sz, 1⟩ :: R) fl) (hF : lastFree F = none) (hR : headFree R = none) :
    ∃ m, free s p = { s with mem := m } ∧
      Wf { s with mem := m } (F ++ ⟨p, sz, 0⟩ :: R) (enlist fl ⟨p, sz, 0⟩) := by
  have e1 : cblk F ⟨p, sz, 0⟩ R = ⟨p, sz, 0⟩ := by
    simp [cblk, hF, hR]
  have hsum : (cblk F ⟨p, sz, 0⟩ R).sz < 4294967296 := by
    rw [e1]
    have k := (@Rep.blk _ _ _ h.1 ⟨p, sz, 1⟩
      (List.mem_append_right F (List.mem_cons_self _ _))).2.2.2.2.2.2.2.2
    simp only at k ⊢
    clear * - k
    omega
  obtain ⟨m, k1, k2, _⟩ := free_wf h hsum
  have e2 : cfl fl F R = fl := by
    simp [cfl, unlist, hF, hR]
  rw [e1, e2, cpre_none hF, cpost_none hR] at k2
  exact ⟨m, k1, k2⟩

theorem Blk.eta_alloc {a : Blk} (h : a.al = 1) : a = ⟨a.bp, a.sz, 1⟩ := by
  cases a
  simp only at h
  simp only [h]

/-- The second phase of scenario 3, for any run of allocated blocks `A` that follows a
prefix `F`: freeing every other block of `A`, starting with the first, turns `A` into
`holes A`. -/
theorem free_each_holes (A : List Blk) :
    ∀ (s : Heap) (F : List Blk) (fl : Nat → List Nat), Wf s (F ++ A) fl → lastFree F = none →
      (∀ b ∈ A, b.al = 1) →
      ∃ m fl1, free_each s (every_other (A.map Blk.bp)) = { s with mem := m } ∧
        Wf { s with mem := m } (F ++ holes A) fl1 := by
  induction A using holes.induct with
  | case1 =>
    intro s F fl h _ _
    exact ⟨s.mem, fl, rfl, h⟩
  | case2 a =>
    intro s F fl h hF hall
    have ha := Blk.eta_alloc (hall a (List.mem_singleton.2 rfl))
    rw [ha] at h
    obtain ⟨m, k1, k2⟩ := free_isolated h hF rfl
    exact ⟨m, _, k1, k2⟩
  | case3 a b rest ih =>
    intro s F fl h hF hall
    have ha := Blk.eta_alloc (hall a (List.mem_cons_self _ _))
    have hb : b.al = 1 := hall b (by simp)
    rw [ha] at h
    have hR : headFree (b :: rest) = none := by
      rw [headFree_cons, if_neg (by omega)]
    obtain ⟨m, k1, k2⟩ := free_isolated h hF hR
    have hF2 : lastFree ((F ++ [⟨a.bp, a.sz, 0⟩]) ++ [b]) = none := by
      rw [lastFree_snoc, if_neg (by omega)]
    have k3 : Wf { s with mem := m } (((F ++ [⟨a.bp, a.sz, 0⟩]) ++ [b]) ++ rest)
        (enlist fl ⟨a.bp, a.sz, 0⟩) := by
      simpa using k2
    obtain ⟨m2, fl2, j1, j2⟩ := ih { s with mem := m } _ _ k3 hF2
      (fun x hx => hall x (by simp [hx]))
    refine ⟨m2, fl2, ?_, ?_⟩
    · show free_each (free s a.bp) (every_other (rest.map Blk.bp)) = _
      rw [k1, j1]
    · have e : F ++ holes (a :: b :: rest) = ((F ++ [⟨a.bp, a.sz, 0⟩]) ++ [b]) ++ holes rest := by
        simp [holes]
      rw [e]
      exact j2

theorem tail_run_1000 :
    (Tail.run 32 tail0 1000).last = none ∧ (Tail.run 32 tail0 1000).brk = 105984 ∧
    (holes (Tail.run 32 tail0 1000).rev.reverse).all
      (fun b => decide (b.al = 0 → b.sz = 40)) = true ∧
    (free_blocks (holes (Tail.run 32 tail0 1000).rev.reverse)).length = 500 := by
  decide!

/-- The free blocks of `holes A` are blocks of `A` with every other block pointer. -/
theorem holes_free_mem (A : List Blk) :
    (∀ b ∈ A, b.al = 1) → ∀ b ∈ holes A, b.al = 0 → b.bp ∈ every_other (A.map Blk.bp) := by
  induction A using holes.induct with
  | case1 =>
    intro _ b hb
    simp [holes] at hb
  | case2 a =>
    intro _ b hb _
    simp only [holes, List.mem_singleton] at hb
    rw [hb]
    simp [every_other]
  | case3 a c rest ih =>
    intro hall b hb hal
    simp only [holes, List.mem_cons] at hb
    simp only [List.map_cons, every_other, List.mem_cons]
    rcases hb with hb | hb | hb
    · left
      rw [hb]
    · rw [hb] at hal
      have := hall c (by simp)
      omega
    · right
      exact ih (fun x hx => hall x (by simp [hx])) b hb hal

/-- In a well-formed heap all of whose free blocks have 40 bytes, and that has a free block,
`malloc(16)` takes a whole free block: it calls `place` on a free block `q` of 40 bytes, and
`place` marks the 40 bytes allocated without splitting. -/
theorem reuse_step {s : Heap} {L : List Blk} {fl : Nat → List Nat} (h : Wf s L fl)
    (hsz : ∀ b ∈ L, b.al = 0 → b.sz = 40) (hex : free_blocks L ≠ []) :
    ∃ m q pre post, L = pre ++ ⟨q, 40, 0⟩ :: post ∧ q ≠ 0 ∧
      malloc s 16 = some (place s q (malloc_asize 16), q) ∧
      place s q (malloc_asize 16) = { s with mem := m } ∧
      GET_SIZE s.mem (HDRP q) = 40 ∧ GET_ALLOC s.mem (HDRP q) = 0 ∧
      Wf { s with mem := m } (pre ++ ⟨q, 40, 1⟩ :: post) (placedLists fl q 40 24) := by
  have e16 : malloc_asize 16 = 24 := by decide
  have hr : spec_find_fit s.mem (malloc_asize 16) fl ≠ 0 := by
    intro h0
    obtain ⟨b, hb⟩ := List.exists_mem_of_ne_nil _ hex
    unfold free_blocks at hb
    rw [List.mem_filter] at hb
    have hal : b.al = 0 := by simpa using hb.2
    have := (h.1.find_fit_miss_iff h.2.1 (malloc_asize 16)).1 h0 b hb.1 hal
    have := hsz b hb.1 hal
    omega
  obtain ⟨pre, c, post, m, e0, _, k1, k3, _⟩ := malloc_hit_wf h (by decide) (by decide) hr
  have hm := (find_fit_sound_lemma h.1.index h.1.in_region (malloc_asize 16)).2.2.2.2
    16 (by decide) rfl hr
  generalize spec_find_fit s.mem (malloc_asize 16) fl = q at *
  have hmem : (⟨q, c, 0⟩ : Blk) ∈ L := by
    rw [e0]
    exact List.mem_append_right _ (List.mem_cons_self _ _)
  have hc : c = 40 := hsz _ hmem rfl
  subst hc
  have hpl : place s q (malloc_asize 16) = { s with mem := m } := by
    rw [hm] at k1
    exact (Prod.mk.inj (Option.some.inj k1)).1
  have htags := h.1.tags hmem
  simp only at htags
  have epl : placedBlocks q 40 (malloc_asize 16) = [⟨q, 40, 1⟩] := by
    rw [e16]
    rfl
  rw [epl, e16] at k3
  simp only [List.append_assoc, List.cons_append, List.nil_append] at k3
  exact ⟨m, q, pre, post, e0, hr, hm, hpl, htags.2.2.1, htags.2.2.2.1, k3⟩

theorem free_blocks_append (l1 l2 : List Blk) :
    free_blocks (l1 ++ l2) = free_blocks l1 ++ free_blocks l2 := by
  unfold free_blocks
  rw [List.filter_append]

/-- The state of scenario 3 after its first two phases is well formed, its free blocks are
500 blocks of 40 bytes at freed pointers, and the break is `105984`. -/
theorem scenario3_holes :
    ∃ L fl, Wf scenario3 L fl ∧
      (∀ b ∈ L, b.al = 0 → b.sz = 40 ∧ b.bp ∈ every_other scenario3_ptrs) ∧
      (free_blocks L).length = 500 ∧ scenario3.mem_brk = 105984 ∧
      (∀ p ∈ scenario3_ptrs, p ≠ 0) := by
  obtain ⟨fl, h1, h2, _, h4, _, h6⟩ := scenario3_phase1 1000 (le_refl _)
  obtain ⟨t1, t2, t3, t4⟩ := tail_run_1000
  have hbl : (Tail.run 32 tail0 1000).blocks = [] ++ (Tail.run 32 tail0 1000).rev.reverse := by
    unfold Tail.blocks
    rw [t1]
    simp
  rw [hbl] at h1
  rw [t2] at h2
  have hall : ∀ b ∈ (Tail.run 32 tail0 1000).rev.reverse, b.al = 1 :=
    fun b hb => h4 b (List.mem_reverse.1 hb)
  clear h4 hbl t1
  have e3 : scenario3 = free_each (after_mallocs 32 heap0 1000) (every_other scenario3_ptrs) := rfl
  generalize (Tail.run 32 tail0 1000).rev.reverse = A at *
  generalize after_mallocs 32 heap0 1000 = s1 at *
  have hp : scenario3_ptrs = A.map Blk.bp := h6.symm
  obtain ⟨m, fl1, e1, e2⟩ := free_each_holes A _ [] fl h1 rfl hall
  rw [hp] at e3
  rw [e1] at e3
  rw [e3, hp]
  simp only [List.nil_append] at e2
  refine ⟨holes A, fl1, e2, ?_, t4, (SameBounds.mem s1 m).1.trans h2, ?_⟩
  · intro b hb hal
    refine ⟨?_, holes_free_mem A hall b hb hal⟩
    have := List.all_eq_true.1 t3 b hb
    simp only [decide_eq_true_eq] at this
    exact this hal
  · intro p hp1
    obtain ⟨b, hb, rfl⟩ := List.mem_map.1 hp1
    have := h1.1.blk (List.mem_append_right [] hb)
    have hpos := h1.1.seg_pos
    omega

theorem after_mallocs_zero (n : Nat) (s : Heap) : after_mallocs n s 0 = s := rfl

theorem after_mallocs_succ (n : Nat) (s : Heap) (k : Nat) :
    after_mallocs n s (k + 1) = after_malloc (after_mallocs n s k) n := rfl

theorem free_blocks_length_placed (pre post : List Blk) (q c : Nat) :
    (free_blocks (pre ++ ⟨q, c, 0⟩ :: post)).length =
      (free_blocks (pre ++ ⟨q, c, 1⟩ :: post)).length + 1 := by
  simp [free_blocks, List.filter_cons]
  omega

/-- What one call `malloc(16)` does in a well-formed heap all of whose free blocks have 40
bytes and lie at addresses of the set `H`. -/
theorem post_some (s : Heap) (x : Heap × Nat) : post s (some x) = x.1 := rfl

theorem after_malloc_of_some {s s1 : Heap} {n p : Nat} (h : malloc s n = some (s1, p)) :
    after_malloc s n = s1 := by
  unfold after_malloc
  rw [h, post_some]

theorem reuse_call {s : Heap} {L : List Blk} {fl : Nat → List Nat} {H : List Nat} {k : Nat}
    (h : Wf s L fl) (hsz : ∀ b ∈ L, b.al = 0 → b.sz = 40 ∧ b.bp ∈ H)
    (hlen : (free_blocks L).length = k + 1) :
    ∃ q, q ∈ H ∧ q ≠ 0 ∧ malloc s 16 = some (place s q (malloc_asize 16), q) ∧
      GET_SIZE s.mem (HDRP q) = 40 ∧ GET_ALLOC s.mem (HDRP q) = 0 ∧
      GET4 (after_malloc s 16).mem (HDRP q) = PACK 40 1 ∧
      (after_malloc s 16).mem_brk = s.mem_brk ∧
      ∃ L1 fl1, Wf (after_malloc s 16) L1 fl1 ∧
        (∀ b ∈ L1, b.al = 0 → b.sz = 40 ∧ b.bp ∈ H) ∧ (free_blocks L1).length = k := by
  have hex : free_blocks L ≠ [] := by
    intro h0
    rw [h0] at hlen
    simp at hlen
  obtain ⟨m, q, pre, pst, e0, hq, hm, hpl, g1, g2, k3⟩ :=
    reuse_step h (fun b hb hal => (hsz b hb hal).1) hex
  have hqH : q ∈ H := by
    have := (hsz ⟨q, 40, 0⟩ (by rw [e0]; exact List.mem_append_right _ (List.mem_cons_self _ _))
      rfl).2
    exact this
  have ea : after_malloc s 16 = { s with mem := m } := by
    rw [after_malloc_of_some hm]
    exact hpl
  rw [ea]
  have htag := (k3.1.tags (List.mem_append_right pre (List.mem_cons_self _ _))).1
  refine ⟨q, hqH, hq, hm, g1, g2, htag, rfl, _, _, k3, ?_, ?_⟩
  · intro b hb hal
    refine hsz b ?_ hal
    rw [e0]
    rcases List.mem_append.1 hb with hb1 | hb1
    · exact List.mem_append_left _ hb1
    · rcases List.mem_cons.1 hb1 with hb2 | hb2
      · rw [hb2] at hal
        simp at hal
      · exact List.mem_append_right _ (List.mem_cons_of_mem _ hb2)
  · have := free_blocks_length_placed pre pst q 40
    rw [← e0, hlen] at this
    omega

/-- The third phase of scenario 3: after `i` of the 500 calls `malloc(16)` the heap is well
formed, its free blocks are `500 - i` blocks of 40 bytes at freed pointers, and the break
is still `105984`. -/
theorem scenario3_phase3 (i : Nat) (hi : i ≤ 500) :
    ∃ L fl, Wf (after_mallocs 16 scenario3 i) L fl ∧
      (∀ b ∈ L, b.al = 0 → b.sz = 40 ∧ b.bp ∈ every_other scenario3_ptrs) ∧
      (free_blocks L).length = 500 - i ∧ (after_mallocs 16 scenario3 i).mem_brk = 105984 := by
  induction i with
  | zero =>
    obtain ⟨L, fl, h1, h2, h3, h4, _⟩ := scenario3_holes
    rw [after_mallocs_zero]
    exact ⟨L, fl, h1, h2, h3, h4⟩
  | succ i ih =>
    obtain ⟨L, fl, h1, h2, h3, h4⟩ := ih (by omega)
    have hlen : (free_blocks L).length = (500 - (i + 1)) + 1 := by omega
    obtain ⟨q, _, _, _, _, _, _, hb, L1, fl1, j1, j2, j3⟩ := reuse_call h1 h2 hlen
    rw [after_mallocs_succ]
    exact ⟨L1, fl1, j1, j2, j3, hb.trans h4⟩

/-- Call number `i` (from 0) of the 500 calls `malloc(16)` of scenario 3. -/
theorem scenario3_call (i : Nat) (hi : i < 500) :
    ∃ q, q ∈ every_other scenario3_ptrs ∧ q ≠ 0 ∧
      malloc (after_mallocs 16 scenario3 i) 16 =
        some (place (after_mallocs 16 scenario3 i) q (malloc_asize 16), q) ∧
      GET_SIZE (after_mallocs 16 scenario3 i).mem (HDRP q) = 40 ∧
      GET_ALLOC (after_mallocs 16 scenario3 i).mem (HDRP q) = 0 ∧
      ¬ ((GET_SIZE (after_mallocs 16 scenario3 i).mem (HDRP q) + U64 - malloc_asize 16) % U64 ≥
        OVERHEAD) ∧
      GET4 (after_mallocs 16 scenario3 (i + 1)).mem (HDRP q) = PACK 40 1 ∧
      (after_mallocs 16 scenario3 (i + 1)).mem_brk = 105984 ∧
      (after_mallocs 16 scenario3 i).mem_brk = 105984 ∧
      ∃ L fl, Wf (after_mallocs 16 scenario3 (i + 1)) L fl ∧
        (∀ b ∈ L, b.al = 0 → b.sz = 40) ∧ (free_blocks L).length = 499 - i := by
  obtain ⟨L, fl, h1, h2, h3, h4⟩ := scenario3_phase3 i (by omega)
  have hlen : (free_blocks L).length = (500 - (i + 1)) + 1 := by omega
  obtain ⟨q, c1, c2, c3, c4, c5, c6, c7, L1, fl1, d1, d2, d3⟩ := reuse_call h1 h2 hlen
  rw [after_mallocs_succ]
  refine ⟨q, c1, c2, c3, c4, c5, ?_, c6, c7.trans h4, h4, L1, fl1, d1,
    fun b hb hal => (d2 b hb hal).1, ?_⟩
  · rw [c4]
    decide
  · rw [d3]
    omega

/-- C24 (counterexample): in scenario 3 (1,000 calls `malloc(32)` on the fresh heap, then
`free` of every other returned pointer) the first call `malloc(16)` does not split.  The
heap before the call is well formed with 500 free blocks; `find_fit` yields a freed
pointer `q` whose block is free and 40 bytes long, the test `csize - asize >= OVERHEAD` of
`place` is false (the remainder would be 16 bytes), the whole 40-byte block is marked
allocated, and the heap after the call is well formed with 499 free blocks: no free
remainder has been inserted. -/
theorem scenario3_first_call_does_not_split :
    (∃ L fl, Wf scenario3 L fl ∧ (free_blocks L).length = 500) ∧
    ∃ q, q ∈ every_other scenario3_ptrs ∧ q ≠ 0 ∧
      malloc scenario3 16 = some (place scenario3 q (malloc_asize 16), q) ∧
      GET_SIZE scenario3.mem (HDRP q) = 40 ∧ GET_ALLOC scenario3.mem (HDRP q) = 0 ∧
      malloc_asize 16 = 24 ∧
      ¬ ((GET_SIZE scenario3.mem (HDRP q) + U64 - malloc_asize 16) % U64 ≥ OVERHEAD) ∧
      GET4 (after_malloc scenario3 16).mem (HDRP q) = PACK 40 1 ∧
      ∃ L fl, Wf (after_malloc scenario3 16) L fl ∧ (free_blocks L).length = 499 := by
  obtain ⟨L0, fl0, a1, _, a3, _⟩ := scenario3_holes
  obtain ⟨q, c1, c2, c3, c4, c5, c6, c7, _, _, L, fl, d1, _, d3⟩ :=
    scenario3_call 0 (by decide)
  rw [after_mallocs_succ, after_mallocs_zero] at c7 d1
  rw [after_mallocs_zero] at c3 c4 c5 c6
  exact ⟨⟨L0, fl0, a1, a3⟩, q, c1, c2, c3, c4, c5, by decide, c6, c7, L, fl, d1, d3⟩

/-- C24 (amended): scenario 3 reuse without split.  After `mm_init`, 1,000 calls
`malloc(32)` and `free` of every other returned pointer, call number `i` (from 0) of the
500 subsequent calls `malloc(16)` returns one of the freed pointers: a free block of 40
bytes, the hole left by a 32-byte allocation.  The adjusted size is 24, the remainder
40 - 24 = 16 is below `OVERHEAD`, so `place` takes its no-split branch: the whole 40-byte
hole becomes allocated and no free remainder is inserted (the heap after the call is well
formed, all its free blocks are 40-byte holes and there are `499 - i` of them).  The break
is `105984` before and after the call: no call extends the region. -/
theorem scenario3_reuse_whole_hole (i : Nat) (hi : i < 500) :
    ∃ q, q ∈ every_other scenario3_ptrs ∧ q ≠ 0 ∧
      malloc (after_mallocs 16 scenario3 i) 16 =
        some (place (after_mallocs 16 scenario3 i) q (malloc_asize 16), q) ∧
      GET_SIZE (after_mallocs 16 scenario3 i).mem (HDRP q) = 40 ∧
      GET_ALLOC (after_mallocs 16 scenario3 i).mem (HDRP q) = 0 ∧
      ¬ ((GET_SIZE (after_mallocs 16 scenario3 i).mem (HDRP q) + U64 - malloc_asize 16) % U64 ≥
        OVERHEAD) ∧
      GET4 (after_mallocs 16 scenario3 (i + 1)).mem (HDRP q) = PACK 40 1 ∧
      (after_mallocs 16 scenario3 (i + 1)).mem_brk = 105984 ∧
      (after_mallocs 16 scenario3 i).mem_brk = 105984 ∧
      ∃ L fl, Wf (after_mallocs 16 scenario3 (i + 1)) L fl ∧
        (∀ b ∈ L, b.al = 0 → b.sz = 40) ∧ (free_blocks L).length = 499 - i :=
  scenario3_call i hi

/-- The last of the 500 calls `malloc(16)` of scenario 3 (call number 499) takes a whole
40-byte hole and leaves no free block. -/
theorem scenario3_reuse_whole_hole_witness :
    499 < 500 ∧
    ∃ q, q ∈ every_other scenario3_ptrs ∧ q ≠ 0 ∧
      malloc (after_mallocs 16 scenario3 499) 16 =
        some (place (after_mallocs 16 scenario3 499) q (malloc_asize 16), q) ∧
      GET_SIZE (after_mallocs 16 scenario3 499).mem (HDRP q) = 40 ∧
      GET_ALLOC (after_mallocs 16 scenario3 499).mem (HDRP q) = 0 ∧
      ¬ ((GET_SIZE (after_mallocs 16 scenario3 499).mem (HDRP q) + U64 - malloc_asize 16) % U64 ≥
        OVERHEAD) ∧
      GET4 (after_mallocs 16 scenario3 (499 + 1)).mem (HDRP q) = PACK 40 1 ∧
      (after_mallocs 16 scenario3 (499 + 1)).mem_brk = 105984 ∧
      (after_mallocs 16 scenario3 499).mem_brk = 105984 ∧
      ∃ L fl, Wf (after_mallocs 16 scenario3 (499 + 1)) L fl ∧
        (∀ b ∈ L, b.al = 0 → b.sz = 40) ∧ (free_blocks L).length = 499 - 499 :=
  ⟨by decide, scenario3_reuse_whole_hole 499 (by decide)⟩

end Malloc
